import Mathlib

/-!
Verification of the labelarr repository: a shallow embedding, in Lean 4, of
the keyword-normalization engine, the duplicate reconciler, the TMDb path
identifier extractor, the per-item synchronization decision logic, the
multi-source identifier resolver, the retry behaviour of the TMDb client,
the export accumulator flush, and the persistent processing-record store.

Strings are modelled as lists of Unicode code points (`Nat`), with the
character-level operations reproducing Go's behaviour on the ASCII range
(`strings.ToLower`, `strings.ToUpper`, `unicode.IsSpace`, the RE2 classes
`\s`, `\d`, `\w`, `[a-zA-Z0-9]`).
-/

set_option maxRecDepth 10000

namespace Labelarr

/-- Strings are lists of code points. -/
abbrev Str := List Nat

/-- Encode a Lean string literal into the code-point model. -/
def str (s : String) : Str := s.data.map Char.toNat

/-- Go `unicode.IsSpace` restricted to Latin-1:
tab, lf, vt, ff, cr, space, NEL, NBSP. -/
def goSpace (c : Nat) : Bool :=
  c = 9 || c = 10 || c = 11 || c = 12 || c = 13 || c = 32 || c = 133 || c = 160

/-- RE2 character class `\s` = `[\t\n\f\r ]`. -/
def reSpace (c : Nat) : Bool :=
  c = 9 || c = 10 || c = 12 || c = 13 || c = 32

/-- RE2 `\d` = `[0-9]`. -/
def isDigitR (c : Nat) : Bool := 48 ≤ c && c ≤ 57

/-- ASCII `[A-Z]`. -/
def isUpperR (c : Nat) : Bool := 65 ≤ c && c ≤ 90

/-- ASCII `[a-z]`. -/
def isLowerR (c : Nat) : Bool := 97 ≤ c && c ≤ 122

/-- `[a-zA-Z0-9]`. -/
def isAlnumR (c : Nat) : Bool := isDigitR c || isUpperR c || isLowerR c

/-- RE2 `\w` = `[0-9A-Za-z_]`. -/
def isWordR (c : Nat) : Bool := isAlnumR c || c = 95

/-- Go `unicode.ToLower` on the ASCII range. -/
def toLowerR (c : Nat) : Nat := if isUpperR c then c + 32 else c

/-- Go `unicode.ToUpper` on the ASCII range. -/
def toUpperR (c : Nat) : Nat := if isLowerR c then c - 32 else c

/-- Go `strings.ToLower`. -/
def toLowerStr (s : Str) : Str := s.map toLowerR

/-- Go `strings.ToUpper`. -/
def toUpperStr (s : Str) : Str := s.map toUpperR

/-- Is `p` a prefix of `s`? -/
def isPre : Str → Str → Bool
  | [], _ => true
  | _ :: _, [] => false
  | a :: ps, b :: ss => a = b && isPre ps ss

/-- Is `suf` a suffix of `s`? -/
def isSuf (suf s : Str) : Bool := isPre suf.reverse s.reverse

/-- Does the string contain the character `c`? -/
def hasChar (s : Str) (c : Nat) : Bool := s.any fun d => d = c

/-- Is the string `x` among `ys`? (Go map-key membership.) -/
def memStr (x : Str) : List Str → Bool
  | [] => false
  | y :: rest => y = x || memStr x rest

/-- Drop trailing characters satisfying `p`. -/
def dropTrail (p : Nat → Bool) (s : Str) : Str :=
  (s.reverse.dropWhile p).reverse

/-- Go `strings.TrimSpace`. -/
def trimSpace (s : Str) : Str := dropTrail goSpace (s.dropWhile goSpace)

/-- Go `strings.Fields`: split on runs of `unicode.IsSpace`. -/
def fields : Str → List Str
  | [] => []
  | c :: rest =>
    if goSpace c then fields rest
    else
      match rest with
      | [] => [[c]]
      | d :: _ =>
        if goSpace d then [c] :: fields rest
        else
          match fields rest with
          | [] => [[c]]
          | w :: ws => (c :: w) :: ws

/-- Go `strings.Join(ws, " ")`. -/
def unwords : List Str → Str
  | [] => []
  | [w] => w
  | w :: ws => w ++ 32 :: unwords ws

/-- Go `strings.Split(s, "-")` (keeps empty segments). -/
def splitHyphen : Str → List Str
  | [] => [[]]
  | c :: rest =>
    if c = 45 then [] :: splitHyphen rest
    else
      match splitHyphen rest with
      | [] => [[c]]
      | p :: ps => (c :: p) :: ps

/-- Go `strings.Join(ps, "-")`. -/
def joinHyphen : List Str → Str
  | [] => []
  | [p] => p
  | p :: ps => p ++ 45 :: joinHyphen ps

/-- Uppercase the first character. -/
def capFirst : Str → Str
  | [] => []
  | c :: rest => toUpperR c :: rest

/-- Does the word contain an ASCII lowercase letter? -/
def hasLowerStr (s : Str) : Bool := s.any isLowerR

/-- Does the word contain an ASCII uppercase letter? -/
def hasUpperStr (s : Str) : Bool := s.any isUpperR

/-- One hyphen-delimited segment of `titleCase`: lowercase it all, then
capitalize the first rune; empty segments are kept as-is. -/
def capPart (p : Str) : Str := if p = [] then p else capFirst (toLowerStr p)

/-- Embedding of `titleCase` (utils): preserve mixed-case words; capitalize
each hyphen-delimited segment of hyphenated words; otherwise lowercase the
word and capitalize its first rune. -/
def titleCase (s : Str) : Str :=
  if s = [] then s
  else if hasLowerStr s && hasUpperStr s then s
  else if hasChar s 45 then joinHyphen ((splitHyphen s).map capPart)
  else capFirst (toLowerStr s)

/-- The `commonAcronyms` table. -/
def commonAcronyms : List Str :=
  [str "usa", str "uk", str "us", str "u.s.", str "fbi", str "cia", str "nsa",
   str "dea", str "atf", str "ice", str "epa", str "irs", str "sec", str "nasa",
   str "nypd", str "lapd", str "swat", str "dc", str "nyc", str "la", str "sf",
   str "ai", str "a.i.", str "cgi", str "vr", str "ar", str "3d", str "4k",
   str "hd", str "uhd", str "lgbt", str "lgbtq", str "wwi", str "wwii",
   str "ufo", str "tv", str "mtv", str "vhs", str "dvd", str "cd", str "dj",
   str "mc", str "bc", str "ad", str "bbc", str "cbs", str "nbc", str "abc",
   str "cnn", str "suv", str "rv", str "phd", str "md", str "ceo", str "cto",
   str "cfo", str "hr", str "it", str "pr", str "pc", str "mac", str "ios",
   str "os"]

/-- The `lowercaseWords` stopword table. -/
def lowercaseWords : List Str :=
  [str "a", str "an", str "and", str "as", str "at", str "but", str "by",
   str "for", str "from", str "in", str "into", str "nor", str "of", str "on",
   str "or", str "over", str "the", str "to", str "up", str "with",
   str "within"]

/-- The `criticalReplacements` table. -/
def criticalReplacements : List (Str × Str) :=
  [(str "sci-fi", str "Sci-Fi"),
   (str "scifi", str "Sci-Fi"),
   (str "sci fi", str "Sci-Fi"),
   (str "romcom", str "Romantic Comedy"),
   (str "rom-com", str "Romantic Comedy"),
   (str "bio-pic", str "Biopic"),
   (str "bio pic", str "Biopic"),
   (str "neo-noir", str "Neo-Noir"),
   (str "neo noir", str "Neo-Noir"),
   (str "duringcreditsstinger", str "During Credits Stinger"),
   (str "aftercreditsstinger", str "After Credits Stinger"),
   (str "midcreditsstinger", str "Mid Credits Stinger")]

/-- Lookup in an association list. All key tables here have distinct keys,
so first-match lookup agrees with a Go map. -/
def tableLookup (pairs : List (Str × Str)) (k : Str) : Option Str :=
  match pairs with
  | [] => none
  | (a, b) :: rest => if a = k then some b else tableLookup rest k

/-- One word of `applyTitleCase`: uppercase known acronyms, capitalize the
first word and non-stopwords, lowercase subsequent stopwords. -/
def tcWord (first : Bool) (w : Str) : Str :=
  if memStr (toLowerStr w) commonAcronyms then toUpperStr w
  else if first || !(memStr (toLowerStr w) lowercaseWords) then titleCase w
  else toLowerStr w

/-- `applyTitleCase`'s loop over the word list (the index only matters as
zero / nonzero). -/
def tcWords : Bool → List Str → List Str
  | _, [] => []
  | first, w :: ws => tcWord first w :: tcWords false ws

/-- Embedding of `applyTitleCase` (utils). -/
def applyTitleCase (phrase : Str) : Str :=
  let ws := fields phrase
  if ws = [] then phrase else unwords (tcWords true ws)

/-- `^\d{4}s$` (the decade pattern). -/
def decadeMatch : Str → Bool
  | [a, b, c, d, e] => isDigitR a && isDigitR b && isDigitR c && isDigitR d && e = 115
  | _ => false

/-- `^([^,]+),\s*([^,]+)$` (the city/state pattern), with RE2
leftmost-first submatch semantics. -/
def cityStateMatch (s : Str) : Option (Str × Str) :=
  let before := s.takeWhile (fun c => !(c = 44))
  match s.dropWhile (fun c => !(c = 44)) with
  | [] => none
  | _ :: rest =>
    if before = [] then none
    else if hasChar rest 44 then none
    else if rest = [] then none
    else
      let m2 := rest.dropWhile reSpace
      if m2 = [] then some (before, rest.drop (rest.length - 1))
      else some (before, m2)

/-- Split off the leading maximal `\w` run. -/
def spanWord (s : Str) : Str × Str := (s.takeWhile isWordR, s.dropWhile isWordR)

/-- Split off the leading maximal `\s` run. -/
def spanSpace (s : Str) : Str × Str := (s.takeWhile reSpace, s.dropWhile reSpace)

/-- Try to match `(\w+)\s+vs\s+(\w+)\b` at the current position (which is
assumed to sit at a `\b` boundary). -/
def versusHere (s : Str) : Option (Str × Str) :=
  let (w1, r1) := spanWord s
  if w1 = [] then none
  else
    let (sp1, r2) := spanSpace r1
    if sp1 = [] then none
    else
      match r2 with
      | a :: b :: r3 =>
        if a = 118 && b = 115 then
          let (sp2, r4) := spanSpace r3
          if sp2 = [] then none
          else
            let (w2, _) := spanWord r4
            if w2 = [] then none else some (w1, w2)
        else none
      | _ => none

/-- Scan for the leftmost match of `\b(\w+)\s+vs\s+(\w+)\b`; the flag says
whether the current position is preceded by a non-word character (or is the
start of the string). -/
def versusScan : Str → Bool → Option (Str × Str)
  | [], _ => none
  | c :: rest, bOK =>
    if bOK && isWordR c then
      match versusHere (c :: rest) with
      | some m => some m
      | none => versusScan rest false
    else versusScan rest (!(isWordR c))

/-- `versusPattern.FindStringSubmatch` (unanchored). -/
def versusFind (s : Str) : Option (Str × Str) := versusScan s true

/-- `^based on (.+)$` (`.` excludes newline). -/
def basedOnMatch (s : Str) : Option Str :=
  if isPre (str "based on ") s then
    let rest := s.drop 9
    if rest = [] then none else if hasChar rest 10 then none else some rest
  else none

/-- The kinship alternation of `relationshipPattern`. -/
def kinWords : List Str :=
  [str "father", str "mother", str "parent", str "brother", str "sister",
   str "son", str "daughter"]

/-- If `s` starts with a word from `ws`, drop it (no word in any of the
alternations used here is a prefix of another, so this is the regex
alternation semantics). -/
def stripOne (ws : List Str) (s : Str) : Option Str :=
  ws.findSome? fun k => if isPre k s then some (s.drop k.length) else none

/-- `^(kin)\s+(kin)(?:\s+relationship)?$`. -/
def relationshipMatch (s : Str) : Bool :=
  match stripOne kinWords s with
  | none => false
  | some r1 =>
    let (sp1, r2) := spanSpace r1
    if sp1 = [] then false
    else
      match stripOne kinWords r2 with
      | none => false
      | some r3 =>
        if r3 = [] then true
        else
          let (sp2, r4) := spanSpace r3
          !(sp2 = []) && r4 = str "relationship"

/-- The ethnicity alternation of `ethnicityPattern`. -/
def ethWords : List Str :=
  [str "african", str "asian", str "european", str "american", str "british",
   str "french", str "german", str "italian", str "spanish", str "chinese",
   str "japanese", str "korean", str "indian", str "mexican", str "latin",
   str "hispanic"]

/-- The descriptor alternation of `ethnicityPattern`. -/
def descWords : List Str :=
  [str "american", str "lead", str "character", str "protagonist",
   str "antagonist", str "actor", str "actress"]

/-- `^(eth)\s+(desc)$`. -/
def ethnicityMatch (s : Str) : Bool :=
  match stripOne ethWords s with
  | none => false
  | some r1 =>
    let (sp1, r2) := spanSpace r1
    !(sp1 = []) && memStr r2 descWords

/-- `[a-z.]`. -/
def isAcrChar (c : Nat) : Bool := isLowerR c || c = 46

/-- `^(.+)\s+\(([a-z.]+)\)$`: the string must end in `(acr)` with a single
space consumed by `\s+` (the greedy `(.+)` absorbs everything before it). -/
def acronymParensMatch (s : Str) : Option (Str × Str) :=
  if s.getLast? = some 41 then
    let t := s.dropLast
    let acr := (t.reverse.takeWhile isAcrChar).reverse
    if acr = [] then none
    else
      let u := t.take (t.length - acr.length)
      if u.getLast? = some 40 then
        let v := u.dropLast
        match v.getLast? with
        | some c =>
          if reSpace c then
            let m1 := v.dropLast
            if m1 = [] then none
            else if hasChar m1 10 then none
            else some (m1, acr)
          else none
        | none => none
      else none
  else none

/-- The role alternation of `agencyPattern` (matched to end of string). -/
def roleWords : List Str :=
  [str "agent", str "director", str "officer", str "investigator",
   str "detective", str "operative", str "analyst", str "chief",
   str "deputy", str "special agent"]

/-- `^([a-z]{2,5})\s+(role)$`. -/
def agencyMatch (s : Str) : Option (Str × Str) :=
  let ag := s.takeWhile isLowerR
  if 2 ≤ ag.length && ag.length ≤ 5 then
    let (sp, r2) := spanSpace (s.dropWhile isLowerR)
    if sp = [] then none
    else if memStr r2 roleWords then some (ag, r2) else none
  else none

/-- The two-letter ordinal alternation `st|nd|rd|th`. -/
def ordOK (a b : Nat) : Bool :=
  (a = 115 && b = 116) || (a = 110 && b = 100) || (a = 114 && b = 100) ||
  (a = 116 && b = 104)

/-- `^(\d+)(st|nd|rd|th)\s+century(\s+[a-z]+)?$`; returns the digits, the
ordinal and the (already trimmed) suffix letters, `[]` when absent. -/
def centuryMatch (s : Str) : Option (Str × Str × Str) :=
  let ds := s.takeWhile isDigitR
  if ds = [] then none
  else
    match s.dropWhile isDigitR with
    | o1 :: o2 :: r2 =>
      if ordOK o1 o2 then
        let (sp1, r3) := spanSpace r2
        if sp1 = [] then none
        else if isPre (str "century") r3 then
          let r4 := r3.drop 7
          if r4 = [] then some (ds, [o1, o2], [])
          else
            let (sp2, r5) := spanSpace r4
            if sp2 = [] then none
            else if !(r5 = []) && r5.all isLowerR then some (ds, [o1, o2], r5)
            else none
        else none
      else none
    | _ => none

/-- Case-insensitive `strings.HasSuffix(strings.ToLower(s), suf)`. -/
def hasSuffixLower (s suf : Str) : Bool := isSuf suf (toLowerStr s)

/-- Embedding of `applyPatternNormalization` (utils). Go signals "no
pattern matched" with the empty string; since every pattern's output is
nonempty, `Option` is the faithful model. -/
def applyPatternNormalization (keyword : Str) : Option Str :=
  if decadeMatch keyword then some keyword
  else
    match cityStateMatch keyword with
    | some (m1, m2) => some (applyTitleCase m1 ++ str ", " ++ applyTitleCase m2)
    | none =>
      match versusFind keyword with
      | some (w1, w2) => some (applyTitleCase w1 ++ str " vs " ++ applyTitleCase w2)
      | none =>
        match basedOnMatch keyword with
        | some rest => some (str "Based on " ++ applyTitleCase rest)
        | none =>
          if relationshipMatch keyword then
            let result := unwords ((fields keyword).map titleCase)
            if hasSuffixLower result (str "relationship") then some result
            else some (result ++ str " Relationship")
          else if ethnicityMatch keyword then
            some (unwords ((fields keyword).map titleCase))
          else
            match acronymParensMatch keyword with
            | some (m1, acr) =>
              some (applyTitleCase m1 ++ str " (" ++ toUpperStr acr ++ str ")")
            | none =>
              match agencyMatch keyword with
              | some (ag, role) =>
                if memStr ag commonAcronyms || ag.length ≤ 4 then
                  some (toUpperStr ag ++ 32 :: titleCase role)
                else some (titleCase ag ++ 32 :: titleCase role)
              | none =>
                match centuryMatch keyword with
                | some (ds, ord, suf) =>
                  let century := ds ++ ord ++ str " Century"
                  if suf = [] then some century
                  else if memStr suf commonAcronyms || suf.length ≤ 2 then
                    some (century ++ 32 :: toUpperStr suf)
                  else some (century ++ 32 :: titleCase suf)
                | none => none

/-- Embedding of `NormalizeKeyword` (utils). -/
def normalizeKeyword (keyword : Str) : Str :=
  let k := trimSpace keyword
  if k = [] then k
  else
    let l := toLowerStr k
    match tableLookup criticalReplacements l with
    | some v => v
    | none =>
      match applyPatternNormalization l with
      | some r => r
      | none =>
        if memStr l commonAcronyms then toUpperStr k
        else applyTitleCase k

/-- `NormalizeKeywords`' loop, threading the set of already-seen lowercased
outputs. -/
def normalizeKeywordsAux : List Str → List Str → List Str
  | [], _ => []
  | k :: ks, seen =>
    let n := normalizeKeyword k
    let nl := toLowerStr n
    if memStr nl seen then normalizeKeywordsAux ks seen
    else n :: normalizeKeywordsAux ks (nl :: seen)

/-- Embedding of `NormalizeKeywords` (utils): normalize each keyword and
drop case-insensitive duplicates, first occurrence wins. -/
def normalizeKeywords (ks : List Str) : List Str := normalizeKeywordsAux ks []

/-- The `normalizedMap` of `CleanDuplicateKeywords`: a Go map built by
insertion, so the last entry for a key wins. -/
def mapLookupLast (pairs : List (Str × Str)) (k : Str) : Option Str :=
  match pairs with
  | [] => none
  | (a, b) :: rest =>
    match mapLookupLast rest k with
    | some v => some v
    | none => if a = k then some b else none

/-- Is the current keyword marked for removal by `CleanDuplicateKeywords`?
(Its normalized form appears among the fresh keywords and differs from the
proper form.) -/
def markedForRemoval (fresh : List Str) (c : Str) : Bool :=
  match mapLookupLast (fresh.map fun k => (toLowerStr k, k))
      (toLowerStr (normalizeKeyword c)) with
  | some pf => !(c = pf)
  | none => false

/-- First loop of `CleanDuplicateKeywords`: keep current keywords that are
neither marked for removal nor case-insensitive duplicates of an already
kept one; also returns the final seen-set. -/
def cleanCurrent (fresh : List Str) : List Str → List Str → List Str × List Str
  | [], seen => ([], seen)
  | c :: cs, seen =>
    if !(markedForRemoval fresh c) && !(memStr (toLowerStr c) seen) then
      let (out, seen2) := cleanCurrent fresh cs (toLowerStr c :: seen)
      (c :: out, seen2)
    else cleanCurrent fresh cs seen

/-- Second loop of `CleanDuplicateKeywords`: append fresh keywords not yet
seen. -/
def addFresh : List Str → List Str → List Str
  | [], _ => []
  | k :: ks, seen =>
    if memStr (toLowerStr k) seen then addFresh ks seen
    else k :: addFresh ks (toLowerStr k :: seen)

/-- Embedding of `CleanDuplicateKeywords` (utils). -/
def cleanDuplicateKeywords (current fresh : List Str) : List Str :=
  let (part1, seen) := cleanCurrent fresh current []
  part1 ++ addFresh fresh seen

example : str "ab" = [97, 98] := by decide

example : normalizeKeyword (str "action") = str "Action" := by decide

example : normalizeKeyword (str "science fiction") = str "Science Fiction" := by decide

example : normalizeKeyword (str "fbi") = str "FBI" := by decide

example : normalizeKeyword (str "3d") = str "3D" := by decide

example : normalizeKeyword (str "sci-fi") = str "Sci-Fi" := by decide

example : normalizeKeyword (str "scifi") = str "Sci-Fi" := by decide

example : normalizeKeyword (str "romcom") = str "Romantic Comedy" := by decide

example : normalizeKeyword (str "1940s") = str "1940s" := by decide

example : normalizeKeyword (str "san francisco, california") = str "San Francisco, California" := by decide

example : normalizeKeyword (str "man vs nature") = str "Man vs Nature" := by decide

example : normalizeKeyword (str "based on novel") = str "Based on Novel" := by decide

example : normalizeKeyword (str "based on comic book") = str "Based on Comic Book" := by decide

example : normalizeKeyword (str "father daughter") = str "Father Daughter Relationship" := by decide

example : normalizeKeyword (str "father daughter relationship") = str "Father Daughter Relationship" := by decide

example : normalizeKeyword (str "mother son") = str "Mother Son Relationship" := by decide

example : normalizeKeyword (str "african american lead") = str "African American Lead" := by decide

example : normalizeKeyword (str "central intelligence agency (cia)") = str "Central Intelligence Agency (CIA)" := by decide

example : normalizeKeyword (str "artificial intelligence (a.i.)") = str "Artificial Intelligence (A.I.)" := by decide

example : normalizeKeyword (str "dea agent") = str "DEA Agent" := by decide

example : normalizeKeyword (str "nsa analyst") = str "NSA Analyst" := by decide

example : normalizeKeyword (str "5th century bc") = str "5th Century BC" := by decide

example : normalizeKeyword (str "10th century") = str "10th Century" := by decide

example : normalizeKeyword (str "short-term memory loss") = str "Short-Term Memory Loss" := by decide

example : normalizeKeyword (str "woman in peril") = str "Woman in Peril" := by decide

example : normalizeKeyword (str "lord of the rings") = str "Lord of the Rings" := by decide

example : normalizeKeyword (str "McDonald") = str "McDonald" := by decide

example : normalizeKeyword (str "iPhone") = str "iPhone" := by decide

example : normalizeKeyword (str "") = str "" := by decide

example : normalizeKeyword (str "a") = str "A" := by decide

example : normalizeKeyword (str "THE") = str "The" := by decide

example : normalizeKeywords [str "action", str "sci-fi", str "fbi", str "based on novel", str "time travel", str "woman in peril", str "action", str "ACTION"] = [str "Action", str "Sci-Fi", str "FBI", str "Based on Novel", str "Time Travel", str "Woman in Peril"] := by decide

example : cleanDuplicateKeywords [str "Action", str "sci-fi", str "Drama", str "Custom Tag"] [str "Sci-Fi", str "Time Travel"] = [str "Action", str "Drama", str "Custom Tag", str "Sci-Fi", str "Time Travel"] := by decide

example : cleanDuplicateKeywords [str "fbi", str "cia", str "action", str "romcom", str "Custom Label"] [str "FBI", str "CIA", str "Action", str "Romantic Comedy"] = [str "Custom Label", str "FBI", str "CIA", str "Action", str "Romantic Comedy"] := by decide

example : cleanDuplicateKeywords [str "dea agent", str "fbi director", str "Drama"] [str "DEA Agent", str "FBI Director"] = [str "Drama", str "DEA Agent", str "FBI Director"] := by decide

example : normalizeKeyword (str "sci  fi") = str "Sci Fi" := by decide

example : normalizeKeyword (str "Sci Fi") = str "Sci-Fi" := by decide

/-! ## The TMDb path identifier extractor

`ExtractTMDbIDFromPath` (media/processor.go) applies the RE2 pattern
`(?i)(?:^|[^a-zA-Z0-9])tmdb[^a-zA-Z0-9]*(\d+)(?:[^a-zA-Z0-9]|$)` and
returns the first submatch. The scanner below reproduces the leftmost
match: a candidate anchor is a position holding the (case-insensitive)
token `tmdb` whose predecessor, if any, is non-alphanumeric; after the
token, non-alphanumeric separators are skipped greedily (they cannot
absorb alphanumerics), then a nonempty maximal digit run must follow,
and the character after the run, if any, must be non-alphanumeric
(a shorter digit prefix can never satisfy the trailing class, since the
next character would be a digit). -/

/-- Try the `tmdb[^a-zA-Z0-9]*(\d+)(?:[^a-zA-Z0-9]|$)` tail at the current
position. -/
def tmdbHere (s : Str) : Option Str :=
  match s with
  | t :: m :: d :: b :: rest =>
    if toLowerR t = 116 && toLowerR m = 109 && toLowerR d = 100 && toLowerR b = 98 then
      let r1 := rest.dropWhile (fun c => !(isAlnumR c))
      let ds := r1.takeWhile isDigitR
      if ds = [] then none
      else
        match r1.drop ds.length with
        | [] => some ds
        | c :: _ => if isAlnumR c then none else some ds
    else none
  | _ => none

/-- Scan for the leftmost anchored match; the flag says whether the current
position may start the token (string start or preceded by a
non-alphanumeric character). -/
def tmdbScan : Str → Bool → Option Str
  | [], _ => none
  | c :: rest, bOK =>
    if bOK then
      match tmdbHere (c :: rest) with
      | some ds => some ds
      | none => tmdbScan rest (!(isAlnumR c))
    else tmdbScan rest (!(isAlnumR c))

/-- Embedding of `ExtractTMDbIDFromPath` (media/processor.go);
`none` models the empty-string return. -/
def extractTMDbIDFromPath (s : Str) : Option Str := tmdbScan s true

example : extractTMDbIDFromPath (str "/movies/The Matrix (1999) [tmdb-603]/file.mkv") = some (str "603") := by decide

example : extractTMDbIDFromPath (str "mytmdb12345") = none := by decide

example : extractTMDbIDFromPath (str "tmdb12345abc") = none := by decide

example : extractTMDbIDFromPath (str "tmdb") = none := by decide

example : extractTMDbIDFromPath (str "tmdb123") = some (str "123") := by decide

example : extractTMDbIDFromPath (str "a tmdb:1 b {tmdb-2}") = some (str "1") := by decide

example : extractTMDbIDFromPath (str "TMDB=77") = some (str "77") := by decide

/-! ## Go string helpers used by the resolvers -/

/-- Remainder after the first occurrence of `sep` (Go `strings.Split`
structure: `none` when `sep` does not occur). -/
def dropThroughSub (sep : Str) : Str → Option Str
  | [] => if sep = [] then some [] else none
  | c :: rest =>
    if isPre sep (c :: rest) then some ((c :: rest).drop sep.length)
    else dropThroughSub sep rest

/-- Segment before the next occurrence of `sep`. -/
def takeUntilSub (sep : Str) : Str → Str
  | [] => []
  | c :: rest =>
    if isPre sep (c :: rest) then [] else c :: takeUntilSub sep rest

/-- Go `strings.TrimPrefix`. -/
def trimPre (p s : Str) : Str := if isPre p s then s.drop p.length else s

/-- Go `strings.Contains`. -/
def containsSub (s sub : Str) : Bool :=
  match s with
  | [] => sub = []
  | c :: rest => isPre sub (c :: rest) || containsSub rest sub

/-- The movie GUID inspection of `extractMovieTMDbID`: for a GUID
containing `tmdb://`, `strings.Split(id, "//")[1]` up to the first `?`. -/
def guidTmdbMovie (g : Str) : Option Str :=
  if containsSub g (str "tmdb://") then
    match dropThroughSub (str "//") g with
    | some rem => some ((takeUntilSub (str "//") rem).takeWhile (fun c => !(c = 63)))
    | none => none
  else none

/-- The TV GUID inspection of `extractTVShowTMDbID`:
`strings.HasPrefix(id, "tmdb://")` then `TrimPrefix`. -/
def guidTmdbTV (g : Str) : Option Str :=
  if isPre (str "tmdb://") g then some (g.drop 7) else none

/-- `fmt.Sscanf(s, "%d", &n)` succeeds on TVDb id strings when, after
leading spaces, a digit run starts; the parsed value is that run. -/
def sscanfDigits (s : Str) : Option Str :=
  let t := s.dropWhile goSpace
  let ds := t.takeWhile isDigitR
  if ds = [] then none else some ds

/-! ## The multi-source identifier resolvers (part_003) -/

/-- The sources a resolver can attempt, in the traces below. -/
inductive Source where
  | metadata
  | titleYear
  | radarrPath
  | radarrImdb
  | sonarrTvdb
  | sonarrImdb
  | sonarrPath
  | pathPattern
  deriving DecidableEq, Repr

/-- A movie item together with the replies of the external services
(the Plex metadata, and the Radarr lookups, each `none` on error or no
match). -/
structure MovieEnv where
  guids : List Str
  mediaParts : List (List Str)
  titleYearMatch : Option Str
  byPath : Str → Option Str
  byImdb : Str → Option Str

/-- First success of `f` over a nested media/part file list. -/
def firstPart (media : List (List Str)) (f : Str → Option Str) : Option Str :=
  media.findSome? fun parts => parts.findSome? f

/-- Embedding of `Processor.extractMovieTMDbID` (part_003), additionally
recording the attempted sources in order. `useRadarr` is
`config.UseRadarr && radarrClient != nil`. -/
def extractMovieTMDbID (useRadarr : Bool) (env : MovieEnv) : Option Str × List Source :=
  match env.guids.findSome? guidTmdbMovie with
  | some id => (some id, [.metadata])
  | none =>
    if useRadarr then
      match env.titleYearMatch with
      | some id => (some id, [.metadata, .titleYear])
      | none =>
        match firstPart env.mediaParts env.byPath with
        | some id => (some id, [.metadata, .titleYear, .radarrPath])
        | none =>
          match env.guids.findSome? (fun g =>
              if containsSub g (str "imdb://") then env.byImdb (trimPre (str "imdb://") g)
              else none) with
          | some id => (some id, [.metadata, .titleYear, .radarrPath, .radarrImdb])
          | none =>
            (firstPart env.mediaParts extractTMDbIDFromPath,
             [.metadata, .titleYear, .radarrPath, .radarrImdb, .pathPattern])
    else
      (firstPart env.mediaParts extractTMDbIDFromPath, [.metadata, .pathPattern])

/-- An episode: its media, each a list of part file paths. -/
structure Episode where
  media : List (List Str)

/-- Embedding of `plex.Client.GetTVShowEpisodes` (plex/client.go): the
request carries `X-Plex-Container-Start=0&X-Plex-Container-Size=10`, so the
Plex server answers with at most the first 10 episodes of the show's
leaf listing. -/
def getTVShowEpisodes (inventory : List Episode) : List Episode :=
  inventory.take 10

/-- A TV item together with the replies of the external services. The
episode `inventory` is the show's full leaf listing held by the Plex
server; the processor only ever sees `getTVShowEpisodes inventory`. -/
structure TVEnv where
  guids : List Str
  inventory : List Episode
  episodesOK : Bool
  titleYearMatch : Option Str
  byTvdb : Str → Option Str
  byImdb : Str → Option Str
  seriesByPath : Str → Option Str

/-- First success of `f` over the parts of a list of episodes. -/
def firstEpisodePart (eps : List Episode) (f : Str → Option Str) : Option Str :=
  eps.findSome? fun e => firstPart e.media f

/-- Embedding of `Processor.extractTVShowTMDbID` (part_003), recording the
attempted sources in order. `useSonarr` is
`config.UseSonarr && sonarrClient != nil`. -/
def extractTVShowTMDbID (useSonarr : Bool) (env : TVEnv) : Option Str × List Source :=
  match env.guids.findSome? guidTmdbTV with
  | some id => (some id, [.metadata])
  | none =>
    if useSonarr then
      match env.titleYearMatch with
      | some id => (some id, [.metadata, .titleYear])
      | none =>
        match env.guids.findSome? (fun g =>
            if containsSub g (str "tvdb://") then
              match sscanfDigits (trimPre (str "tvdb://") g) with
              | some n => env.byTvdb n
              | none => none
            else none) with
        | some id => (some id, [.metadata, .titleYear, .sonarrTvdb])
        | none =>
          match env.guids.findSome? (fun g =>
              if containsSub g (str "imdb://") then env.byImdb (trimPre (str "imdb://") g)
              else none) with
          | some id => (some id, [.metadata, .titleYear, .sonarrTvdb, .sonarrImdb])
          | none =>
            match
              (if env.episodesOK then
                firstEpisodePart (getTVShowEpisodes env.inventory) env.seriesByPath
              else none) with
            | some id => (some id, [.metadata, .titleYear, .sonarrTvdb, .sonarrImdb, .sonarrPath])
            | none =>
              if env.episodesOK then
                (firstEpisodePart (getTVShowEpisodes env.inventory) extractTMDbIDFromPath,
                 [.metadata, .titleYear, .sonarrTvdb, .sonarrImdb, .sonarrPath, .pathPattern])
              else
                (none, [.metadata, .titleYear, .sonarrTvdb, .sonarrImdb, .sonarrPath, .pathPattern])
    else
      if env.episodesOK then
        (firstEpisodePart (getTVShowEpisodes env.inventory) extractTMDbIDFromPath,
         [.metadata, .pathPattern])
      else (none, [.metadata, .pathPattern])

/-- A resolver following the claim's uniform order (title+year, then the
cross-reference identifier, then the file-path inventory, then the path
pattern) for movies; stated from the claim's words, to be compared with
`extractMovieTMDbID`. -/
def claimOrderMovieResolve (env : MovieEnv) : Option Str :=
  match env.titleYearMatch with
  | some id => some id
  | none =>
    match env.guids.findSome? (fun g =>
        if containsSub g (str "imdb://") then env.byImdb (trimPre (str "imdb://") g)
        else none) with
    | some id => some id
    | none =>
      match firstPart env.mediaParts env.byPath with
      | some id => some id
      | none => firstPart env.mediaParts extractTMDbIDFromPath

/-! ## The per-item synchronization decision (part_003) -/

/-- A persisted processing record (`storage.ProcessedItem`). -/
structure ProcessedRec where
  ratingKey : Str
  title : Str
  tmdbId : Str
  lastProcessed : Nat
  keywordsSynced : Bool
  updateField : Str
  deriving DecidableEq, Repr

/-- The external replies needed by one iteration of
`Processor.ProcessAllItems`. -/
structure ItemEnv where
  tmdbId : Option Str
  keywordsResult : Option (List Str)
  detailsResult : Option (List Str)
  syncOK : Bool

/-- The outcome of one iteration of the per-item loop. -/
inductive StepOutcome where
  | skippedSynced
  | skippedNoId
  | skippedFetchErr
  | skippedDetailsErr
  | skippedAllExist
  | updateFailed
  | updated
  deriving DecidableEq, Repr

/-- The `allKeywordsExist` check of the loop: every fetched keyword already
present case-insensitively among the current values. -/
def allKeywordsExist (keywords current : List Str) : Bool :=
  keywords.all fun k => current.any fun v => toLowerStr v = toLowerStr k

/-- Embedding of one iteration of `Processor.ProcessAllItems` (part_003):
the skip/update decision, and whether the Plex update interface was
called. -/
def processItemStep (record : Option ProcessedRec) (force : Bool) (field : Str)
    (env : ItemEnv) : StepOutcome × Bool :=
  match record with
  | some rec =>
    if rec.keywordsSynced && rec.updateField = field && !force then
      (.skippedSynced, false)
    else processItemBody force env
  | none => processItemBody force env
where
  processItemBody (force : Bool) (env : ItemEnv) : StepOutcome × Bool :=
    match env.tmdbId with
    | none => (.skippedNoId, false)
    | some _ =>
      match env.keywordsResult with
      | none => (.skippedFetchErr, false)
      | some keywords =>
        match env.detailsResult with
        | none => (.skippedDetailsErr, false)
        | some current =>
          if allKeywordsExist keywords current && !force then
            (.skippedAllExist, false)
          else if env.syncOK then (.updated, true)
          else (.updateFailed, true)

/-! ## The TMDb client retry behaviour -/

/-- One reply of the TMDb keywords endpoint. -/
inductive TmdbResp where
  | rate
  | ok (keywords : List Str)
  | status (code : Nat)
  deriving DecidableEq, Repr

/-- Embedding of `tmdb.Client.GetMovieKeywords` (tmdb/client.go) run
against a finite reply sequence: a 429 reply sleeps one second and
recurses; any other reply ends the call. The first component is `none`
when the whole sequence was consumed by 429 retries (the call is still
retrying); the second is the number of requests made. -/
def getMovieKeywordsGo : List TmdbResp → Option (Except Nat (List Str)) × Nat
  | [] => (none, 0)
  | .rate :: rest =>
    let (r, n) := getMovieKeywordsGo rest
    (r, n + 1)
  | .ok ks :: _ => (some (.ok (normalizeKeywords ks)), 1)
  | .status c :: _ => (some (.error c), 1)

/-- A reply as seen by `RetryableHTTPClient`. -/
inductive HResp where
  | netErr
  | status (code : Nat)
  deriving DecidableEq, Repr

/-- `DefaultRetryConfig().MaxRetries`. -/
def defaultMaxRetries : Nat := 7

/-- `DefaultRetryConfig().RetryableStatus`. -/
def defaultRetryable (code : Nat) : Bool :=
  code = 429 || code = 503 || code = 504 || code = 502 || code = 408 || code = 500

/-- Embedding of `RetryableHTTPClient.DoWithContext` (part_007): a bounded
loop of `maxRetries + 1` attempts over a reply oracle; returns the final
status and the number of attempts made, `none` when every attempt hit a
retryable reply (failure surfaced). -/
def doRetry (retryable : Nat → Bool) (resp : Nat → HResp) :
    Nat → Nat → Option Nat × Nat
  | 0, _ => (none, 0)
  | fuel + 1, i =>
    match resp i with
    | .netErr =>
      let (r, n) := doRetry retryable resp fuel (i + 1)
      (r, n + 1)
    | .status c =>
      if retryable c then
        let (r, n) := doRetry retryable resp fuel (i + 1)
        (r, n + 1)
      else (some c, 1)

/-! ## The batch coordinator

The chunked processing loop itself (splitting the item list into
`BATCH_SIZE` chunks with a `BATCH_DELAY_SECONDS` pause between chunks) is
not among the sources; only its configuration (config tests, README,
changelog) is. It is modelled from the spec below. -/

/-- Modelled from the spec: the Batch Coordinator's chunking ("split into
consecutive fixed-size chunks (final chunk may be smaller)"); the missing
code is the batch loop around `Processor.ProcessAllItems`. The fuel is the
list length, enough for any positive batch size. -/
def chunksF (B : Nat) : Nat → List α → List (List α)
  | 0, _ => []
  | _, [] => []
  | fuel + 1, l => l.take B :: chunksF B fuel (l.drop B)

/-- Modelled from the spec: the chunks the Batch Coordinator processes. -/
def batchChunks (B : Nat) (items : List α) : List (List α) :=
  chunksF B items.length items

/-- An event of a batch run: one item processed, or one inter-chunk
sleep. -/
inductive BatchEv (α : Type) where
  | proc (item : α)
  | sleep
  deriving DecidableEq, Repr

/-- Modelled from the spec: the event sequence of a batch run — each
chunk's items in order, with one sleep between consecutive chunks and
none after the last. -/
def batchEvents : List (List α) → List (BatchEv α)
  | [] => []
  | [c] => c.map .proc
  | c :: cs => c.map .proc ++ .sleep :: batchEvents cs

/-- The items processed during a batch run, in order. -/
def processedOf (evs : List (BatchEv α)) : List α :=
  evs.filterMap fun e => match e with | .proc a => some a | .sleep => none

/-- The number of inter-chunk sleeps of a run. -/
def sleepCount (evs : List (BatchEv α)) : Nat :=
  (evs.filter fun e => match e with | .proc _ => false | .sleep => true).length

/-! ## The export accumulator (export/export.go) -/

/-- `export.FileInfo`. -/
structure FInfo where
  path : Str
  size : Int
  deriving DecidableEq, Repr

/-- The accumulated state: library → label → file infos, as an insertion
ordered association list (the Go map's iteration order does not matter for
the properties below). -/
abbrev Acc := List (Str × List (Str × List FInfo))

/-- `libraryData[label]` (a missing key reads as the empty list). -/
def accLabel (data : List (Str × List FInfo)) (label : Str) : List FInfo :=
  match data.lookup label with
  | some fis => fis
  | none => []

/-- A txt file written by `flushTxt`: its library, its label, and the
listed paths (one per line; empty for labels with no matches). -/
structure TxtFile where
  library : Str
  label : Str
  lines : List Str
  deriving DecidableEq, Repr

/-- The per-library inner loop of `flushTxt`: one file per export label,
in label order. Each file is one write operation of the run; `writeOK`
says whether the operation numbered by its index succeeds. Returns the
files written and the next operation index, or `none` at the first failed
operation. -/
def flushLib (writeOK : Nat → Bool) (lib : Str) (data : List (Str × List FInfo)) :
    List Str → Nat → Option (List TxtFile × Nat)
  | [], i => some ([], i)
  | label :: labels, i =>
    if writeOK i then
      match flushLib writeOK lib data labels (i + 1) with
      | some (files, j) =>
        some (⟨lib, label, (accLabel data label).map FInfo.path⟩ :: files, j)
      | none => none
    else none

/-- The library loop of `flushTxt`. -/
def flushLibs (writeOK : Nat → Bool) (labels : List Str) :
    Acc → Nat → Option (List TxtFile × Nat)
  | [], i => some ([], i)
  | (lib, data) :: rest, i =>
    match flushLib writeOK lib data labels i with
    | some (files, j) =>
      match flushLibs writeOK labels rest j with
      | some (files2, k) => some (files ++ files2, k)
      | none => none
    | none => none

/-- Embedding of `Exporter.flushTxt` (export/export.go): write one file
per (accumulated library, export label), then the summary file (one more
operation), and clear the accumulation only when everything succeeded.
Returns the new accumulation and the files written on success. -/
def flushTxtGo (writeOK : Nat → Bool) (labels : List Str) (acc : Acc) :
    Acc × Option (List TxtFile) :=
  match flushLibs writeOK labels acc 0 with
  | some (files, i) => if writeOK i then ([], some files) else (acc, none)
  | none => (acc, none)

/-- Embedding of `Exporter.flushJSON` (export/export.go): one write of the
consolidated document, clearing the accumulation only on success. The
document is the full accumulation (the JSON rendering adds aggregate
statistics computed from it). -/
def flushJSONGo (writeOK : Bool) (acc : Acc) : Acc × Option Acc :=
  if writeOK then ([], some acc) else (acc, none)

/-! ## The persistent record store (storage/storage.go) -/

/-- The in-memory map of `storage.Storage`, as an association list with
the Go-map update (`Set` replaces the entry for the key). -/
def storeSet (data : List (Str × ProcessedRec)) (key : Str) (r : ProcessedRec) :
    List (Str × ProcessedRec) :=
  match data with
  | [] => [(key, r)]
  | (k, v) :: rest => if k = key then (key, r) :: rest else (k, v) :: storeSet rest key r

/-- `Storage.Get`. -/
def storeGet (data : List (Str × ProcessedRec)) (key : Str) : Option ProcessedRec :=
  match data with
  | [] => none
  | (k, v) :: rest => if k = key then some v else storeGet rest key

/-- A snapshot of the two paths `save` touches: the content of the main
file and of the temporary file (`none` = absent). The content is the
serialized map. -/
structure FsState where
  main : Option (List (Str × ProcessedRec))
  tmp : Option (List (Str × ProcessedRec))
  deriving DecidableEq

/-- Embedding of `Storage.save`: write the serialized map to the temporary
path, then rename it over the main path. Returns every intermediate
filesystem state, in order, and whether the save succeeded; a failed write
leaves the filesystem at the states produced so far. -/
def storageSave (writeOK renameOK : Bool) (data : List (Str × ProcessedRec))
    (fs : FsState) : List FsState × Bool :=
  if writeOK then
    let fs1 : FsState := ⟨fs.main, some data⟩
    if renameOK then
      let fs2 : FsState := ⟨some data, none⟩
      ([fs, fs1, fs2], true)
    else ([fs, fs1], false)
  else ([fs], false)

/-- Embedding of `Storage.Set` (storage/storage.go): update the in-memory
map, then `save`. Returns the new map, the filesystem trace, and whether
the call returned without error. -/
def storageSet (writeOK renameOK : Bool) (data : List (Str × ProcessedRec))
    (fs : FsState) (r : ProcessedRec) :
    List (Str × ProcessedRec) × List FsState × Bool :=
  let data2 := storeSet data r.ratingKey r
  let (trace, ok) := storageSave writeOK renameOK data2 fs
  (data2, trace, ok)

/-! ## Lemmas: batch coordinator -/

theorem chunksF_nil (B : Nat) (fuel : Nat) : chunksF B fuel ([] : List α) = [] := by
  cases fuel <;> rfl

theorem chunksF_join (B : Nat) (hB : 0 < B) :
    ∀ (fuel : Nat) (l : List α), l.length ≤ fuel → (chunksF B fuel l).flatten = l := by
  intro fuel
  induction fuel with
  | zero =>
    intro l hl
    have : l = [] := List.eq_nil_of_length_eq_zero (Nat.le_zero.mp hl)
    subst this
    rfl
  | succ n ih =>
    intro l hl
    cases l with
    | nil => rfl
    | cons c tl =>
      have hrec : (List.drop B (c :: tl)).length ≤ n := by
        rw [List.length_drop]
        simp only [List.length_cons] at hl ⊢
        omega
      show (List.take B (c :: tl) :: chunksF B n (List.drop B (c :: tl))).flatten = c :: tl
      rw [List.flatten_cons, ih (List.drop B (c :: tl)) hrec, List.take_append_drop]

theorem ceilDiv_succ (B m : Nat) (hB : 0 < B) :
    (m - B + B - 1) / B + 1 = (m + B - 1) / B ∨ m = 0 := by
  rcases Nat.eq_zero_or_pos m with rfl | hm
  · exact Or.inr rfl
  refine Or.inl ?_
  have h4 : m + B - 1 = (m - 1) + B := by omega
  rw [h4, Nat.add_div_right _ hB]
  rcases le_or_lt B m with hle | hgt
  · have : m - B + B - 1 = m - 1 := by omega
    rw [this]
  · have h1 : m - B = 0 := Nat.sub_eq_zero_of_le (Nat.le_of_lt hgt)
    rw [h1]
    have h2 : (0 + B - 1) / B = 0 := Nat.div_eq_of_lt (by omega)
    have h3 : (m - 1) / B = 0 := Nat.div_eq_of_lt (by omega)
    rw [h2, h3]

theorem chunksF_length (B : Nat) (hB : 0 < B) :
    ∀ (fuel : Nat) (l : List α), l.length ≤ fuel →
      (chunksF B fuel l).length = (l.length + B - 1) / B := by
  intro fuel
  induction fuel with
  | zero =>
    intro l hl
    have : l = [] := List.eq_nil_of_length_eq_zero (Nat.le_zero.mp hl)
    subst this
    show 0 = (0 + B - 1) / B
    exact (Nat.div_eq_of_lt (by omega)).symm
  | succ n ih =>
    intro l hl
    cases l with
    | nil =>
      show 0 = (0 + B - 1) / B
      exact (Nat.div_eq_of_lt (by omega)).symm
    | cons c tl =>
      have hrec : (List.drop B (c :: tl)).length ≤ n := by
        rw [List.length_drop]
        simp only [List.length_cons] at hl ⊢
        omega
      show (List.take B (c :: tl) :: chunksF B n (List.drop B (c :: tl))).length
          = ((c :: tl).length + B - 1) / B
      rw [List.length_cons, ih (List.drop B (c :: tl)) hrec, List.length_drop]
      have hm : (c :: tl).length ≠ 0 := by simp
      rcases ceilDiv_succ B (c :: tl).length hB with h | h
      · exact h
      · exact absurd h hm

theorem chunksF_sizes (B : Nat) (hB : 0 < B) :
    ∀ (fuel : Nat) (l : List α), l.length ≤ fuel →
      ∀ c ∈ chunksF B fuel l, c ≠ [] ∧ c.length ≤ B := by
  intro fuel
  induction fuel with
  | zero =>
    intro l hl c hc
    have : l = [] := List.eq_nil_of_length_eq_zero (Nat.le_zero.mp hl)
    subst this
    simp [chunksF] at hc
  | succ n ih =>
    intro l hl c hc
    cases l with
    | nil => simp [chunksF] at hc
    | cons x tl =>
      have hc2 : c = List.take B (x :: tl) ∨ c ∈ chunksF B n (List.drop B (x :: tl)) := by
        simpa [chunksF] using hc
      rcases hc2 with rfl | hmem
      · constructor
        · cases B with
          | zero => omega
          | succ m => simp [List.take]
        · simpa using List.length_take_le B (x :: tl)
      · refine ih (List.drop B (x :: tl)) ?_ c hmem
        rw [List.length_drop]
        simp only [List.length_cons] at hl ⊢
        omega

theorem chunksF_dropLast_full (B : Nat) (hB : 0 < B) :
    ∀ (fuel : Nat) (l : List α), l.length ≤ fuel →
      ∀ c ∈ (chunksF B fuel l).dropLast, c.length = B := by
  intro fuel
  induction fuel with
  | zero =>
    intro l hl c hc
    have : l = [] := List.eq_nil_of_length_eq_zero (Nat.le_zero.mp hl)
    subst this
    simp [chunksF] at hc
  | succ n ih =>
    intro l hl c hc
    cases l with
    | nil => simp [chunksF] at hc
    | cons x tl =>
      have hrec : (List.drop B (x :: tl)).length ≤ n := by
        rw [List.length_drop]
        simp only [List.length_cons] at hl ⊢
        omega
      by_cases hR : chunksF B n (List.drop B (x :: tl)) = []
      · have : (chunksF B (n + 1) (x :: tl)).dropLast = [] := by
          show (List.take B (x :: tl) :: chunksF B n (List.drop B (x :: tl))).dropLast = []
          rw [hR]
          rfl
        rw [this] at hc
        simp at hc
      · obtain ⟨r, rs, hR2⟩ := List.exists_cons_of_ne_nil hR
        have hsplit : (chunksF B (n + 1) (x :: tl)).dropLast
            = List.take B (x :: tl) :: (chunksF B n (List.drop B (x :: tl))).dropLast := by
          show (List.take B (x :: tl) :: chunksF B n (List.drop B (x :: tl))).dropLast = _
          rw [hR2]
          rfl
        rw [hsplit] at hc
        rcases List.mem_cons.mp hc with rfl | hmem
        · have hne : List.drop B (x :: tl) ≠ [] := by
            intro h
            apply hR
            rw [h, chunksF_nil]
          have hlen : B < (x :: tl).length := by
            by_contra hcon
            exact hne (List.drop_eq_nil_of_le (Nat.le_of_not_lt hcon))
          rw [List.length_take]
          exact Nat.min_eq_left (Nat.le_of_lt hlen)
        · exact ih (List.drop B (x :: tl)) hrec c hmem

theorem processedOf_map_proc (c : List α) :
    processedOf (c.map BatchEv.proc) = c := by
  induction c with
  | nil => rfl
  | cons x xs ih => simp [processedOf, List.filterMap] at ih ⊢; exact ih

theorem processedOf_append (a b : List (BatchEv α)) :
    processedOf (a ++ b) = processedOf a ++ processedOf b := by
  simp [processedOf]

theorem processedOf_batchEvents (cs : List (List α)) :
    processedOf (batchEvents cs) = cs.flatten := by
  induction cs with
  | nil => rfl
  | cons c cs ih =>
    cases cs with
    | nil => simp [batchEvents, processedOf_map_proc]
    | cons d ds =>
      show processedOf (c.map .proc ++ .sleep :: batchEvents (d :: ds)) = _
      rw [processedOf_append, processedOf_map_proc]
      have : processedOf (BatchEv.sleep :: batchEvents (d :: ds))
          = processedOf (batchEvents (d :: ds)) := by
        simp [processedOf, List.filterMap]
      rw [this, ih]
      rfl

theorem sleepCount_map_proc (c : List α) :
    sleepCount (c.map BatchEv.proc) = 0 := by
  induction c with
  | nil => rfl
  | cons x xs ih => simp [sleepCount, List.filter] at ih ⊢

theorem sleepCount_batchEvents (cs : List (List α)) :
    sleepCount (batchEvents cs) = cs.length - 1 := by
  induction cs with
  | nil => rfl
  | cons c cs ih =>
    cases cs with
    | nil => simp [batchEvents, sleepCount_map_proc]
    | cons d ds =>
      show sleepCount (c.map .proc ++ .sleep :: batchEvents (d :: ds)) = _
      have h1 : sleepCount (c.map (BatchEv.proc) ++ BatchEv.sleep :: batchEvents (d :: ds))
          = sleepCount (c.map BatchEv.proc)
            + sleepCount (BatchEv.sleep :: batchEvents (d :: ds)) := by
        simp [sleepCount]
      have h2 : sleepCount (BatchEv.sleep :: batchEvents (d :: ds))
          = sleepCount (batchEvents (d :: ds)) + 1 := by
        simp [sleepCount, List.filter]
      rw [h1, h2, sleepCount_map_proc, ih]
      simp only [List.length_cons]
      omega

/-- C6. Batch completeness: with a positive batch size `B`, the spec-modelled
Batch Coordinator partitions the item list into `ceil(N/B)` consecutive
chunks (every chunk nonempty and of size at most `B`, every non-final chunk
of size exactly `B`, their concatenation the original list), its event
sequence visits every item exactly once in the original order, and the
inter-chunk delay fires exactly `ceil(N/B) - 1` times, never after the last
chunk. -/
theorem batch_completeness {α : Type} (B : Nat) (items : List α) (hB : 0 < B) :
    (batchChunks B items).flatten = items ∧
    (batchChunks B items).length = (items.length + B - 1) / B ∧
    (∀ c ∈ batchChunks B items, c ≠ [] ∧ c.length ≤ B) ∧
    (∀ c ∈ (batchChunks B items).dropLast, c.length = B) ∧
    processedOf (batchEvents (batchChunks B items)) = items ∧
    sleepCount (batchEvents (batchChunks B items)) = (items.length + B - 1) / B - 1 := by
  have hfuel : items.length ≤ items.length := Nat.le_refl _
  refine ⟨chunksF_join B hB items.length items hfuel,
          chunksF_length B hB items.length items hfuel,
          chunksF_sizes B hB items.length items hfuel,
          chunksF_dropLast_full B hB items.length items hfuel, ?_, ?_⟩
  · rw [processedOf_batchEvents]
    exact chunksF_join B hB items.length items hfuel
  · rw [sleepCount_batchEvents]
    show (chunksF B items.length items).length - 1 = _
    rw [chunksF_length B hB items.length items hfuel]

/-- C6 witness: the spec's own example, 215 items with batch size 100:
3 chunks and exactly 2 inter-chunk delays. -/
theorem batch_completeness_witness :
    (0 < 100 ∧
      ((batchChunks 100 (List.range 215)).flatten = List.range 215 ∧
       (batchChunks 100 (List.range 215)).length = (215 + 100 - 1) / 100 ∧
       (∀ c ∈ batchChunks 100 (List.range 215), c ≠ [] ∧ c.length ≤ 100) ∧
       (∀ c ∈ (batchChunks 100 (List.range 215)).dropLast, c.length = 100) ∧
       processedOf (batchEvents (batchChunks 100 (List.range 215))) = List.range 215 ∧
       sleepCount (batchEvents (batchChunks 100 (List.range 215)))
         = (215 + 100 - 1) / 100 - 1)) ∧
    (215 + 100 - 1) / 100 = 3 := by
  refine ⟨⟨by decide, batch_completeness 100 (List.range 215) (by decide)⟩, by decide⟩

/-! ## Lemmas: TMDb client retry -/

/-- C7 counterexample: after eight consecutive rate-limit replies — more
than `DefaultRetryConfig`'s bound of 7 retries — the keyword fetch has made
eight requests and surfaced no failure; a ninth reply that succeeds is
accepted. The claimed bounded retry (after which failure is surfaced) does
not describe `Client.GetMovieKeywords`. -/
theorem tmdb_fetch_bounded_retry_counterexample :
    getMovieKeywordsGo (List.replicate 8 .rate) = (none, 8) ∧
    getMovieKeywordsGo (List.replicate 8 .rate ++ [.ok [str "time travel"]])
      = (some (.ok [str "Time Travel"]), 9) ∧
    defaultMaxRetries = 7 := by
  refine ⟨rfl, rfl, rfl⟩

/-- C7 amended: the keyword fetch retries HTTP 429 without any bound —
`n` leading rate-limit replies always cost exactly `n` extra requests
(each after a fixed one-second sleep) and the call resolves exactly as the
first non-429 reply dictates, never surfacing a retry-exhaustion failure;
a non-429 error reply is surfaced immediately without retry. The bounded
retry loop of `RetryableHTTPClient` does exist and makes at most
`MaxRetries + 1` attempts, but the keyword fetch does not use it. -/
theorem tmdb_fetch_unbounded_fixed_delay :
    (∀ (n : Nat) (rest : List TmdbResp),
      getMovieKeywordsGo (List.replicate n .rate ++ rest)
        = ((getMovieKeywordsGo rest).1, n + (getMovieKeywordsGo rest).2)) ∧
    (∀ n : Nat, getMovieKeywordsGo (List.replicate n .rate) = (none, n)) ∧
    (∀ (c : Nat) (rest : List TmdbResp),
      getMovieKeywordsGo (.status c :: rest) = (some (.error c), 1)) ∧
    (∀ (retryable : Nat → Bool) (resp : Nat → HResp) (fuel i : Nat),
      (doRetry retryable resp fuel i).2 ≤ fuel) := by
  have hrate : ∀ xs : List TmdbResp, getMovieKeywordsGo (.rate :: xs)
      = ((getMovieKeywordsGo xs).1, (getMovieKeywordsGo xs).2 + 1) := fun xs => rfl
  have key : ∀ (n : Nat) (rest : List TmdbResp),
      getMovieKeywordsGo (List.replicate n .rate ++ rest)
        = ((getMovieKeywordsGo rest).1, n + (getMovieKeywordsGo rest).2) := by
    intro n
    induction n with
    | zero =>
      intro rest
      simp only [List.replicate, List.nil_append, Nat.zero_add]
    | succ m ih =>
      intro rest
      have h1 : List.replicate (m + 1) TmdbResp.rate ++ rest
          = .rate :: (List.replicate m .rate ++ rest) := rfl
      rw [h1, hrate, ih rest]
      simp only [Prod.mk.injEq, true_and]
      omega
  refine ⟨key, ?_, ?_, ?_⟩
  · intro n
    have h := key n []
    simpa [getMovieKeywordsGo] using h
  · intro c rest
    rfl
  · intro retryable resp fuel
    induction fuel with
    | zero => intro i; simp [doRetry]
    | succ m ih =>
      intro i
      cases h : resp i with
      | netErr =>
        have he : doRetry retryable resp (m + 1) i
            = ((doRetry retryable resp m (i + 1)).1,
               (doRetry retryable resp m (i + 1)).2 + 1) := by
          simp [doRetry, h]
        rw [he]
        exact Nat.succ_le_succ (ih (i + 1))
      | status c =>
        by_cases hr : retryable c
        · have he : doRetry retryable resp (m + 1) i
              = ((doRetry retryable resp m (i + 1)).1,
                 (doRetry retryable resp m (i + 1)).2 + 1) := by
            simp [doRetry, h, hr]
          rw [he]
          exact Nat.succ_le_succ (ih (i + 1))
        · have he : doRetry retryable resp (m + 1) i = (some c, 1) := by
            simp [doRetry, h, hr]
          rw [he]
          omega

/-! ## Lemmas: episode scan bound (C9) -/

/-- C9. The TV-show path fallback inspects only the episodes returned by
`GetTVShowEpisodes`, whose request is capped at the first 10 episodes: when
no TMDb GUID is present, the secondary catalog is disabled, and no file
path among the first ten episodes matches the pattern, resolution is
absent — whatever the file paths of the remaining episodes are. -/
theorem episode_scan_first_ten (env : TVEnv)
    (hguid : env.guids.findSome? guidTmdbTV = none)
    (hok : env.episodesOK = true)
    (h10 : ∀ e ∈ env.inventory.take 10, ∀ parts ∈ e.media, ∀ p ∈ parts,
      extractTMDbIDFromPath p = none) :
    (extractTVShowTMDbID false env).1 = none := by
  have hfirst : firstEpisodePart (getTVShowEpisodes env.inventory)
      extractTMDbIDFromPath = none := by
    rw [firstEpisodePart, List.findSome?_eq_none]
    intro e he
    rw [firstPart, List.findSome?_eq_none]
    intro parts hparts
    rw [List.findSome?_eq_none]
    intro p hp
    exact h10 e he parts hparts p hp
  simp only [extractTVShowTMDbID, hguid, hok, Bool.false_eq_true, if_false, if_true, hfirst]

/-- The TV environment of the C9 witness: eleven episodes, the identifier
pattern present only in the eleventh. -/
def tvEnvEleven : TVEnv where
  guids := [str "plex://show/abc"]
  inventory :=
    (List.range 10).map (fun i => ⟨[[str "/tv/show/e" ++ [48 + i] ++ str ".mkv"]]⟩)
      ++ [⟨[[str "/tv/show tmdb-42/e11.mkv"]]⟩]
  episodesOK := true
  titleYearMatch := none
  byTvdb := fun _ => none
  byImdb := fun _ => none
  seriesByPath := fun _ => none

/-- C9 witness: on `tvEnvEleven` the pattern matches the eleventh episode's
path, yet resolution is absent because only the first ten are fetched. -/
theorem episode_scan_first_ten_witness :
    tvEnvEleven.guids.findSome? guidTmdbTV = none ∧
    tvEnvEleven.episodesOK = true ∧
    extractTMDbIDFromPath (str "/tv/show tmdb-42/e11.mkv") = some (str "42") ∧
    (extractTVShowTMDbID false tvEnvEleven).1 = none := by
  refine ⟨by decide, by decide, by decide,
    episode_scan_first_ten tvEnvEleven (by decide) (by decide) (by decide)⟩

/-! ## Lemmas: persistent record store (C10) -/

theorem storeSet_get_same (data : List (Str × ProcessedRec)) (key : Str)
    (r : ProcessedRec) : storeGet (storeSet data key r) key = some r := by
  induction data with
  | nil => simp [storeSet, storeGet]
  | cons p rest ih =>
    obtain ⟨k, v⟩ := p
    by_cases h : k = key
    · simp [storeSet, h, storeGet]
    · simp [storeSet, h, storeGet, ih]

theorem storeSet_get_other (data : List (Str × ProcessedRec)) (key : Str)
    (r : ProcessedRec) (k2 : Str) (hne : k2 ≠ key) :
    storeGet (storeSet data key r) k2 = storeGet data k2 := by
  induction data with
  | nil =>
    show (if key = k2 then some r else none) = none
    rw [if_neg fun h => hne h.symm]
  | cons p rest ih =>
    obtain ⟨k, v⟩ := p
    by_cases h : k = key
    · rw [h]
      have h1 : storeSet ((key, v) :: rest) key r = (key, r) :: rest := by
        simp [storeSet]
      rw [h1]
      simp only [storeGet]
      rw [if_neg fun h => hne h.symm, if_neg fun h => hne h.symm]
    · simp only [storeSet, h, if_false]
      by_cases h2 : k = k2
      · simp [storeGet, h2]
      · simp [storeGet, h2, ih]

/-- C10. After a `Storage.Set` call that returns without error: reading the
record's key returns exactly the record just stored; every other key reads
as before; and the filesystem trace of `save` only ever shows the main file
holding the previous document or the complete new document (the temporary
write never touches it, the rename installs the new document whole), ending
with the new document installed and the temporary file gone. -/
theorem storage_set_spec (writeOK renameOK : Bool)
    (data : List (Str × ProcessedRec)) (fs : FsState) (r : ProcessedRec)
    (hok : (storageSet writeOK renameOK data fs r).2.2 = true) :
    storeGet (storageSet writeOK renameOK data fs r).1 r.ratingKey = some r ∧
    (∀ k, k ≠ r.ratingKey →
      storeGet (storageSet writeOK renameOK data fs r).1 k = storeGet data k) ∧
    (∀ st ∈ (storageSet writeOK renameOK data fs r).2.1,
      st.main = fs.main ∨ st.main = some (storageSet writeOK renameOK data fs r).1) ∧
    (storageSet writeOK renameOK data fs r).2.1.getLast?
      = some ⟨some (storageSet writeOK renameOK data fs r).1, none⟩ := by
  cases writeOK with
  | false => simp [storageSet, storageSave] at hok
  | true =>
    cases renameOK with
    | false => simp [storageSet, storageSave] at hok
    | true =>
      refine ⟨storeSet_get_same data r.ratingKey r,
              fun k hk => storeSet_get_other data r.ratingKey r k hk, ?_, ?_⟩
      · intro st hst
        simp only [storageSet, storageSave, if_true] at hst ⊢
        simp only [List.mem_cons, List.not_mem_nil, or_false] at hst
        rcases hst with rfl | rfl | rfl
        · exact Or.inl rfl
        · exact Or.inl rfl
        · exact Or.inr rfl
      · rfl

/-- The record of the C10 witness. -/
def recW : ProcessedRec where
  ratingKey := str "12345"
  title := str "The Matrix"
  tmdbId := str "603"
  lastProcessed := 0
  keywordsSynced := true
  updateField := str "label"

/-- A second record preexisting in the C10 witness store. -/
def recOther : ProcessedRec where
  ratingKey := str "99"
  title := str "Alien"
  tmdbId := str "348"
  lastProcessed := 0
  keywordsSynced := true
  updateField := str "label"

/-- C10 witness: a successful `Set` on a one-record store. -/
theorem storage_set_spec_witness :
    (storageSet true true [(str "99", recOther)] ⟨some [(str "99", recOther)], none⟩ recW).2.2
      = true ∧
    storeGet (storageSet true true [(str "99", recOther)]
        ⟨some [(str "99", recOther)], none⟩ recW).1 recW.ratingKey = some recW ∧
    storeGet (storageSet true true [(str "99", recOther)]
        ⟨some [(str "99", recOther)], none⟩ recW).1 (str "99") = some recOther := by
  have h := storage_set_spec true true [(str "99", recOther)]
    ⟨some [(str "99", recOther)], none⟩ recW (by decide)
  refine ⟨by decide, h.1, ?_⟩
  have h2 := h.2.1 (str "99") (by decide)
  rw [h2]
  decide

/-! ## Lemmas: skip-eligibility (C4) -/

/-- C4. Skip-eligibility of `ProcessAllItems`: an item whose processing
record is synced for the currently configured field is, with force-mode
off, skipped outright — the Plex update interface is not called; and a
record stored for a different field never produces that skip: the step
behaves exactly as if no record existed. -/
theorem skip_eligibility (field : Str) (env : ItemEnv) :
    (∀ rec : ProcessedRec, rec.keywordsSynced = true → rec.updateField = field →
      processItemStep (some rec) false field env = (.skippedSynced, false)) ∧
    (∀ rec : ProcessedRec, rec.updateField ≠ field → ∀ force : Bool,
      processItemStep (some rec) force field env
        = processItemStep none force field env) := by
  constructor
  · intro rec h1 h2
    simp [processItemStep, h1, h2]
  · intro rec hne force
    simp [processItemStep, hne]

/-- The record of the C4 witness: synced under the `label` field. -/
def recSyncedLabel : ProcessedRec where
  ratingKey := str "1"
  title := str "Heat"
  tmdbId := str "949"
  lastProcessed := 0
  keywordsSynced := true
  updateField := str "label"

/-- The record of the C4 witness with a mismatching field (`genre`). -/
def recSyncedGenre : ProcessedRec where
  ratingKey := str "2"
  title := str "Ronin"
  tmdbId := str "8834"
  lastProcessed := 0
  keywordsSynced := true
  updateField := str "genre"

/-- The item environment of the C4 witness: everything available, so a
non-skipped item would reach the update call. -/
def envW : ItemEnv where
  tmdbId := some (str "949")
  keywordsResult := some [str "Heist", str "Los Angeles, California"]
  detailsResult := some [str "Action"]
  syncOK := true

/-- C4 witness: the matching synced record is skipped without an update
call; the mismatched-field record is processed as if unrecorded (here all
the way to a real update call). -/
theorem skip_eligibility_witness :
    recSyncedLabel.keywordsSynced = true ∧
    recSyncedLabel.updateField = str "label" ∧
    processItemStep (some recSyncedLabel) false (str "label") envW
      = (.skippedSynced, false) ∧
    recSyncedGenre.updateField ≠ str "label" ∧
    processItemStep (some recSyncedGenre) false (str "label") envW
      = processItemStep none false (str "label") envW ∧
    processItemStep (some recSyncedGenre) false (str "label") envW = (.updated, true) := by
  have h := skip_eligibility (str "label") envW
  refine ⟨by decide, by decide, h.1 recSyncedLabel (by decide) (by decide),
    by decide, h.2 recSyncedGenre (by decide) false, by decide⟩

/-! ## Lemmas: export flush (C8) -/

theorem flushLib_some (writeOK : Nat → Bool) (lib : Str)
    (data : List (Str × List FInfo)) :
    ∀ (labels : List Str) (i : Nat) (files : List TxtFile) (j : Nat),
      flushLib writeOK lib data labels i = some (files, j) →
      files = labels.map fun label =>
        ⟨lib, label, (accLabel data label).map FInfo.path⟩ := by
  intro labels
  induction labels with
  | nil =>
    intro i files j h
    simp only [flushLib, Option.some.injEq, Prod.mk.injEq] at h
    rw [← h.1]
    rfl
  | cons label rest ih =>
    intro i files j h
    simp only [flushLib] at h
    by_cases hw : writeOK i
    · rw [if_pos hw] at h
      cases hrec : flushLib writeOK lib data rest (i + 1) with
      | none => rw [hrec] at h; exact absurd h (by simp)
      | some p =>
        obtain ⟨files2, j2⟩ := p
        rw [hrec] at h
        simp only [Option.some.injEq, Prod.mk.injEq] at h
        rw [← h.1, List.map_cons, ih (i + 1) files2 j2 hrec]
    · rw [if_neg hw] at h
      exact absurd h (by simp)

theorem flushLibs_some (writeOK : Nat → Bool) (labels : List Str) :
    ∀ (acc : Acc) (i : Nat) (files : List TxtFile) (j : Nat),
      flushLibs writeOK labels acc i = some (files, j) →
      files = (acc.map fun p => labels.map fun label =>
        (⟨p.1, label, (accLabel p.2 label).map FInfo.path⟩ : TxtFile)).flatten := by
  intro acc
  induction acc with
  | nil =>
    intro i files j h
    simp only [flushLibs, Option.some.injEq, Prod.mk.injEq] at h
    rw [← h.1]
    rfl
  | cons p rest ih =>
    intro i files j h
    obtain ⟨lib, data⟩ := p
    simp only [flushLibs] at h
    cases h1 : flushLib writeOK lib data labels i with
    | none => rw [h1] at h; exact absurd h (by simp)
    | some q =>
      obtain ⟨files1, j1⟩ := q
      rw [h1] at h
      dsimp only at h
      cases h2 : flushLibs writeOK labels rest j1 with
      | none => rw [h2] at h; exact absurd h (by simp)
      | some q2 =>
        obtain ⟨files2, j2⟩ := q2
        rw [h2] at h
        simp only [Option.some.injEq, Prod.mk.injEq] at h
        rw [← h.1, List.map_cons, List.flatten_cons,
            flushLib_some writeOK lib data labels i files1 j1 h1,
            ih j1 files2 j2 h2]

/-- C8. Export flush atomicity: a txt flush clears the accumulation exactly
on full success — any failed write leaves the accumulation unchanged (a
partial write is never treated as a completed flush) — and on success one
file is produced for every accumulated library and configured export tag,
listing that bucket's paths, empty when the tag had no matches; the
consolidated JSON flush likewise clears only when its single write
succeeded, and then serializes the entire accumulation. -/
theorem export_flush_atomicity (writeOK : Nat → Bool) (jsonOK : Bool)
    (labels : List Str) (acc : Acc) :
    ((flushTxtGo writeOK labels acc).2 = none →
      (flushTxtGo writeOK labels acc).1 = acc) ∧
    (∀ files, (flushTxtGo writeOK labels acc).2 = some files →
      (flushTxtGo writeOK labels acc).1 = [] ∧
      files = (acc.map fun p => labels.map fun label =>
        (⟨p.1, label, (accLabel p.2 label).map FInfo.path⟩ : TxtFile)).flatten) ∧
    ((flushJSONGo jsonOK acc).2 = none → (flushJSONGo jsonOK acc).1 = acc) ∧
    (∀ doc, (flushJSONGo jsonOK acc).2 = some doc →
      (flushJSONGo jsonOK acc).1 = [] ∧ doc = acc) := by
  refine ⟨?_, ?_, ?_, ?_⟩
  · intro hnone
    unfold flushTxtGo at hnone ⊢
    cases h1 : flushLibs writeOK labels acc 0 with
    | none => rfl
    | some q =>
      obtain ⟨files1, j1⟩ := q
      rw [h1] at hnone
      dsimp only at hnone
      by_cases hw : writeOK j1
      · rw [if_pos hw] at hnone
        exact absurd hnone (by simp)
      · dsimp only
        rw [if_neg hw]
  · intro files hsome
    unfold flushTxtGo at hsome ⊢
    cases h1 : flushLibs writeOK labels acc 0 with
    | none =>
      rw [h1] at hsome
      dsimp only at hsome
      exact absurd hsome (by simp)
    | some q =>
      obtain ⟨files1, j1⟩ := q
      rw [h1] at hsome
      dsimp only at hsome
      by_cases hw : writeOK j1
      · rw [if_pos hw] at hsome
        dsimp only
        rw [if_pos hw]
        simp only [Option.some.injEq] at hsome
        exact ⟨rfl, hsome ▸ flushLibs_some writeOK labels acc 0 files1 j1 h1⟩
      · rw [if_neg hw] at hsome
        exact absurd hsome (by simp)
  · intro hnone
    unfold flushJSONGo at hnone ⊢
    by_cases hj : jsonOK
    · rw [if_pos hj] at hnone
      exact absurd hnone (by simp)
    · rw [if_neg hj]
  · intro doc hsome
    unfold flushJSONGo at hsome ⊢
    by_cases hj : jsonOK
    · rw [if_pos hj] at hsome ⊢
      simp only [Option.some.injEq] at hsome
      exact ⟨rfl, hsome.symm⟩
    · rw [if_neg hj] at hsome
      exact absurd hsome (by simp)

/-- The accumulation of the C8 witness: one library, one match for the
tag `4K`, none for `HD`. -/
def accW : Acc := [(str "Movies", [(str "4K", [⟨str "/a.mkv", 100⟩])])]

/-- C8 witness: with all writes succeeding, the txt flush clears the
accumulation and writes one file per (library, tag), the `HD` file empty;
with a failing write, the accumulation is left unchanged; the JSON flush
clears on success. -/
theorem export_flush_atomicity_witness :
    (flushTxtGo (fun _ => true) [str "4K", str "HD"] accW).1 = [] ∧
    (flushTxtGo (fun _ => true) [str "4K", str "HD"] accW).2
      = some [⟨str "Movies", str "4K", [str "/a.mkv"]⟩,
              ⟨str "Movies", str "HD", []⟩] ∧
    (flushTxtGo (fun _ => false) [str "4K", str "HD"] accW).2 = none ∧
    (flushTxtGo (fun _ => false) [str "4K", str "HD"] accW).1 = accW ∧
    (flushJSONGo true accW).1 = [] := by
  have h := export_flush_atomicity (fun _ => true) true [str "4K", str "HD"] accW
  have h2 := export_flush_atomicity (fun _ => false) true [str "4K", str "HD"] accW
  refine ⟨(h.2.1 _ rfl).1, by decide, by decide, h2.1 (by decide),
    (h.2.2.2 _ rfl).1⟩

/-! ## Lemmas: multi-source resolver order (C5) -/

/-- Source 1 of the movie resolver: the embedded Plex cross-reference. -/
def srcMetaMovie (env : MovieEnv) : Option Str := env.guids.findSome? guidTmdbMovie

/-- Source 2: the Radarr title+year match. -/
def srcTitleYear (env : MovieEnv) : Option Str := env.titleYearMatch

/-- Source 3: the Radarr file-path inventory. -/
def srcRadarrPath (env : MovieEnv) : Option Str := firstPart env.mediaParts env.byPath

/-- Source 4: the Radarr IMDb cross-reference. -/
def srcRadarrImdb (env : MovieEnv) : Option Str :=
  env.guids.findSome? fun g =>
    if containsSub g (str "imdb://") then env.byImdb (trimPre (str "imdb://") g)
    else none

/-- Source 5: the path-pattern extractor over the movie's file paths. -/
def srcPatternMovie (env : MovieEnv) : Option Str :=
  firstPart env.mediaParts extractTMDbIDFromPath

/-- TV source 1: the embedded Plex cross-reference. -/
def srcMetaTV (env : TVEnv) : Option Str := env.guids.findSome? guidTmdbTV

/-- TV source 2: the Sonarr title+year match. -/
def srcTitleYearTV (env : TVEnv) : Option Str := env.titleYearMatch

/-- TV source 3: the Sonarr TVDb cross-reference. -/
def srcTvdb (env : TVEnv) : Option Str :=
  env.guids.findSome? fun g =>
    if containsSub g (str "tvdb://") then
      match sscanfDigits (trimPre (str "tvdb://") g) with
      | some n => env.byTvdb n
      | none => none
    else none

/-- TV source 4: the Sonarr IMDb cross-reference. -/
def srcImdbTV (env : TVEnv) : Option Str :=
  env.guids.findSome? fun g =>
    if containsSub g (str "imdb://") then env.byImdb (trimPre (str "imdb://") g)
    else none

/-- TV source 5: the Sonarr file-path inventory over the first ten
episodes. -/
def srcSonarrPath (env : TVEnv) : Option Str :=
  if env.episodesOK then
    firstEpisodePart (getTVShowEpisodes env.inventory) env.seriesByPath
  else none

/-- TV source 6: the path-pattern extractor over the first ten episodes. -/
def srcPatternTV (env : TVEnv) : Option Str :=
  if env.episodesOK then
    firstEpisodePart (getTVShowEpisodes env.inventory) extractTMDbIDFromPath
  else none

/-- The movie item of the C5 counterexample: no embedded provider id,
Radarr enabled, title+year fails, the file-path inventory and the IMDb
cross-reference disagree. -/
def movieEnvC : MovieEnv where
  guids := [str "imdb://tt0133093"]
  mediaParts := [[str "/movies/matrix.mkv"]]
  titleYearMatch := none
  byPath := fun _ => some (str "111")
  byImdb := fun _ => some (str "222")

/-- C5 counterexample: on `movieEnvC` the code resolves through the
file-path inventory (id 111) with the IMDb cross-reference never
attempted, while the claimed order (cross-reference before file path)
would resolve to 222. -/
theorem resolver_order_counterexample :
    (extractMovieTMDbID true movieEnvC).1 = some (str "111") ∧
    claimOrderMovieResolve movieEnvC = some (str "222") ∧
    (extractMovieTMDbID true movieEnvC).1 ≠ claimOrderMovieResolve movieEnvC ∧
    (extractMovieTMDbID true movieEnvC).2
      = [.metadata, .titleYear, .radarrPath] := by
  refine ⟨by decide, by decide, by decide, by decide⟩

/-- C5 amended: the resolution chains stop at the first success, but their
order differs between media kinds; movies consult the secondary catalog's
file-path inventory before the IMDb cross-reference, TV shows consult the
TVDb and IMDb cross-references before the per-episode file-path
inventory. -/
theorem resolver_order_amended :
    (∀ env : MovieEnv, (extractMovieTMDbID true env).1
      = [srcMetaMovie env, srcTitleYear env, srcRadarrPath env, srcRadarrImdb env,
         srcPatternMovie env].findSome? id) ∧
    (∀ env : TVEnv, (extractTVShowTMDbID true env).1
      = [srcMetaTV env, srcTitleYearTV env, srcTvdb env, srcImdbTV env,
         srcSonarrPath env, srcPatternTV env].findSome? id) ∧
    (∀ env : MovieEnv, (extractMovieTMDbID false env).1
      = [srcMetaMovie env, srcPatternMovie env].findSome? id) ∧
    (∀ env : TVEnv, (extractTVShowTMDbID false env).1
      = [srcMetaTV env, srcPatternTV env].findSome? id) := by
  refine ⟨?_, ?_, ?_, ?_⟩
  · intro env
    simp only [extractMovieTMDbID, srcMetaMovie, srcTitleYear, srcRadarrPath,
      srcRadarrImdb, srcPatternMovie, if_true]
    cases env.guids.findSome? guidTmdbMovie with
    | some id => simp [List.findSome?]
    | none =>
      cases env.titleYearMatch with
      | some id => simp [List.findSome?]
      | none =>
        cases firstPart env.mediaParts env.byPath with
        | some id => simp [List.findSome?]
        | none =>
          cases env.guids.findSome? (fun g =>
              if containsSub g (str "imdb://") then env.byImdb (trimPre (str "imdb://") g)
              else none) with
          | some id => simp [List.findSome?]
          | none =>
            simp only [List.findSome?, id]
            cases firstPart env.mediaParts extractTMDbIDFromPath <;> rfl
  · intro env
    simp only [extractTVShowTMDbID, srcMetaTV, srcTitleYearTV, srcTvdb,
      srcImdbTV, srcSonarrPath, srcPatternTV, if_true]
    cases env.guids.findSome? guidTmdbTV with
    | some id => simp [List.findSome?]
    | none =>
      cases env.titleYearMatch with
      | some id => simp [List.findSome?]
      | none =>
        cases env.guids.findSome? (fun g =>
            if containsSub g (str "tvdb://") then
              match sscanfDigits (trimPre (str "tvdb://") g) with
              | some n => env.byTvdb n
              | none => none
            else none) with
        | some id => simp [List.findSome?]
        | none =>
          cases env.guids.findSome? (fun g =>
              if containsSub g (str "imdb://") then env.byImdb (trimPre (str "imdb://") g)
              else none) with
          | some id => simp [List.findSome?]
          | none =>
            cases hep : env.episodesOK with
            | true =>
              cases firstEpisodePart (getTVShowEpisodes env.inventory) env.seriesByPath with
              | some id => simp [List.findSome?, hep]
              | none =>
                simp only [List.findSome?, hep, if_true, id]
                cases firstEpisodePart (getTVShowEpisodes env.inventory)
                  extractTMDbIDFromPath <;> rfl
            | false => simp [List.findSome?, hep]
  · intro env
    simp only [extractMovieTMDbID, srcMetaMovie, srcPatternMovie,
      Bool.false_eq_true, if_false]
    cases env.guids.findSome? guidTmdbMovie with
    | some id => simp [List.findSome?]
    | none =>
      simp only [List.findSome?, id]
      cases firstPart env.mediaParts extractTMDbIDFromPath <;> rfl
  · intro env
    simp only [extractTVShowTMDbID, srcMetaTV, srcPatternTV,
      Bool.false_eq_true, if_false]
    cases env.guids.findSome? guidTmdbTV with
    | some id => simp [List.findSome?]
    | none =>
      cases hep : env.episodesOK with
      | true =>
        simp only [List.findSome?, hep, if_true, id]
        cases firstEpisodePart (getTVShowEpisodes env.inventory)
          extractTMDbIDFromPath <;> rfl
      | false => simp [List.findSome?, hep]

/-! ## Lemmas: duplicate reconciler (C2) -/

/-- C2 counterexample: with current tags `["Action", "action"]` and no
fresh tags at all, nothing is being replaced, yet `"action"` is absent from
the reconciled result (the case-insensitive dedup of the current list drops
it) — so the result does not contain every current element whose normalized
form is missing from `fresh`. -/
theorem reconcile_nondestructive_counterexample :
    cleanDuplicateKeywords [str "Action", str "action"] [] = [str "Action"] ∧
    str "action" ∈ [str "Action", str "action"] ∧
    (∀ f ∈ ([] : List Str), toLowerStr f ≠ toLowerStr (normalizeKeyword (str "action"))) ∧
    str "action" ∉ cleanDuplicateKeywords [str "Action", str "action"] [] := by
  refine ⟨by decide, by decide, by decide, by decide⟩

theorem mapLookupLast_none (key : Str) :
    ∀ fresh : List Str, (∀ f ∈ fresh, toLowerStr f ≠ key) →
      mapLookupLast (fresh.map fun k => (toLowerStr k, k)) key = none := by
  intro fresh
  induction fresh with
  | nil => intro _; rfl
  | cons f fs ih =>
    intro h
    show mapLookupLast ((toLowerStr f, f) :: fs.map fun k => (toLowerStr k, k)) key = none
    simp only [mapLookupLast]
    rw [ih fun g hg => h g (List.mem_cons_of_mem f hg)]
    rw [if_neg (h f (List.mem_cons_self f fs))]

theorem markedForRemoval_false (fresh : List Str) (c : Str)
    (h : ∀ f ∈ fresh, toLowerStr f ≠ toLowerStr (normalizeKeyword c)) :
    markedForRemoval fresh c = false := by
  unfold markedForRemoval
  rw [mapLookupLast_none (toLowerStr (normalizeKeyword c)) fresh h]

theorem cleanCurrent_mem (fresh : List Str) (c : Str)
    (hmark : markedForRemoval fresh c = false) :
    ∀ (xs ys : List Str) (seen : List Str),
      memStr (toLowerStr c) seen = false →
      (∀ x ∈ xs, toLowerStr x ≠ toLowerStr c) →
      c ∈ (cleanCurrent fresh (xs ++ c :: ys) seen).1 := by
  intro xs
  induction xs with
  | nil =>
    intro ys seen hseen _
    show c ∈ (cleanCurrent fresh (c :: ys) seen).1
    simp only [cleanCurrent, hmark, hseen, Bool.not_false, Bool.and_self, if_true]
    exact List.mem_cons_self c _
  | cons x xs ih =>
    intro ys seen hseen hxs
    show c ∈ (cleanCurrent fresh (x :: (xs ++ c :: ys)) seen).1
    simp only [cleanCurrent]
    by_cases hcond : (!(markedForRemoval fresh x) && !(memStr (toLowerStr x) seen)) = true
    · rw [if_pos hcond]
      have hseen2 : memStr (toLowerStr c) (toLowerStr x :: seen) = false := by
        simp only [memStr, Bool.or_eq_false_iff]
        exact ⟨by simpa using hxs x (List.mem_cons_self x xs), hseen⟩
      have := ih ys (toLowerStr x :: seen) hseen2
        fun y hy => hxs y (List.mem_cons_of_mem x hy)
      exact List.mem_cons_of_mem x this
    · rw [if_neg hcond]
      exact ih ys seen hseen fun y hy => hxs y (List.mem_cons_of_mem x hy)

/-- C2 amended: reconciliation never removes an element of `current` whose
normalized form does not appear (case-insensitively) among `fresh`, unless
that element is itself a case-insensitive duplicate of an earlier element
of `current` (the current list is deduplicated to first occurrences). -/
theorem reconcile_nondestructive (fresh : List Str) (c : Str)
    (xs ys : List Str)
    (hfresh : ∀ f ∈ fresh, toLowerStr f ≠ toLowerStr (normalizeKeyword c))
    (hdup : ∀ x ∈ xs, toLowerStr x ≠ toLowerStr c) :
    c ∈ cleanDuplicateKeywords (xs ++ c :: ys) fresh := by
  unfold cleanDuplicateKeywords
  refine List.mem_append_left _ ?_
  exact cleanCurrent_mem fresh c (markedForRemoval_false fresh c hfresh) xs ys [] rfl hdup

/-- C2 witness: the spec's own reconcile example — `"Custom Tag"` (fresh
forms are `Sci-Fi` and `Time Travel`, neither matching its normalization,
no earlier duplicate) is preserved. -/
theorem reconcile_nondestructive_witness :
    (∀ f ∈ [str "Sci-Fi", str "Time Travel"],
      toLowerStr f ≠ toLowerStr (normalizeKeyword (str "Custom Tag"))) ∧
    (∀ x ∈ [str "Action", str "sci-fi", str "Drama"],
      toLowerStr x ≠ toLowerStr (str "Custom Tag")) ∧
    str "Custom Tag" ∈ cleanDuplicateKeywords
      [str "Action", str "sci-fi", str "Drama", str "Custom Tag"]
      [str "Sci-Fi", str "Time Travel"] := by
  refine ⟨by decide, by decide, ?_⟩
  exact reconcile_nondestructive [str "Sci-Fi", str "Time Travel"] (str "Custom Tag")
    [str "Action", str "sci-fi", str "Drama"] [] (by decide) (by decide)

/-! ## Lemmas: the path identifier extractor (C3) -/

/-- May a match anchor sit at position `i`: string start, or preceded by a
non-alphanumeric character. -/
def boundaryOK (s : Str) (i : Nat) : Bool :=
  match i with
  | 0 => true
  | j + 1 =>
    match s[j]? with
    | some c => !(isAlnumR c)
    | none => false

/-- The anchored match of the extractor pattern at position `i`. -/
def matchAt (s : Str) (i : Nat) : Option Str :=
  if boundaryOK s i then tmdbHere (s.drop i) else none

theorem drop_takeWhile_length (p : Nat → Bool) :
    ∀ l : Str, l.drop (l.takeWhile p).length = l.dropWhile p := by
  intro l
  induction l with
  | nil => rfl
  | cons a rest ih =>
    by_cases h : p a
    · simp [List.takeWhile_cons, List.dropWhile_cons, h, ih]
    · simp [List.takeWhile_cons, List.dropWhile_cons, h]

theorem takeWhile_append_all (p : Nat → Bool) :
    ∀ (d rest : Str), (∀ c ∈ d, p c = true) →
      (rest = [] ∨ ∃ c r2, rest = c :: r2 ∧ p c = false) →
      (d ++ rest).takeWhile p = d := by
  intro d
  induction d with
  | nil =>
    intro rest _ hrest
    rcases hrest with rfl | ⟨c, r2, rfl, hc⟩
    · rfl
    · simp [List.takeWhile_cons, hc]
  | cons a d2 ih =>
    intro rest hall hrest
    have ha : p a = true := hall a (List.mem_cons_self a d2)
    show (a :: (d2 ++ rest)).takeWhile p = a :: d2
    rw [List.takeWhile_cons, if_pos ha,
      ih rest (fun c hc => hall c (List.mem_cons_of_mem a hc)) hrest]

theorem dropWhile_append_head (p : Nat → Bool) :
    ∀ (sep t : Str), (∀ c ∈ sep, p c = true) →
      (t = [] ∨ ∃ c r2, t = c :: r2 ∧ p c = false) →
      (sep ++ t).dropWhile p = t := by
  intro sep
  induction sep with
  | nil =>
    intro t _ ht
    rcases ht with rfl | ⟨c, r2, rfl, hc⟩
    · rfl
    · simp [List.dropWhile_cons, hc]
  | cons a sep2 ih =>
    intro t hall ht
    have ha : p a = true := hall a (List.mem_cons_self a sep2)
    show ((a :: (sep2 ++ t)).dropWhile p) = t
    rw [List.dropWhile_cons, if_pos ha,
      ih t (fun c hc => hall c (List.mem_cons_of_mem a hc)) ht]

theorem tmdbHere_iff (s d : Str) :
    tmdbHere s = some d ↔
      ∃ (sep rest : Str),
        toLowerStr (s.take 4) = str "tmdb" ∧
        s.drop 4 = sep ++ d ++ rest ∧
        (∀ c ∈ sep, isAlnumR c = false) ∧
        d ≠ [] ∧ (∀ c ∈ d, isDigitR c = true) ∧
        (rest = [] ∨ ∃ c rest2, rest = c :: rest2 ∧ isAlnumR c = false) := by
  constructor
  · intro h
    match s, h with
    | t :: m :: dd :: b :: tail, h =>
      simp only [tmdbHere] at h
      by_cases htok : (toLowerR t = 116 && toLowerR m = 109 && toLowerR dd = 100
          && toLowerR b = 98) = true
      · rw [if_pos htok] at h
        set r1 := tail.dropWhile (fun c => !(isAlnumR c)) with hr1
        set ds := r1.takeWhile isDigitR with hds
        by_cases hne : ds = []
        · rw [if_pos hne] at h
          exact absurd h (by simp)
        · rw [if_neg hne] at h
          have hdeq : ds = d := by
            cases hrest : r1.drop ds.length with
            | nil => rw [hrest] at h; simpa using h
            | cons c rest2 =>
              rw [hrest] at h
              dsimp only at h
              by_cases hal : isAlnumR c
              · rw [if_pos hal] at h; exact absurd h (by simp)
              · rw [if_neg hal] at h; simpa using h
          have hsp : tail = (tail.takeWhile fun c => !(isAlnumR c)) ++ ds
              ++ r1.drop ds.length := by
            have e2 : ds ++ r1.drop ds.length = r1 := by
              rw [hds, drop_takeWhile_length]
              exact List.takeWhile_append_dropWhile _ _
            have e1 : (tail.takeWhile fun c => !(isAlnumR c)) ++ r1 = tail := by
              rw [hr1]
              exact List.takeWhile_append_dropWhile _ _
            rw [List.append_assoc, e2, e1]
          simp only [Bool.and_eq_true, decide_eq_true_eq] at htok
          refine ⟨tail.takeWhile (fun c => !(isAlnumR c)), r1.drop ds.length,
            ?_, ?_, ?_, hdeq ▸ hne, ?_, ?_⟩
          · have ht : toLowerStr ((t :: m :: dd :: b :: tail).take 4)
                = [toLowerR t, toLowerR m, toLowerR dd, toLowerR b] := rfl
            rw [ht, htok.1.1.1, htok.1.1.2, htok.1.2, htok.2]
            decide
          · show tail = _
            rw [← hdeq]
            exact hsp
          · intro c hc
            have h2 := List.mem_takeWhile_imp hc
            simpa using h2
          · intro c hc
            rw [← hdeq] at hc
            exact List.mem_takeWhile_imp hc
          · cases hrest : r1.drop ds.length with
            | nil => exact Or.inl rfl
            | cons c rest2 =>
              rw [hrest] at h
              dsimp only at h
              by_cases hal : isAlnumR c
              · rw [if_pos hal] at h; exact absurd h (by simp)
              · exact Or.inr ⟨c, rest2, rfl, by simpa using hal⟩
      · rw [if_neg htok] at h
        exact absurd h (by simp)
  · rintro ⟨sep, rest, htok, hsplit, hsep, hne, hdig, hrest⟩
    have hlen : 4 ≤ s.length := by
      have hl := congrArg List.length htok
      have h4 : (str "tmdb").length = 4 := by decide
      rw [h4] at hl
      simp only [toLowerStr, List.length_map, List.length_take] at hl
      omega
    rcases s with - | ⟨t, - | ⟨m, - | ⟨dd, - | ⟨b, tail⟩⟩⟩⟩
    · simp at hlen
    · simp at hlen
    · simp at hlen
    · simp at hlen
    · have hx : [toLowerR t, toLowerR m, toLowerR dd, toLowerR b]
          = [116, 109, 100, 98] := by
        have h4 : str "tmdb" = [116, 109, 100, 98] := by decide
        rw [← h4]
        exact htok
      simp only [List.cons.injEq, and_true] at hx
      have htok2 : (toLowerR t = 116 && toLowerR m = 109 && toLowerR dd = 100
          && toLowerR b = 98) = true := by
        simp [hx.1, hx.2.1, hx.2.2.1, hx.2.2.2]
      have htail : tail = sep ++ d ++ rest := by simpa using hsplit
      have hheadfact : d ++ rest = [] ∨
          ∃ c r2, d ++ rest = c :: r2 ∧ (!(isAlnumR c)) = false := by
        cases d with
        | nil => exact absurd rfl hne
        | cons a d2 =>
          refine Or.inr ⟨a, d2 ++ rest, rfl, ?_⟩
          have := hdig a (List.mem_cons_self a d2)
          simp [isAlnumR, this]
      have hdw : tail.dropWhile (fun c => !(isAlnumR c)) = d ++ rest := by
        rw [htail, List.append_assoc]
        exact dropWhile_append_head _ sep (d ++ rest)
          (fun c hc => by simp [hsep c hc]) hheadfact
      have hrestfact : rest = [] ∨ ∃ c r2, rest = c :: r2 ∧ isDigitR c = false := by
        rcases hrest with rfl | ⟨c, r2, rfl, hal⟩
        · exact Or.inl rfl
        · refine Or.inr ⟨c, r2, rfl, ?_⟩
          revert hal
          simp only [isAlnumR, Bool.or_eq_false_iff]
          intro hal
          exact hal.1.1
      have htw : (d ++ rest).takeWhile isDigitR = d :=
        takeWhile_append_all isDigitR d rest hdig hrestfact
      simp only [tmdbHere, htok2, if_true]
      rw [hdw, htw, if_neg hne, List.drop_left]
      rcases hrest with rfl | ⟨c, rest2, rfl, hal⟩
      · rfl
      · dsimp only
        rw [if_neg (by simp [hal])]

theorem matchAt_ge_length (s : Str) (i : Nat) (h : s.length ≤ i) :
    matchAt s i = none := by
  unfold matchAt
  rw [List.drop_eq_nil_of_le h]
  cases hb : boundaryOK s i
  · rw [if_neg (by simp)]
  · rw [if_pos rfl]
    rfl

theorem tmdbScan_iff (s d : Str) :
    ∀ (n i : Nat), i + n = s.length →
      (tmdbScan (s.drop i) (boundaryOK s i) = some d ↔
        ∃ j, i ≤ j ∧ matchAt s j = some d ∧
          ∀ k, i ≤ k → k < j → matchAt s k = none) := by
  intro n
  induction n with
  | zero =>
    intro i hi
    have hdrop : s.drop i = [] := List.drop_eq_nil_of_le (by omega)
    rw [hdrop]
    constructor
    · intro h
      exact absurd h (by simp [tmdbScan])
    · rintro ⟨j, hij, hm, _⟩
      rw [matchAt_ge_length s j (by omega)] at hm
      exact absurd hm (by simp)
  | succ m ih =>
    intro i hi
    have hilt : i < s.length := by omega
    obtain ⟨c, rest, hcr⟩ : ∃ c rest, s.drop i = c :: rest := by
      cases hd : s.drop i with
      | nil =>
        have := List.drop_eq_nil_iff.mp hd
        omega
      | cons c rest => exact ⟨c, rest, rfl⟩
    have hget : s[i]? = some c := by
      have := List.head?_drop s i
      rw [hcr] at this
      exact this.symm
    have hrest : s.drop (i + 1) = rest := by
      have h1 : s.drop (i + 1) = (s.drop i).drop 1 := by
        rw [List.drop_drop, Nat.add_comm]
      rw [h1, hcr]
      rfl
    have hbsucc : boundaryOK s (i + 1) = !(isAlnumR c) := by
      simp only [boundaryOK, hget]
    have hshift : matchAt s i = none →
        ((∃ j, i + 1 ≤ j ∧ matchAt s j = some d ∧
            ∀ k, i + 1 ≤ k → k < j → matchAt s k = none) ↔
         (∃ j, i ≤ j ∧ matchAt s j = some d ∧
            ∀ k, i ≤ k → k < j → matchAt s k = none)) := by
      intro hnone
      constructor
      · rintro ⟨j, hij, hm, hall⟩
        refine ⟨j, by omega, hm, fun k hk1 hk2 => ?_⟩
        rcases Nat.eq_or_lt_of_le hk1 with rfl | hlt
        · exact hnone
        · exact hall k hlt hk2
      · rintro ⟨j, hij, hm, hall⟩
        have hji : j ≠ i := by
          intro h
          rw [h, hnone] at hm
          exact absurd hm (by simp)
        exact ⟨j, by omega, hm, fun k hk1 hk2 => hall k (by omega) hk2⟩
    rw [hcr]
    cases hb : boundaryOK s i with
    | false =>
      have hscan : tmdbScan (c :: rest) false = tmdbScan rest (!(isAlnumR c)) := by
        simp [tmdbScan]
      rw [hscan, ← hbsucc, ← hrest]
      rw [ih (i + 1) (by omega)]
      exact hshift (by simp [matchAt, hb])
    | true =>
      cases hH : tmdbHere (c :: rest) with
      | some ds =>
        have hscan : tmdbScan (c :: rest) true = some ds := by
          simp [tmdbScan, hH]
        rw [hscan]
        have hmi : matchAt s i = some ds := by
          simp [matchAt, hb, hcr, hH]
        constructor
        · intro h
          simp only [Option.some.injEq] at h
          exact ⟨i, Nat.le_refl i, h ▸ hmi, fun k hk1 hk2 => by omega⟩
        · rintro ⟨j, hij, hm, hall⟩
          rcases Nat.eq_or_lt_of_le hij with rfl | hlt
          · rw [hmi] at hm
            simpa using hm
          · rw [hall i (Nat.le_refl i) hlt] at hmi
            exact absurd hmi (by simp)
      | none =>
        have hscan : tmdbScan (c :: rest) true = tmdbScan rest (!(isAlnumR c)) := by
          simp [tmdbScan, hH]
        rw [hscan, ← hbsucc, ← hrest]
        rw [ih (i + 1) (by omega)]
        exact hshift (by simp [matchAt, hb, hcr, hH])

theorem takeWhile_replicate_self (p : Nat → Bool) (a : Nat) (h : p a = true) :
    ∀ n, List.takeWhile p (List.replicate n a) = List.replicate n a := by
  intro n
  induction n with
  | zero => rfl
  | succ m ih => simp [List.replicate, List.takeWhile_cons, h, ih]

theorem dropWhile_head_false (p : Nat → Bool) (a : Nat) (h : p a = false)
    (l : Str) : List.dropWhile p (a :: l) = a :: l := by
  simp [List.dropWhile_cons, h]

/-- C3. Extractor characterization: extraction returns a value exactly when
some position anchors a full match — the literal token `tmdb`
(case-insensitively) at a position that is the string start or preceded by
a non-alphanumeric character, followed by zero or more non-alphanumeric
separators, then a nonempty digit run, then a non-alphanumeric character or
the string end — and then it returns exactly the digit run of the first
(leftmost) such anchor. In particular `"mytmdb12345"` and `"tmdb12345abc"`
are absent, and digit runs of every length are accepted. -/
theorem extractor_characterization :
    (∀ s d : Str, extractTMDbIDFromPath s = some d ↔
      ∃ i, matchAt s i = some d ∧ ∀ j, j < i → matchAt s j = none) ∧
    (∀ s i d, matchAt s i = some d ↔
      (boundaryOK s i = true ∧
        ∃ (sep rest : Str),
          toLowerStr ((s.drop i).take 4) = str "tmdb" ∧
          (s.drop i).drop 4 = sep ++ d ++ rest ∧
          (∀ c ∈ sep, isAlnumR c = false) ∧
          d ≠ [] ∧ (∀ c ∈ d, isDigitR c = true) ∧
          (rest = [] ∨ ∃ c rest2, rest = c :: rest2 ∧ isAlnumR c = false))) ∧
    extractTMDbIDFromPath (str "mytmdb12345") = none ∧
    extractTMDbIDFromPath (str "tmdb12345abc") = none ∧
    extractTMDbIDFromPath (str "tmdb") = none ∧
    (∀ n : Nat, 0 < n →
      extractTMDbIDFromPath (str "tmdb" ++ List.replicate n 49)
        = some (List.replicate n 49)) := by
  refine ⟨?_, ?_, by decide, by decide, by decide, ?_⟩
  · intro s d
    have h0 : extractTMDbIDFromPath s = tmdbScan (s.drop 0) (boundaryOK s 0) := rfl
    rw [h0, tmdbScan_iff s d s.length 0 (by omega)]
    constructor
    · rintro ⟨j, _, hm, hall⟩
      exact ⟨j, hm, fun k hk => hall k (Nat.zero_le k) hk⟩
    · rintro ⟨j, hm, hall⟩
      exact ⟨j, Nat.zero_le j, hm, fun k _ hk => hall k hk⟩
  · intro s i d
    unfold matchAt
    cases hb : boundaryOK s i with
    | false =>
      rw [if_neg (by simp)]
      constructor
      · intro h
        exact absurd h (by simp)
      · rintro ⟨h, -⟩
        exact absurd h (by simp)
    | true =>
      rw [if_pos rfl]
      rw [tmdbHere_iff]
      constructor
      · intro h; exact ⟨rfl, h⟩
      · rintro ⟨_, h⟩; exact h
  · intro n hn
    have hstr : str "tmdb" ++ List.replicate n 49
        = 116 :: 109 :: 100 :: 98 :: List.replicate n 49 := by
      have : str "tmdb" = [116, 109, 100, 98] := by decide
      rw [this]
      rfl
    rw [hstr]
    show tmdbScan (116 :: 109 :: 100 :: 98 :: List.replicate n 49) true = _
    have h1 : tmdbHere (116 :: 109 :: 100 :: 98 :: List.replicate n 49)
        = some (List.replicate n 49) := by
      simp only [tmdbHere]
      rw [if_pos (by decide)]
      have hd1 : List.dropWhile (fun c => !(isAlnumR c)) (List.replicate n 49)
          = List.replicate n 49 := by
        cases n with
        | zero => rfl
        | succ m =>
          show List.dropWhile _ (49 :: List.replicate m 49) = _
          exact dropWhile_head_false _ 49 (by decide) _
      have ht1 : List.takeWhile isDigitR (List.replicate n 49)
          = List.replicate n 49 :=
        takeWhile_replicate_self isDigitR 49 (by decide) n
      rw [hd1, ht1]
      have hne : List.replicate n 49 ≠ [] := by
        cases n with
        | zero => omega
        | succ m => simp
      rw [if_neg hne]
      have hdrop : (List.replicate n 49).drop (List.replicate n 49).length = [] := by
        simp
      rw [hdrop]
    simp [tmdbScan, h1]

/-! ## Normalization idempotence (C1): character-level lemmas

The embedding is exact for inputs whose whitespace characters are all the
plain space; the supporting development below establishes idempotence of
`normalizeKeyword` on such inputs once no two spaces are adjacent. -/

/-- A character whose whitespace form, if any, is the plain space. -/
def plainChar (c : Nat) : Bool := !(goSpace c) || c = 32

/-- Every whitespace character is a plain space, and no two spaces are
adjacent. -/
def tidy : Str → Bool
  | [] => true
  | [c] => plainChar c
  | c :: d :: rest => plainChar c && !(c = 32 && d = 32) && tidy (d :: rest)

theorem toLowerR_toLowerR (c : Nat) : toLowerR (toLowerR c) = toLowerR c := by
  simp only [toLowerR, isUpperR]
  split_ifs with h1 h2 <;> simp_all <;> omega

theorem toLowerR_toUpperR (c : Nat) : toLowerR (toUpperR c) = toLowerR c := by
  simp only [toLowerR, toUpperR, isUpperR, isLowerR]
  split_ifs with h1 h2 h3 <;> simp_all <;> omega

theorem toUpperR_toUpperR (c : Nat) : toUpperR (toUpperR c) = toUpperR c := by
  simp only [toUpperR, isLowerR]
  split_ifs with h1 h2 <;> simp_all <;> omega

theorem toUpperR_toLowerR (c : Nat) : toUpperR (toLowerR c) = toUpperR c := by
  simp only [toLowerR, toUpperR, isUpperR, isLowerR]
  split_ifs with h1 h2 h3 <;> simp_all <;> omega

theorem goSpace_toLowerR (c : Nat) : goSpace (toLowerR c) = goSpace c := by
  unfold toLowerR
  split_ifs with h1
  · rw [Bool.eq_iff_iff]
    simp only [isUpperR, Bool.and_eq_true, decide_eq_true_eq] at h1
    simp only [goSpace, Bool.or_eq_true, decide_eq_true_eq]
    omega
  · rfl

theorem goSpace_toUpperR (c : Nat) : goSpace (toUpperR c) = goSpace c := by
  unfold toUpperR
  split_ifs with h1
  · rw [Bool.eq_iff_iff]
    simp only [isLowerR, Bool.and_eq_true, decide_eq_true_eq] at h1
    simp only [goSpace, Bool.or_eq_true, decide_eq_true_eq]
    omega
  · rfl

theorem toLowerR_eq_32 (c : Nat) : (toLowerR c = 32) ↔ c = 32 := by
  simp only [toLowerR, isUpperR]
  split_ifs with h1 <;> simp_all <;> omega

theorem toLowerR_eq_45 (c : Nat) : (toLowerR c = 45) ↔ c = 45 := by
  simp only [toLowerR, isUpperR]
  split_ifs with h1 <;> simp_all <;> omega

theorem reSpace_le_goSpace (c : Nat) : reSpace c = true → goSpace c = true := by
  simp only [reSpace, goSpace]
  intro h
  rcases h with _ <;> simp_all <;> omega

theorem isWordR_not_goSpace (c : Nat) : isWordR c = true → goSpace c = false := by
  simp only [isWordR, isAlnumR, isDigitR, isUpperR, isLowerR, goSpace]
  intro h
  simp only [Bool.or_eq_true, Bool.and_eq_true, decide_eq_true_eq] at h
  simp only [Bool.or_eq_false_iff, decide_eq_false_iff_not]
  omega

theorem isWordR_not_reSpace (c : Nat) : isWordR c = true → reSpace c = false := by
  simp only [isWordR, isAlnumR, isDigitR, isUpperR, isLowerR, reSpace]
  intro h
  simp only [Bool.or_eq_true, Bool.and_eq_true, decide_eq_true_eq] at h
  simp only [Bool.or_eq_false_iff, decide_eq_false_iff_not]
  omega

theorem isWordR_ne_44 (c : Nat) : isWordR c = true → c ≠ 44 := by
  simp only [isWordR, isAlnumR, isDigitR, isUpperR, isLowerR]
  intro h
  simp only [Bool.or_eq_true, Bool.and_eq_true, decide_eq_true_eq] at h
  omega

/-! ### String-level transport lemmas -/

theorem toLowerStr_toLowerStr (x : Str) :
    toLowerStr (toLowerStr x) = toLowerStr x := by
  simp only [toLowerStr, List.map_map]
  exact List.map_congr_left fun c _ => toLowerR_toLowerR c

theorem toLowerStr_toUpperStr (x : Str) :
    toLowerStr (toUpperStr x) = toLowerStr x := by
  simp only [toLowerStr, toUpperStr, List.map_map]
  exact List.map_congr_left fun c _ => toLowerR_toUpperR c

theorem toUpperStr_toUpperStr (x : Str) :
    toUpperStr (toUpperStr x) = toUpperStr x := by
  simp only [toUpperStr, List.map_map]
  exact List.map_congr_left fun c _ => toUpperR_toUpperR c

theorem toUpperStr_toLowerStr (x : Str) :
    toUpperStr (toLowerStr x) = toUpperStr x := by
  simp only [toUpperStr, toLowerStr, List.map_map]
  exact List.map_congr_left fun c _ => toUpperR_toLowerR c

theorem toLowerStr_append (x y : Str) :
    toLowerStr (x ++ y) = toLowerStr x ++ toLowerStr y := by
  simp [toLowerStr]

theorem toLowerStr_cons (c : Nat) (x : Str) :
    toLowerStr (c :: x) = toLowerR c :: toLowerStr x := rfl

/-- A string all of whose characters are fixed by `toLowerR`. -/
def LowFixed (x : Str) : Prop := toLowerStr x = x

theorem lowFixed_toLowerStr (x : Str) : LowFixed (toLowerStr x) :=
  toLowerStr_toLowerStr x

theorem lowFixed_append {x y : Str} (hx : LowFixed x) (hy : LowFixed y) :
    LowFixed (x ++ y) := by
  unfold LowFixed at hx hy ⊢
  rw [toLowerStr_append, hx, hy]

theorem lowFixed_of_append_left {x y : Str} (h : LowFixed (x ++ y)) :
    LowFixed x := by
  unfold LowFixed at h ⊢
  rw [toLowerStr_append] at h
  exact List.append_inj_left h (by simp [toLowerStr])

theorem lowFixed_of_append_right {x y : Str} (h : LowFixed (x ++ y)) :
    LowFixed y := by
  unfold LowFixed at h ⊢
  rw [toLowerStr_append] at h
  exact List.append_inj_right h (by simp [toLowerStr])

theorem lowFixed_of_cons {c : Nat} {x : Str} (h : LowFixed (c :: x)) :
    toLowerR c = c ∧ LowFixed x := by
  unfold LowFixed at h
  rw [toLowerStr_cons] at h
  exact ⟨List.head_eq_of_cons_eq h, List.tail_eq_of_cons_eq h⟩

/-! ### Tidy-string machinery -/

theorem tidy_cons {c : Nat} {x : Str} (h : tidy (c :: x) = true) :
    plainChar c = true ∧ tidy x = true ∧
      (∀ d x2, x = d :: x2 → ¬(c = 32 ∧ d = 32)) := by
  cases x with
  | nil =>
    refine ⟨h, rfl, fun d x2 hx => by simp at hx⟩
  | cons d x2 =>
    simp only [tidy, Bool.and_eq_true] at h
    refine ⟨h.1.1, h.2, fun e y2 he => ?_⟩
    have hde : d = e ∧ x2 = y2 := by
      constructor
      · exact List.head_eq_of_cons_eq he
      · exact List.tail_eq_of_cons_eq he
    intro hc
    rw [← hde.1] at hc
    have := h.1.2
    simp only [Bool.not_eq_true] at this
    rw [hc.1, hc.2] at this
    simp at this

theorem tidy_tail {c : Nat} {x : Str} (h : tidy (c :: x) = true) :
    tidy x = true := (tidy_cons h).2.1

theorem tidy_append_right : ∀ {x y : Str}, tidy (x ++ y) = true → tidy y = true := by
  intro x
  induction x with
  | nil => intro y h; exact h
  | cons c x2 ih =>
    intro y h
    exact ih (tidy_tail h)

theorem tidy_append_left : ∀ {x y : Str}, tidy (x ++ y) = true → tidy x = true := by
  intro x
  induction x with
  | nil => intro y _; rfl
  | cons c x2 ih =>
    intro y h
    obtain ⟨hpc, ht, hadj⟩ := tidy_cons h
    have hx2 : tidy x2 = true := ih ht
    cases x2 with
    | nil => exact hpc
    | cons d x3 =>
      have hnadj : ¬(c = 32 ∧ d = 32) := hadj d (x3 ++ y) rfl
      show (plainChar c && !(c = 32 && d = 32) && tidy (d :: x3)) = true
      simp only [Bool.and_eq_true, hpc, hx2, and_true, true_and]
      simp only [Bool.not_eq_eq_eq_not, Bool.not_true]
      by_cases h32 : c = 32 ∧ d = 32
      · exact absurd h32 hnadj
      · simp only [Bool.and_eq_false_iff]
        by_cases hc : c = 32
        · right
          simp only [decide_eq_false_iff_not]
          intro hd
          exact h32 ⟨hc, hd⟩
        · left
          simp [hc]

theorem tidy_space_is_32 : ∀ {x : Str}, tidy x = true →
    ∀ c ∈ x, goSpace c = true → c = 32 := by
  intro x
  induction x with
  | nil => intro _ c hc; simp at hc
  | cons a x2 ih =>
    intro h c hc hsp
    rcases List.mem_cons.mp hc with rfl | hmem
    · have := (tidy_cons h).1
      simp only [plainChar, Bool.or_eq_true, Bool.not_eq_eq_eq_not, Bool.not_true,
        decide_eq_true_eq] at this
      rcases this with h1 | h1
      · rw [hsp] at h1; cases h1
      · exact h1
    · exact ih (tidy_tail h) c hmem hsp

theorem tidy_toLowerStr {x : Str} (h : tidy x = true) :
    tidy (toLowerStr x) = true := by
  induction x with
  | nil => rfl
  | cons c x2 ih =>
    have hrec := ih (tidy_tail h)
    obtain ⟨hpc, _, hadj⟩ := tidy_cons h
    rw [toLowerStr_cons]
    cases hx2 : x2 with
    | nil => show plainChar (toLowerR c) = true
             simp only [plainChar, Bool.or_eq_true, decide_eq_true_eq,
               goSpace_toLowerR, toLowerR_eq_32] at *
             exact hpc
    | cons d x3 =>
      rw [hx2] at hrec
      show (plainChar (toLowerR c) && !(toLowerR c = 32 && toLowerR d = 32)
        && tidy (toLowerR d :: toLowerStr x3)) = true
      have h1 : plainChar (toLowerR c) = true := by
        simp only [plainChar, Bool.or_eq_true, decide_eq_true_eq,
          goSpace_toLowerR, toLowerR_eq_32] at *
        exact hpc
      have h2 : ¬(toLowerR c = 32 ∧ toLowerR d = 32) := by
        intro hcd
        exact hadj d x3 hx2 ⟨(toLowerR_eq_32 c).mp hcd.1, (toLowerR_eq_32 d).mp hcd.2⟩
      have h3 : tidy (toLowerR d :: toLowerStr x3) = true := by
        have := hrec
        simpa [toLowerStr_cons] using this
      simp only [Bool.and_eq_true, h1, h3, and_true, true_and]
      simp only [Bool.not_eq_eq_eq_not, Bool.not_true, Bool.and_eq_false_iff]
      by_cases hc : toLowerR c = 32
      · right
        simp only [decide_eq_false_iff_not]
        intro hd
        exact h2 ⟨hc, hd⟩
      · left
        simp [hc]

/-! ### Words, fields and unwords -/

theorem fields_cons_space {c : Nat} {x : Str} (h : goSpace c = true) :
    fields (c :: x) = fields x := by
  rw [fields.eq_def]
  dsimp only
  rw [if_pos h]

theorem fields_singleton {c : Nat} (h : goSpace c = false) :
    fields [c] = [[c]] := by
  rw [fields.eq_def]
  dsimp only
  rw [if_neg (by rw [h]; simp)]

theorem fields_cons_cons_space {c d : Nat} {x : Str} (hc : goSpace c = false)
    (hd : goSpace d = true) : fields (c :: d :: x) = [c] :: fields (d :: x) := by
  rw [fields.eq_def]
  dsimp only
  rw [if_neg (by rw [hc]; simp), if_pos hd]

theorem fields_ccw_nil {c d : Nat} {x : Str} (hc : goSpace c = false)
    (hd : goSpace d = false) (hf : fields (d :: x) = []) :
    fields (c :: d :: x) = [[c]] := by
  rw [fields.eq_def]
  dsimp only
  rw [if_neg (by rw [hc]; simp), if_neg (by rw [hd]; simp), hf]

theorem fields_ccw_cons {c d : Nat} {x : Str} {w : Str} {ws : List Str}
    (hc : goSpace c = false) (hd : goSpace d = false)
    (hf : fields (d :: x) = w :: ws) :
    fields (c :: d :: x) = (c :: w) :: ws := by
  rw [fields.eq_def]
  dsimp only
  rw [if_neg (by rw [hc]; simp), if_neg (by rw [hd]; simp), hf]

/-- A nonempty word containing no whitespace. -/
def GoodWord (w : Str) : Prop := w ≠ [] ∧ ∀ c ∈ w, goSpace c = false

/-- Every element is a `GoodWord`. -/
def GoodWords (ws : List Str) : Prop := ∀ w ∈ ws, GoodWord w

/-- The string starts with a non-whitespace character (or is empty). -/
def NoLead (x : Str) : Prop := ∀ c, x.head? = some c → goSpace c = false

/-- The string ends with a non-whitespace character (or is empty). -/
def NoTrail (x : Str) : Prop := ∀ c, x.getLast? = some c → goSpace c = false

theorem fields_goodWords : ∀ x : Str, GoodWords (fields x) := by
  intro x
  induction x with
  | nil => intro w hw; simp [fields] at hw
  | cons c rest ih =>
    intro w hw
    by_cases hc : goSpace c = true
    · rw [fields_cons_space hc] at hw
      exact ih w hw
    · have hc2 : goSpace c = false := by
        cases h : goSpace c
        · rfl
        · exact absurd h hc
      cases rest with
      | nil =>
        rw [fields_singleton hc2] at hw
        simp only [List.mem_singleton] at hw
        subst hw
        exact ⟨by simp, fun d hd => by
          simp only [List.mem_singleton] at hd; rw [hd]; exact hc2⟩
      | cons d rest2 =>
        by_cases hd : goSpace d = true
        · rw [fields_cons_cons_space hc2 hd] at hw
          rcases List.mem_cons.mp hw with rfl | hmem
          · exact ⟨by simp, fun e he => by
              simp only [List.mem_singleton] at he; rw [he]; exact hc2⟩
          · exact ih w hmem
        · have hd2 : goSpace d = false := by
            cases h : goSpace d
            · rfl
            · exact absurd h hd
          rcases hfr : fields (d :: rest2) with _ | ⟨w0, ws0⟩
          · rw [fields_ccw_nil hc2 hd2 hfr] at hw
            simp only [List.mem_singleton] at hw
            subst hw
            exact ⟨by simp, fun e he => by
              simp only [List.mem_singleton] at he; rw [he]; exact hc2⟩
          · rw [fields_ccw_cons hc2 hd2 hfr] at hw
            rcases List.mem_cons.mp hw with rfl | hmem
            · have hw0 : GoodWord w0 := ih w0 (by rw [hfr]; exact List.mem_cons_self w0 ws0)
              refine ⟨by simp, fun e he => ?_⟩
              rcases List.mem_cons.mp he with rfl | hme
              · exact hc2
              · exact hw0.2 e hme
            · exact ih w (by rw [hfr]; exact List.mem_cons_of_mem w0 hmem)

theorem mem_fields_mem : ∀ (x : Str) (w : Str), w ∈ fields x → ∀ c ∈ w, c ∈ x := by
  intro x
  induction x with
  | nil => intro w hw; simp [fields] at hw
  | cons a rest ih =>
    intro w hw c hc
    by_cases ha : goSpace a = true
    · rw [fields_cons_space ha] at hw
      exact List.mem_cons_of_mem a (ih w hw c hc)
    · have ha2 : goSpace a = false := by
        cases h : goSpace a
        · rfl
        · exact absurd h ha
      cases rest with
      | nil =>
        rw [fields_singleton ha2] at hw
        simp only [List.mem_singleton] at hw
        subst hw
        simp only [List.mem_singleton] at hc
        rw [hc]; exact List.mem_cons_self a []
      | cons d rest2 =>
        by_cases hd : goSpace d = true
        · rw [fields_cons_cons_space ha2 hd] at hw
          rcases List.mem_cons.mp hw with rfl | hmem
          · simp only [List.mem_singleton] at hc
            rw [hc]; exact List.mem_cons_self a _
          · exact List.mem_cons_of_mem a (ih w hmem c hc)
        · have hd2 : goSpace d = false := by
            cases h : goSpace d
            · rfl
            · exact absurd h hd
          rcases hfr : fields (d :: rest2) with _ | ⟨w0, ws0⟩
          · rw [fields_ccw_nil ha2 hd2 hfr] at hw
            simp only [List.mem_singleton] at hw
            subst hw
            simp only [List.mem_singleton] at hc
            rw [hc]; exact List.mem_cons_self a _
          · rw [fields_ccw_cons ha2 hd2 hfr] at hw
            rcases List.mem_cons.mp hw with rfl | hmem
            · rcases List.mem_cons.mp hc with rfl | hcm
              · exact List.mem_cons_self c _
              · exact List.mem_cons_of_mem a
                  (ih w0 (by rw [hfr]; exact List.mem_cons_self w0 ws0) c hcm)
            · exact List.mem_cons_of_mem a
                (ih w (by rw [hfr]; exact List.mem_cons_of_mem w0 hmem) c hc)

theorem fields_ne_nil {x : Str} {c : Nat} (hh : x.head? = some c)
    (hc : goSpace c = false) : fields x ≠ [] := by
  cases x with
  | nil => simp at hh
  | cons a rest =>
    simp only [List.head?_cons, Option.some.injEq] at hh
    subst hh
    cases rest with
    | nil => rw [fields_singleton hc]; simp
    | cons d rest2 =>
      by_cases hd : goSpace d = true
      · rw [fields_cons_cons_space hc hd]; simp
      · have hd2 : goSpace d = false := by
          cases h : goSpace d
          · rfl
          · exact absurd h hd
        rcases hfr : fields (d :: rest2) with _ | ⟨w0, ws0⟩
        · rw [fields_ccw_nil hc hd2 hfr]; simp
        · rw [fields_ccw_cons hc hd2 hfr]; simp

theorem unwords_cons {ws : List Str} (h : ws ≠ []) (w : Str) :
    unwords (w :: ws) = w ++ 32 :: unwords ws := by
  cases ws with
  | nil => exact absurd rfl h
  | cons v vs => rfl

theorem fields_single : ∀ (w : Str), w ≠ [] → (∀ c ∈ w, goSpace c = false) →
    fields w = [w] := by
  intro w
  induction w with
  | nil => intro h; exact absurd rfl h
  | cons c rest ih =>
    intro _ hall
    have hc : goSpace c = false := hall c (List.mem_cons_self c rest)
    cases rest with
    | nil => exact fields_singleton hc
    | cons d rest2 =>
      have hd : goSpace d = false := hall d (by simp)
      have hrec : fields (d :: rest2) = [d :: rest2] :=
        ih (by simp) (fun e he => hall e (List.mem_cons_of_mem c he))
      rw [fields_ccw_cons hc hd hrec]

theorem fields_word_space : ∀ (w : Str), w ≠ [] →
    (∀ c ∈ w, goSpace c = false) → ∀ t : Str,
    fields (w ++ 32 :: t) = w :: fields t := by
  intro w
  induction w with
  | nil => intro h; exact absurd rfl h
  | cons c rest ih =>
    intro _ hall t
    have hc : goSpace c = false := hall c (List.mem_cons_self c rest)
    cases rest with
    | nil =>
      show fields (c :: 32 :: t) = [c] :: fields t
      rw [fields_cons_cons_space hc (by decide)]
      rw [fields_cons_space (show goSpace 32 = true by decide)]
    | cons d rest2 =>
      have hd : goSpace d = false := hall d (by simp)
      have hrec := ih (by simp) (fun e he => hall e (List.mem_cons_of_mem c he)) t
      show fields (c :: ((d :: rest2) ++ 32 :: t)) = (c :: d :: rest2) :: fields t
      rw [show ((d :: rest2) ++ 32 :: t) = (d :: (rest2 ++ 32 :: t)) by simp] at hrec ⊢
      rw [fields_ccw_cons hc hd hrec]

theorem fields_unwords : ∀ (ws : List Str), GoodWords ws → ws ≠ [] →
    fields (unwords ws) = ws := by
  intro ws
  induction ws with
  | nil => intro _ h; exact absurd rfl h
  | cons w ws2 ih =>
    intro hg _
    have hw : GoodWord w := hg w (List.mem_cons_self w ws2)
    cases ws2 with
    | nil =>
      show fields (unwords [w]) = [w]
      rw [show unwords [w] = w from rfl]
      exact fields_single w hw.1 hw.2
    | cons v vs =>
      rw [unwords_cons (by simp) w]
      rw [fields_word_space w hw.1 hw.2 (unwords (v :: vs))]
      rw [ih (fun u hu => hg u (List.mem_cons_of_mem w hu)) (by simp)]

theorem unwords_fields_aux : ∀ (n : Nat) (t : Str), t.length ≤ n →
    tidy t = true → NoLead t → NoTrail t → unwords (fields t) = t := by
  intro n
  induction n with
  | zero =>
    intro t hlen _ _ _
    have : t = [] := List.eq_nil_of_length_eq_zero (Nat.le_zero.mp hlen)
    subst this
    rfl
  | succ n ih =>
    intro t hlen htidy hlead htrail
    cases t with
    | nil => rfl
    | cons c rest =>
      have hc : goSpace c = false := hlead c rfl
      cases rest with
      | nil =>
        show unwords (fields [c]) = [c]
        rw [fields_singleton hc]
        rfl
      | cons d rest2 =>
        by_cases hd : goSpace d = true
        · have hd32 : d = 32 :=
            tidy_space_is_32 htidy d (by simp) hd
          subst hd32
          -- rest2 is nonempty (otherwise the string would end in a space)
          cases rest2 with
          | nil =>
            exfalso
            have := htrail 32 (by simp)
            simp [goSpace] at this
          | cons e rest3 =>
            have he : goSpace e = false := by
              have hadj := (tidy_cons (tidy_tail htidy)).2.2 e rest3 rfl
              by_cases hsp : goSpace e = true
              · have he32 : e = 32 :=
                  tidy_space_is_32 htidy e (by simp) hsp
                exact absurd ⟨rfl, he32⟩ hadj
              · cases h : goSpace e
                · rfl
                · exact absurd h hsp
            have hrec : unwords (fields (e :: rest3)) = e :: rest3 := by
              refine ih (e :: rest3) ?_ (tidy_tail (tidy_tail htidy))
                (fun z hz => by
                  simp only [List.head?_cons, Option.some.injEq] at hz
                  rw [← hz]; exact he)
                (fun z hz => htrail z (by
                  rw [List.getLast?_cons_cons, List.getLast?_cons_cons]
                  exact hz))
              simp only [List.length_cons] at hlen ⊢
              omega
            rw [fields_cons_cons_space hc (by decide)]
            rw [fields_cons_space (show goSpace 32 = true by decide)]
            have hne : fields (e :: rest3) ≠ [] :=
              fields_ne_nil (show (e :: rest3).head? = some e from rfl) he
            rw [unwords_cons hne [c], hrec]
            rfl
        · have hd2 : goSpace d = false := by
            cases h : goSpace d
            · rfl
            · exact absurd h hd
          have hrec : unwords (fields (d :: rest2)) = d :: rest2 := by
            refine ih (d :: rest2) ?_ (tidy_tail htidy)
              (fun z hz => by
                simp only [List.head?_cons, Option.some.injEq] at hz
                rw [← hz]; exact hd2)
              (fun z hz => htrail z (by rw [List.getLast?_cons_cons]; exact hz))
            simp only [List.length_cons] at hlen ⊢
            omega
          rcases hfr : fields (d :: rest2) with _ | ⟨w0, ws0⟩
          · exfalso
            exact fields_ne_nil (show (d :: rest2).head? = some d from rfl) hd2 hfr
          · rw [fields_ccw_cons hc hd2 hfr]
            rw [hfr] at hrec
            cases ws0 with
            | nil =>
              have hw : unwords [w0] = d :: rest2 := hrec
              show unwords [c :: w0] = c :: d :: rest2
              show c :: w0 = c :: d :: rest2
              rw [show (w0 : Str) = unwords [w0] from rfl, hw]
            | cons v vs =>
              rw [unwords_cons (by simp) (c :: w0)]
              rw [unwords_cons (by simp) w0] at hrec
              simp only [List.cons_append]
              rw [hrec]

theorem unwords_fields {t : Str} (htidy : tidy t = true) (hlead : NoLead t)
    (htrail : NoTrail t) : unwords (fields t) = t :=
  unwords_fields_aux t.length t (Nat.le_refl _) htidy hlead htrail

/-! ### Trim lemmas -/

theorem head_append_left {A z : Str} (h : A ≠ []) :
    (A ++ z).head? = A.head? := by
  cases A with
  | nil => exact absurd rfl h
  | cons a r => rfl

theorem getLast?_append_right : ∀ (x : Str) {y : Str}, y ≠ [] →
    (x ++ y).getLast? = y.getLast? := by
  intro x
  induction x with
  | nil => intro y _; rfl
  | cons a x2 ih =>
    intro y hy
    have hxy : x2 ++ y ≠ [] := by
      intro h
      exact hy (List.append_eq_nil.mp h).2
    rcases hne : x2 ++ y with _ | ⟨b, l⟩
    · exact absurd hne hxy
    · show (a :: (x2 ++ y)).getLast? = y.getLast?
      rw [hne, List.getLast?_cons_cons, ← hne, ih hy]

theorem getLast?_mem : ∀ (l : Str) (c : Nat), l.getLast? = some c → c ∈ l := by
  intro l
  induction l with
  | nil => intro c h; simp at h
  | cons a r ih =>
    intro c h
    cases r with
    | nil =>
      simp only [List.getLast?_singleton, Option.some.injEq] at h
      rw [← h]; exact List.mem_cons_self a []
    | cons b r2 =>
      rw [List.getLast?_cons_cons] at h
      exact List.mem_cons_of_mem a (ih c h)

theorem dropWhile_head_not (p : Nat → Bool) : ∀ (l : Str) (c : Nat),
    (l.dropWhile p).head? = some c → p c = false := by
  intro l
  induction l with
  | nil => intro c h; simp at h
  | cons a r ih =>
    intro c h
    by_cases ha : p a = true
    · rw [List.dropWhile_cons, if_pos ha] at h
      exact ih c h
    · have ha2 : p a = false := by
        cases hpa : p a
        · rfl
        · exact absurd hpa ha
      rw [List.dropWhile_cons, if_neg (by rw [ha2]; simp)] at h
      simp only [List.head?_cons, Option.some.injEq] at h
      rw [← h]; exact ha2

theorem dropTrail_decomp (p : Nat → Bool) (y : Str) :
    y = dropTrail p y ++ (y.reverse.takeWhile p).reverse := by
  unfold dropTrail
  have h := List.takeWhile_append_dropWhile p y.reverse
  conv_lhs => rw [← List.reverse_reverse y, ← h]
  rw [List.reverse_append]

theorem dropWhile_decomp (p : Nat → Bool) (y : Str) :
    y = y.takeWhile p ++ y.dropWhile p := (List.takeWhile_append_dropWhile p y).symm

theorem tidy_trimSpace {s : Str} (h : tidy s = true) :
    tidy (trimSpace s) = true := by
  unfold trimSpace
  have h1 : tidy (s.dropWhile goSpace) = true := by
    have := dropWhile_decomp goSpace s
    rw [this] at h
    exact tidy_append_right h
  have := dropTrail_decomp goSpace (s.dropWhile goSpace)
  rw [this] at h1
  exact tidy_append_left h1

theorem noLead_trimSpace (s : Str) : NoLead (trimSpace s) := by
  intro c hc
  unfold trimSpace at hc
  set y := s.dropWhile goSpace with hy
  have hdec := dropTrail_decomp goSpace y
  have hne : dropTrail goSpace y ≠ [] := by
    intro h
    rw [h] at hc
    simp at hc
  have : y.head? = some c := by
    rw [hdec, head_append_left hne]
    exact hc
  exact dropWhile_head_not goSpace s c this

theorem noTrail_trimSpace (s : Str) : NoTrail (trimSpace s) := by
  intro c hc
  unfold trimSpace dropTrail at hc
  rw [List.getLast?_reverse] at hc
  exact dropWhile_head_not goSpace _ c hc

theorem dropWhile_eq_self_of_head (p : Nat → Bool) (l : Str)
    (h : ∀ c, l.head? = some c → p c = false) : l.dropWhile p = l := by
  cases l with
  | nil => rfl
  | cons a r => exact dropWhile_head_false p a (h a rfl) r

theorem trimSpace_of_ends {x : Str} (hlead : NoLead x) (htrail : NoTrail x) :
    trimSpace x = x := by
  unfold trimSpace
  rw [dropWhile_eq_self_of_head goSpace x hlead]
  unfold dropTrail
  rw [dropWhile_eq_self_of_head goSpace x.reverse
    (fun c hc => htrail c (by rw [← List.head?_reverse]; exact hc))]
  exact List.reverse_reverse x

/-! ### Transport along toLowerStr / unwords -/

theorem getLast?_map (f : Nat → Nat) (l : Str) :
    (l.map f).getLast? = l.getLast?.map f := by
  rw [← List.head?_reverse, ← List.head?_reverse]
  rw [← List.map_reverse, List.head?_map]

theorem noLead_toLowerStr {x : Str} (h : NoLead x) : NoLead (toLowerStr x) := by
  intro c hc
  cases x with
  | nil => simp [toLowerStr] at hc
  | cons a r =>
    rw [toLowerStr_cons] at hc
    simp only [List.head?_cons, Option.some.injEq] at hc
    rw [← hc, goSpace_toLowerR]
    exact h a rfl

theorem noTrail_toLowerStr {x : Str} (h : NoTrail x) : NoTrail (toLowerStr x) := by
  intro c hc
  rw [← List.head?_reverse] at hc
  rw [show (toLowerStr x).reverse = toLowerStr x.reverse by
    simp [toLowerStr, List.map_reverse]] at hc
  have hrev : ∀ (z : Str), x.reverse = z → (toLowerStr z).head? = some c →
      goSpace c = false := by
    intro z hz hcz
    cases z with
    | nil => simp [toLowerStr] at hcz
    | cons a r =>
      rw [toLowerStr_cons] at hcz
      simp only [List.head?_cons, Option.some.injEq] at hcz
      rw [← hcz, goSpace_toLowerR]
      refine h a ?_
      rw [← List.head?_reverse, hz]
      rfl
  exact hrev x.reverse rfl hc

theorem toLowerStr_unwords : ∀ ws : List Str,
    toLowerStr (unwords ws) = unwords (ws.map toLowerStr) := by
  intro ws
  induction ws with
  | nil => rfl
  | cons w ws2 ih =>
    cases ws2 with
    | nil => rfl
    | cons v vs =>
      rw [unwords_cons (by simp) w, toLowerStr_append, toLowerStr_cons]
      rw [show toLowerR 32 = 32 by decide, ih]
      conv_rhs => rw [List.map_cons, List.map_cons]
      rw [unwords_cons (by simp) (toLowerStr w), List.map_cons]

theorem goodWords_toLower {ws : List Str} (h : GoodWords ws) :
    GoodWords (ws.map toLowerStr) := by
  intro w hw
  rcases List.mem_map.mp hw with ⟨u, hu, rfl⟩
  have hg := h u hu
  constructor
  · intro hnil
    exact hg.1 (List.map_eq_nil_iff.mp hnil)
  · intro c hc
    rcases List.mem_map.mp hc with ⟨d, hd, rfl⟩
    rw [goSpace_toLowerR]
    exact hg.2 d hd

theorem lowFixed_iff (x : Str) : LowFixed x ↔ ∀ c ∈ x, toLowerR c = c := by
  unfold LowFixed toLowerStr
  constructor
  · intro h c hc
    induction x with
    | nil => simp at hc
    | cons a r ih =>
      simp only [List.map_cons, List.cons.injEq] at h
      rcases List.mem_cons.mp hc with rfl | hm
      · exact h.1
      · exact ih h.2 hm
  · intro h
    induction x with
    | nil => rfl
    | cons a r ih =>
      simp only [List.map_cons, List.cons.injEq]
      exact ⟨h a (List.mem_cons_self a r),
        ih fun c hc => h c (List.mem_cons_of_mem a hc)⟩

theorem noLead_unwords {ws : List Str} (hg : GoodWords ws) :
    NoLead (unwords ws) := by
  intro c hc
  cases ws with
  | nil => simp [unwords] at hc
  | cons w ws2 =>
    have hw := hg w (List.mem_cons_self w ws2)
    obtain ⟨a, w2, hwx⟩ : ∃ a w2, w = a :: w2 := by
      cases w with
      | nil => exact absurd rfl hw.1
      | cons a w2 => exact ⟨a, w2, rfl⟩
    subst hwx
    have ha : goSpace a = false := hw.2 a (List.mem_cons_self a w2)
    cases ws2 with
    | nil =>
      rw [show unwords [a :: w2] = a :: w2 from rfl] at hc
      simp only [List.head?_cons, Option.some.injEq] at hc
      rw [← hc]; exact ha
    | cons v vs =>
      rw [unwords_cons (by simp) (a :: w2)] at hc
      simp only [List.cons_append, List.head?_cons, Option.some.injEq] at hc
      rw [← hc]; exact ha

theorem unwords_ne_nil {ws : List Str} (hg : GoodWords ws) (hne : ws ≠ []) :
    unwords ws ≠ [] := by
  cases ws with
  | nil => exact absurd rfl hne
  | cons w ws2 =>
    have hw := hg w (List.mem_cons_self w ws2)
    obtain ⟨a, w2, hwx⟩ : ∃ a w2, w = a :: w2 := by
      cases w with
      | nil => exact absurd rfl hw.1
      | cons a w2 => exact ⟨a, w2, rfl⟩
    subst hwx
    cases ws2 with
    | nil => simp [unwords]
    | cons v vs =>
      rw [unwords_cons (by simp) (a :: w2)]
      simp

theorem noTrail_unwords {ws : List Str} (hg : GoodWords ws) :
    NoTrail (unwords ws) := by
  induction ws with
  | nil => intro c hc; simp [unwords] at hc
  | cons w ws2 ih =>
    intro c hc
    have hw := hg w (List.mem_cons_self w ws2)
    cases ws2 with
    | nil =>
      rw [show unwords [w] = w from rfl] at hc
      exact hw.2 c (getLast?_mem w c hc)
    | cons v vs =>
      have hne : unwords (v :: vs) ≠ [] :=
        unwords_ne_nil (fun u hu => hg u (List.mem_cons_of_mem w hu)) (by simp)
      rw [unwords_cons (by simp) w] at hc
      rw [getLast?_append_right w (by simp)] at hc
      have hlast : (unwords (v :: vs)).getLast? = some c := by
        obtain ⟨b, l, hu⟩ : ∃ b l, unwords (v :: vs) = b :: l := by
          cases hu : unwords (v :: vs) with
          | nil => exact absurd hu hne
          | cons b l => exact ⟨b, l, rfl⟩
        rw [hu] at hc ⊢
        rw [List.getLast?_cons_cons] at hc
        exact hc
      exact ih (fun u hu => hg u (List.mem_cons_of_mem w hu)) c hlast

theorem trimSpace_unwords {ws : List Str} (hg : GoodWords ws) :
    trimSpace (unwords ws) = unwords ws :=
  trimSpace_of_ends (noLead_unwords hg) (noTrail_unwords hg)

/-! ### Split / join on hyphens -/

theorem toUpperR_eq_45 (c : Nat) : (toUpperR c = 45) ↔ c = 45 := by
  simp only [toUpperR, isLowerR]
  split_ifs with h1 <;> simp_all <;> omega

theorem splitHyphen_ne_nil : ∀ w : Str, splitHyphen w ≠ [] := by
  intro w
  induction w with
  | nil => simp [splitHyphen]
  | cons c rest ih =>
    by_cases hc : c = 45
    · subst hc
      rw [splitHyphen, if_pos rfl]
      simp
    · rw [splitHyphen, if_neg hc]
      rcases hsp : splitHyphen rest with _ | ⟨p, ps⟩ <;> simp

theorem joinHyphen_cons {ps : List Str} (h : ps ≠ []) (p : Str) :
    joinHyphen (p :: ps) = p ++ 45 :: joinHyphen ps := by
  cases ps with
  | nil => exact absurd rfl h
  | cons q qs => rfl

theorem joinHyphen_splitHyphen : ∀ w : Str, joinHyphen (splitHyphen w) = w := by
  intro w
  induction w with
  | nil => rfl
  | cons c rest ih =>
    by_cases hc : c = 45
    · subst hc
      rw [splitHyphen, if_pos rfl]
      rw [joinHyphen_cons (splitHyphen_ne_nil rest) []]
      rw [ih]
      rfl
    · rw [splitHyphen, if_neg hc]
      rcases hsp : splitHyphen rest with _ | ⟨p, ps⟩
      · exact absurd hsp (splitHyphen_ne_nil rest)
      · rw [hsp] at ih
        cases ps with
        | nil =>
          show (c :: p : Str) = c :: rest
          have : joinHyphen [p] = rest := ih
          have hp : (p : Str) = rest := this
          rw [hp]
        | cons q qs =>
          rw [joinHyphen_cons (by simp) (c :: p)]
          rw [joinHyphen_cons (by simp) p] at ih
          simp only [List.cons_append]
          rw [ih]

theorem splitHyphen_parts_no45 : ∀ (w : Str) (p : Str), p ∈ splitHyphen w →
    ∀ c ∈ p, c ≠ 45 := by
  intro w
  induction w with
  | nil =>
    intro p hp c hc
    simp [splitHyphen] at hp
    subst hp
    simp at hc
  | cons a rest ih =>
    intro p hp c hc
    by_cases ha : a = 45
    · subst ha
      rw [splitHyphen, if_pos rfl] at hp
      rcases List.mem_cons.mp hp with rfl | hm
      · simp at hc
      · exact ih p hm c hc
    · rw [splitHyphen, if_neg ha] at hp
      rcases hsp : splitHyphen rest with _ | ⟨q, qs⟩
      · exact absurd hsp (splitHyphen_ne_nil rest)
      · rw [hsp] at hp
        rcases List.mem_cons.mp hp with rfl | hm
        · rcases List.mem_cons.mp hc with rfl | hcm
          · exact ha
          · exact ih q (by rw [hsp]; exact List.mem_cons_self q qs) c hcm
        · exact ih p (by rw [hsp]; exact List.mem_cons_of_mem q hm) c hc

theorem splitHyphen_no45 : ∀ (w : Str), (∀ c ∈ w, c ≠ 45) →
    splitHyphen w = [w] := by
  intro w
  induction w with
  | nil => intro _; rfl
  | cons a rest ih =>
    intro h
    have ha : a ≠ 45 := h a (List.mem_cons_self a rest)
    rw [splitHyphen, if_neg ha]
    rw [ih fun c hc => h c (List.mem_cons_of_mem a hc)]

theorem splitHyphen_append45 : ∀ (p : Str), (∀ c ∈ p, c ≠ 45) → ∀ t : Str,
    splitHyphen (p ++ 45 :: t) = p :: splitHyphen t := by
  intro p
  induction p with
  | nil =>
    intro _ t
    show splitHyphen (45 :: t) = [] :: splitHyphen t
    rw [splitHyphen, if_pos rfl]
  | cons a r ih =>
    intro h t
    have ha : a ≠ 45 := h a (List.mem_cons_self a r)
    show splitHyphen (a :: (r ++ 45 :: t)) = (a :: r) :: splitHyphen t
    rw [splitHyphen, if_neg ha]
    rw [ih (fun c hc => h c (List.mem_cons_of_mem a hc)) t]

theorem splitHyphen_joinHyphen : ∀ (ps : List Str), ps ≠ [] →
    (∀ p ∈ ps, ∀ c ∈ p, c ≠ 45) → splitHyphen (joinHyphen ps) = ps := by
  intro ps
  induction ps with
  | nil => intro h; exact absurd rfl h
  | cons p ps2 ih =>
    intro _ hno
    cases ps2 with
    | nil =>
      show splitHyphen (joinHyphen [p]) = [p]
      exact splitHyphen_no45 p (hno p (List.mem_cons_self p []))
    | cons q qs =>
      rw [joinHyphen_cons (by simp) p]
      rw [splitHyphen_append45 p (hno p (List.mem_cons_self p _)) (joinHyphen (q :: qs))]
      rw [ih (by simp) fun u hu => hno u (List.mem_cons_of_mem p hu)]

theorem toLowerStr_joinHyphen : ∀ ps : List Str,
    toLowerStr (joinHyphen ps) = joinHyphen (ps.map toLowerStr) := by
  intro ps
  induction ps with
  | nil => rfl
  | cons p ps2 ih =>
    cases ps2 with
    | nil => rfl
    | cons q qs =>
      rw [joinHyphen_cons (by simp) p, toLowerStr_append, toLowerStr_cons]
      rw [show toLowerR 45 = 45 by decide, ih]
      conv_rhs => rw [List.map_cons, List.map_cons]
      rw [joinHyphen_cons (by simp) (toLowerStr p), List.map_cons]

/-! ### toLower-invariance of the word casing functions -/

theorem toLowerStr_capFirst (x : Str) :
    toLowerStr (capFirst x) = toLowerStr x := by
  cases x with
  | nil => rfl
  | cons a r =>
    show toLowerR (toUpperR a) :: toLowerStr r = toLowerR a :: toLowerStr r
    rw [toLowerR_toUpperR]

theorem toLowerStr_capPart (p : Str) : toLowerStr (capPart p) = toLowerStr p := by
  unfold capPart
  split_ifs with h
  · rfl
  · rw [toLowerStr_capFirst, toLowerStr_toLowerStr]

theorem toLowerStr_titleCase (w : Str) :
    toLowerStr (titleCase w) = toLowerStr w := by
  unfold titleCase
  split_ifs with h1 h2 h3
  · rfl
  · rfl
  · rw [toLowerStr_joinHyphen, List.map_map]
    have : (splitHyphen w).map (toLowerStr ∘ capPart) = (splitHyphen w).map toLowerStr :=
      List.map_congr_left fun p _ => toLowerStr_capPart p
    rw [this, ← toLowerStr_joinHyphen, joinHyphen_splitHyphen]
  · rw [toLowerStr_capFirst, toLowerStr_toLowerStr]

theorem toLowerStr_tcWord (f : Bool) (w : Str) :
    toLowerStr (tcWord f w) = toLowerStr w := by
  unfold tcWord
  split_ifs with h1 h2
  · exact toLowerStr_toUpperStr w
  · exact toLowerStr_titleCase w
  · exact toLowerStr_toLowerStr w

/-! ### Goodness transport -/

theorem length_toLowerStr (x : Str) : (toLowerStr x).length = x.length := by
  simp [toLowerStr]

theorem goodWord_of_toLower_eq {x y : Str} (h : toLowerStr x = toLowerStr y)
    (hy : GoodWord y) : GoodWord x := by
  constructor
  · intro hx
    apply hy.1
    have := congrArg List.length h
    rw [length_toLowerStr, length_toLowerStr, hx] at this
    exact List.eq_nil_of_length_eq_zero this.symm
  · intro c hc
    have h1 : toLowerR c ∈ toLowerStr y := by
      rw [← h]
      exact List.mem_map_of_mem toLowerR hc
    rcases List.mem_map.mp h1 with ⟨d, hd, hde⟩
    have : goSpace (toLowerR c) = goSpace (toLowerR d) := by rw [hde]
    rw [goSpace_toLowerR, goSpace_toLowerR] at this
    rw [this]
    exact hy.2 d hd

theorem goodWord_tcWord {w : Str} (f : Bool) (h : GoodWord w) :
    GoodWord (tcWord f w) :=
  goodWord_of_toLower_eq (toLowerStr_tcWord f w) h

/-! ### Idempotence of the word casing functions -/

theorem capPart_idem (p : Str) : capPart (capPart p) = capPart p := by
  cases p with
  | nil => rfl
  | cons a r =>
    show capPart (capFirst (toLowerStr (a :: r))) = capFirst (toLowerStr (a :: r))
    rw [toLowerStr_cons]
    show capPart (toUpperR (toLowerR a) :: toLowerStr r) = _
    rw [show capPart (toUpperR (toLowerR a) :: toLowerStr r)
        = capFirst (toLowerStr (toUpperR (toLowerR a) :: toLowerStr r)) from rfl]
    rw [toLowerStr_cons, toLowerR_toUpperR, toLowerR_toLowerR, toLowerStr_toLowerStr]

theorem decide_toLowerR_45 (c : Nat) :
    decide (toLowerR c = 45) = decide (c = 45) := by
  by_cases h : c = 45
  · rw [h]
    decide
  · rw [decide_eq_false h, decide_eq_false fun hc => h ((toLowerR_eq_45 c).mp hc)]

theorem hasChar_45_toLower (x : Str) : hasChar (toLowerStr x) 45 = hasChar x 45 := by
  induction x with
  | nil => rfl
  | cons a r ih =>
    show (decide (toLowerR a = 45) || hasChar (toLowerStr r) 45)
      = (decide (a = 45) || hasChar r 45)
    rw [decide_toLowerR_45 a, ih]

theorem capPart_no45 {p : Str} (h : ∀ c ∈ p, c ≠ 45) :
    ∀ c ∈ capPart p, c ≠ 45 := by
  intro c hc
  cases p with
  | nil => simp [capPart] at hc
  | cons a r =>
    rw [show capPart (a :: r) = capFirst (toLowerStr (a :: r)) from rfl] at hc
    rw [toLowerStr_cons] at hc
    rcases List.mem_cons.mp hc with rfl | hm
    · intro h45
      exact h a (List.mem_cons_self a r)
        ((toLowerR_eq_45 a).mp ((toUpperR_eq_45 (toLowerR a)).mp h45))
    · rcases List.mem_map.mp hm with ⟨d, hd, rfl⟩
      intro h45
      exact h d (List.mem_cons_of_mem a hd) ((toLowerR_eq_45 d).mp h45)

theorem length_titleCase (w : Str) : (titleCase w).length = w.length := by
  have := congrArg List.length (toLowerStr_titleCase w)
  rw [length_toLowerStr, length_toLowerStr] at this
  exact this

theorem titleCase_idem (w : Str) : titleCase (titleCase w) = titleCase w := by
  by_cases h1 : w = []
  · subst h1; rfl
  by_cases h2 : (hasLowerStr w && hasUpperStr w) = true
  · have hww : titleCase w = w := by
      unfold titleCase
      rw [if_neg h1, if_pos h2]
    rw [hww]
    exact hww
  set w1 := titleCase w with hw1
  have hne1 : w1 ≠ [] := by
    intro hnil
    have := length_titleCase w
    rw [← hw1, hnil] at this
    exact h1 (List.eq_nil_of_length_eq_zero this.symm)
  by_cases hm1 : (hasLowerStr w1 && hasUpperStr w1) = true
  · show titleCase w1 = w1
    unfold titleCase
    rw [if_neg hne1, if_pos hm1]
  · have h45 : hasChar w1 45 = hasChar w 45 := by
      rw [← hasChar_45_toLower w1, hw1, toLowerStr_titleCase, hasChar_45_toLower]
    by_cases hh : hasChar w 45 = true
    · have hw1e : w1 = joinHyphen ((splitHyphen w).map capPart) := by
        rw [hw1]; unfold titleCase
        rw [if_neg h1, if_neg h2, if_pos hh]
      have hps : splitHyphen w1 = (splitHyphen w).map capPart := by
        rw [hw1e]
        refine splitHyphen_joinHyphen _ ?_ ?_
        · intro hnil
          exact splitHyphen_ne_nil w (List.map_eq_nil_iff.mp hnil)
        · intro p hp
          rcases List.mem_map.mp hp with ⟨q, hq, rfl⟩
          exact capPart_no45 (splitHyphen_parts_no45 w q hq)
      show titleCase w1 = w1
      unfold titleCase
      rw [if_neg hne1, if_neg hm1, if_pos (by rw [h45]; exact hh)]
      rw [hps, List.map_map]
      rw [show (splitHyphen w).map (capPart ∘ capPart) = (splitHyphen w).map capPart from
        List.map_congr_left fun p _ => capPart_idem p]
      rw [hw1e]
    · have hh2 : hasChar w 45 = false := by
        cases hc : hasChar w 45
        · rfl
        · exact absurd hc hh
      have hw1e : w1 = capFirst (toLowerStr w) := by
        rw [hw1]; unfold titleCase
        rw [if_neg h1, if_neg h2, if_neg (by rw [hh2]; simp)]
      show titleCase w1 = w1
      unfold titleCase
      rw [if_neg hne1, if_neg hm1, if_neg (by rw [h45, hh2]; simp)]
      rw [hw1e, toLowerStr_capFirst, toLowerStr_toLowerStr]

theorem tcWord_idem (f : Bool) (w : Str) : tcWord f (tcWord f w) = tcWord f w := by
  have hlow := toLowerStr_tcWord f w
  by_cases ha : memStr (toLowerStr w) commonAcronyms = true
  · have hw1 : tcWord f w = toUpperStr w := by
      unfold tcWord
      rw [if_pos ha]
    rw [hw1]
    unfold tcWord
    rw [if_pos (by rw [toLowerStr_toUpperStr]; exact ha)]
    exact toUpperStr_toUpperStr w
  · have ha2 : memStr (toLowerStr w) commonAcronyms = false := by
      cases hc : memStr (toLowerStr w) commonAcronyms
      · rfl
      · exact absurd hc ha
    by_cases hb : (f || !(memStr (toLowerStr w) lowercaseWords)) = true
    · have hw1 : tcWord f w = titleCase w := by
        unfold tcWord
        rw [if_neg (by rw [ha2]; simp), if_pos hb]
      rw [hw1]
      unfold tcWord
      rw [if_neg (by rw [toLowerStr_titleCase, ha2]; simp),
        if_pos (by rw [toLowerStr_titleCase]; exact hb)]
      exact titleCase_idem w
    · have hw1 : tcWord f w = toLowerStr w := by
        unfold tcWord
        rw [if_neg (by rw [ha2]; simp), if_neg hb]
      rw [hw1]
      unfold tcWord
      rw [if_neg (by rw [toLowerStr_toLowerStr, ha2]; simp),
        if_neg (by rw [toLowerStr_toLowerStr]; exact hb)]
      exact toLowerStr_toLowerStr w

/-! ### The word-list loop -/

theorem tcWords_toLower : ∀ (b : Bool) (ws : List Str),
    (tcWords b ws).map toLowerStr = ws.map toLowerStr := by
  intro b ws
  induction ws generalizing b with
  | nil => rfl
  | cons w ws2 ih =>
    show (tcWord b w :: tcWords false ws2).map toLowerStr = _
    rw [List.map_cons, List.map_cons, toLowerStr_tcWord, ih false]

theorem tcWords_idem : ∀ (b : Bool) (ws : List Str),
    tcWords b (tcWords b ws) = tcWords b ws := by
  intro b ws
  induction ws generalizing b with
  | nil => rfl
  | cons w ws2 ih =>
    have h1 : tcWords b (w :: ws2) = tcWord b w :: tcWords false ws2 := rfl
    have h2 : tcWords b (tcWord b w :: tcWords false ws2)
        = tcWord b (tcWord b w) :: tcWords false (tcWords false ws2) := rfl
    rw [h1, h2, tcWord_idem b w, ih false]

theorem tcWords_goodWords {ws : List Str} (b : Bool) (h : GoodWords ws) :
    GoodWords (tcWords b ws) := by
  induction ws generalizing b with
  | nil => intro w hw; simp [tcWords] at hw
  | cons w ws2 ih =>
    intro u hu
    rcases List.mem_cons.mp hu with rfl | hm
    · exact goodWord_tcWord b (h w (List.mem_cons_self w ws2))
    · exact ih false (fun v hv => h v (List.mem_cons_of_mem w hv)) u hm

theorem tcWords_ne_nil {ws : List Str} (b : Bool) (h : ws ≠ []) :
    tcWords b ws ≠ [] := by
  cases ws with
  | nil => exact absurd rfl h
  | cons w ws2 => simp [tcWords]

/-! ### applyTitleCase -/

theorem applyTitleCase_eq {x : Str} (h : fields x ≠ []) :
    applyTitleCase x = unwords (tcWords true (fields x)) := by
  unfold applyTitleCase
  rw [if_neg h]

theorem toLowerStr_applyTitleCase {x : Str} (h : fields x ≠ []) :
    toLowerStr (applyTitleCase x) = unwords ((fields x).map toLowerStr) := by
  rw [applyTitleCase_eq h, toLowerStr_unwords, tcWords_toLower]

/-! ### Umbrella unfolding of normalizeKeyword -/

theorem normalizeKeyword_eq (x : Str) : normalizeKeyword x =
    (if trimSpace x = [] then trimSpace x
     else
       match tableLookup criticalReplacements (toLowerStr (trimSpace x)) with
       | some v => v
       | none =>
         match applyPatternNormalization (toLowerStr (trimSpace x)) with
         | some r => r
         | none =>
           if memStr (toLowerStr (trimSpace x)) commonAcronyms then
             toUpperStr (trimSpace x)
           else applyTitleCase (trimSpace x)) := rfl

/-- If a trimmed non-empty `r` lowercases to an `l` that misses the critical
table and re-produces `r` through the pattern normalizer, then `r` is a
fixpoint of `normalizeKeyword`. -/
theorem normalizeKeyword_fix {r l : Str} (hr : trimSpace r = r) (hne : r ≠ [])
    (hlow : toLowerStr r = l)
    (hcrit : tableLookup criticalReplacements l = none)
    (hpat : applyPatternNormalization l = some r) :
    normalizeKeyword r = r := by
  rw [normalizeKeyword_eq, hr, if_neg hne, hlow, hcrit]
  dsimp only
  rw [hpat]

/-! ### Prefix / suffix / membership utilities -/

theorem isPre_iff : ∀ (p s : Str), isPre p s = true ↔ ∃ t, s = p ++ t := by
  intro p
  induction p with
  | nil => intro s; simp [isPre]
  | cons a ps ih =>
    intro s
    cases s with
    | nil =>
      simp only [isPre, List.cons_append]
      constructor
      · intro h; cases h
      · intro ⟨t, ht⟩; cases ht
    | cons b ss =>
      show (decide (a = b) && isPre ps ss) = true ↔ _
      rw [Bool.and_eq_true, decide_eq_true_eq, ih ss]
      constructor
      · rintro ⟨hab, ⟨t, hss⟩⟩
        subst hab
        subst hss
        exact ⟨t, rfl⟩
      · rintro ⟨t, ht⟩
        simp only [List.cons_append, List.cons.injEq] at ht
        exact ⟨ht.1.symm, ⟨t, ht.2⟩⟩

theorem isPre_append_self (p t : Str) : isPre p (p ++ t) = true :=
  (isPre_iff p (p ++ t)).mpr ⟨t, rfl⟩

theorem isSuf_append (a x : Str) : isSuf a (x ++ a) = true := by
  unfold isSuf
  rw [List.reverse_append]
  exact isPre_append_self a.reverse x.reverse

theorem memStr_iff (x : Str) : ∀ ys : List Str, memStr x ys = true ↔ x ∈ ys := by
  intro ys
  induction ys with
  | nil => simp [memStr]
  | cons y rest ih =>
    show (decide (y = x) || memStr x rest) = true ↔ _
    rw [Bool.or_eq_true, decide_eq_true_eq, ih]
    constructor
    · rintro (h | h)
      · subst h
        exact List.mem_cons_self _ _
      · exact List.mem_cons_of_mem y h
    · intro h
      rcases List.mem_cons.mp h with h | h
      · exact Or.inl h.symm
      · exact Or.inr h

theorem hasChar_iff (s : Str) (c : Nat) : hasChar s c = true ↔ c ∈ s := by
  unfold hasChar
  rw [List.any_eq_true]
  constructor
  · intro ⟨d, hd, he⟩
    rw [decide_eq_true_eq] at he
    rw [← he]; exact hd
  · intro h
    exact ⟨c, h, by simp⟩

theorem hasChar_false {s : Str} {c : Nat} (h : ¬c ∈ s) : hasChar s c = false := by
  cases hc : hasChar s c
  · rfl
  · exact absurd ((hasChar_iff s c).mp hc) h

theorem tableLookup_mem : ∀ (pairs : List (Str × Str)) (k v : Str),
    tableLookup pairs k = some v → (k, v) ∈ pairs := by
  intro pairs
  induction pairs with
  | nil => intro k v h; simp [tableLookup] at h
  | cons p rest ih =>
    intro k v h
    obtain ⟨a, b⟩ := p
    unfold tableLookup at h
    by_cases hak : a = k
    · rw [if_pos hak] at h
      simp only [Option.some.injEq] at h
      rw [hak, h]
      exact List.mem_cons_self _ _
    · rw [if_neg hak] at h
      exact List.mem_cons_of_mem _ (ih k v h)

theorem tableLookup_none_of {pairs : List (Str × Str)} {k : Str}
    (h : ∀ p ∈ pairs, p.1 ≠ k) : tableLookup pairs k = none := by
  induction pairs with
  | nil => rfl
  | cons p rest ih =>
    obtain ⟨a, b⟩ := p
    unfold tableLookup
    rw [if_neg (h (a, b) (List.mem_cons_self _ _))]
    exact ih fun q hq => h q (List.mem_cons_of_mem _ hq)

theorem mem_unwords : ∀ (ws : List Str) (c : Nat), c ∈ unwords ws →
    c = 32 ∨ ∃ w ∈ ws, c ∈ w := by
  intro ws
  induction ws with
  | nil => intro c hc; simp [unwords] at hc
  | cons w ws2 ih =>
    intro c hc
    cases ws2 with
    | nil =>
      right
      exact ⟨w, List.mem_cons_self w [], hc⟩
    | cons v vs =>
      rw [unwords_cons (by simp) w] at hc
      rcases List.mem_append.mp hc with h | h
      · right; exact ⟨w, List.mem_cons_self w _, h⟩
      · rcases List.mem_cons.mp h with rfl | h2
        · exact Or.inl rfl
        · rcases ih c h2 with h3 | ⟨u, hu, hcu⟩
          · exact Or.inl h3
          · exact Or.inr ⟨u, List.mem_cons_of_mem w hu, hcu⟩

/-! ### Spans on tidy strings -/

theorem tidy_span32 {x : Str} (h : tidy (32 :: x) = true) :
    (32 :: x).takeWhile reSpace = [32] ∧ (32 :: x).dropWhile reSpace = x := by
  cases x with
  | nil => exact ⟨rfl, rfl⟩
  | cons d x2 =>
    have hd : reSpace d = false := by
      obtain ⟨_, ht, hadj⟩ := tidy_cons h
      have hd32 : d ≠ 32 := fun h32 => hadj d x2 rfl ⟨rfl, h32⟩
      by_cases hsp : goSpace d = true
      · exact absurd (tidy_space_is_32 h d (by simp) hsp) hd32
      · cases hre : reSpace d
        · rfl
        · exact absurd (reSpace_le_goSpace d hre) hsp
    constructor
    · rw [show List.takeWhile reSpace (32 :: d :: x2)
          = 32 :: List.takeWhile reSpace (d :: x2) by
        rw [List.takeWhile_cons, if_pos (by decide)]]
      rw [List.takeWhile_cons, if_neg (by rw [hd]; simp)]
    · rw [List.dropWhile_cons, if_pos (by decide)]
      rw [List.dropWhile_cons, if_neg (by rw [hd]; simp)]

/-! ### Concrete table facts -/

theorem crit_fixpoints : ∀ p ∈ criticalReplacements,
    normalizeKeyword p.2 = p.2 := by decide

theorem crit_no_comma : ∀ p ∈ criticalReplacements, ¬44 ∈ p.1 := by decide

theorem crit_count32 : ∀ p ∈ criticalReplacements,
    List.count 32 p.1 ≤ 1 := by decide

theorem kin_good : ∀ k ∈ kinWords, k ≠ [] ∧ ∀ c ∈ k,
    goSpace c = false ∧ reSpace c = false ∧ isWordR c = true ∧
    toLowerR c = c ∧ c ≠ 44 ∧ c ≠ 32 := by decide

theorem kin_pairwise : ∀ a ∈ kinWords, ∀ b ∈ kinWords,
    isPre a b = true → a = b := by decide

theorem kin_no_vs : ∀ k ∈ kinWords, k ≠ str "vs" := by decide

theorem kin_short : ∀ k ∈ kinWords, k.length + 1 ≤ 12 := by decide

theorem eth_good : ∀ k ∈ ethWords, k ≠ [] ∧ ∀ c ∈ k,
    goSpace c = false ∧ toLowerR c = c := by decide

theorem eth_pairwise : ∀ a ∈ ethWords, ∀ b ∈ ethWords,
    isPre a b = true → a = b := by decide

theorem eth_no_space : ∀ k ∈ ethWords, ¬32 ∈ k := by decide

theorem desc_good : ∀ k ∈ descWords, k ≠ [] ∧ ∀ c ∈ k,
    goSpace c = false ∧ toLowerR c = c := by decide

theorem role_facts : ∀ r ∈ roleWords, r ≠ [] ∧
    r.getLast?.map goSpace = some false ∧
    r.head?.map goSpace = some false ∧ (∀ c ∈ r, toLowerR c = c) := by decide

/-! ### Further character / transport lemmas -/

theorem toLowerR_eq_self_of_not_upper {c : Nat} (h : isUpperR c = false) :
    toLowerR c = c := by
  unfold toLowerR
  rw [if_neg (by rw [h]; simp)]

theorem toLowerR_fixed_of_lower {c : Nat} (h : isLowerR c = true) :
    toLowerR c = c := by
  apply toLowerR_eq_self_of_not_upper
  simp only [isLowerR, Bool.and_eq_true, decide_eq_true_eq] at h
  simp only [isUpperR, Bool.and_eq_false_iff]
  right
  simp only [decide_eq_false_iff_not]
  omega

theorem noLead_of_toLower_eq {x y : Str} (h : toLowerStr x = toLowerStr y)
    (hy : NoLead y) : NoLead x := by
  intro c hc
  have h1 : (toLowerStr x).head? = some (toLowerR c) := by
    unfold toLowerStr
    rw [List.head?_map, hc]
    rfl
  rw [h] at h1
  unfold toLowerStr at h1
  rw [List.head?_map] at h1
  cases hy2 : y.head? with
  | none => rw [hy2] at h1; exact absurd h1 (by simp)
  | some d =>
    rw [hy2] at h1
    have hde : toLowerR d = toLowerR c := Option.some.inj h1
    have hsp : goSpace c = goSpace d := by
      rw [← goSpace_toLowerR c, ← goSpace_toLowerR d, hde]
    rw [hsp]
    exact hy d hy2

theorem noTrail_of_toLower_eq {x y : Str} (h : toLowerStr x = toLowerStr y)
    (hy : NoTrail y) : NoTrail x := by
  intro c hc
  have h1 : (toLowerStr x).getLast? = some (toLowerR c) := by
    unfold toLowerStr
    rw [getLast?_map, hc]
    rfl
  rw [h] at h1
  unfold toLowerStr at h1
  rw [getLast?_map] at h1
  cases hy2 : y.getLast? with
  | none => rw [hy2] at h1; exact absurd h1 (by simp)
  | some d =>
    rw [hy2] at h1
    have hde : toLowerR d = toLowerR c := Option.some.inj h1
    have hsp : goSpace c = goSpace d := by
      rw [← goSpace_toLowerR c, ← goSpace_toLowerR d, hde]
    rw [hsp]
    exact hy d hy2

theorem noLead_append_left {X Y : Str} (h : NoLead X) (hne : X ≠ []) :
    NoLead (X ++ Y) := by
  intro c hc
  rw [head_append_left hne] at hc
  exact h c hc

theorem noTrail_append_right {X Y : Str} (h : NoTrail Y) (hne : Y ≠ []) :
    NoTrail (X ++ Y) := by
  intro c hc
  rw [getLast?_append_right X hne] at hc
  exact h c hc

/-! ### stripOne -/

theorem stripOne_some : ∀ (ws : List Str) (s r : Str), stripOne ws s = some r →
    ∃ k ∈ ws, isPre k s = true ∧ r = s.drop k.length := by
  intro ws
  induction ws with
  | nil => intro s r h; simp [stripOne] at h
  | cons w ws2 ih =>
    intro s r h
    unfold stripOne at h
    rw [List.findSome?_cons] at h
    by_cases hp : isPre w s = true
    · rw [if_pos hp] at h
      dsimp only at h
      simp only [Option.some.injEq] at h
      exact ⟨w, List.mem_cons_self w ws2, hp, h.symm⟩
    · rw [if_neg hp] at h
      dsimp only at h
      rcases ih s r h with ⟨k, hk, hpre, hr⟩
      exact ⟨k, List.mem_cons_of_mem w hk, hpre, hr⟩

theorem stripOne_here : ∀ (ws : List Str) (s k : Str), k ∈ ws →
    (∀ w ∈ ws, isPre w s = true → w = k) → isPre k s = true →
    stripOne ws s = some (s.drop k.length) := by
  intro ws
  induction ws with
  | nil => intro s k hk; simp at hk
  | cons w ws2 ih =>
    intro s k hk huniq hks
    unfold stripOne
    rw [List.findSome?_cons]
    by_cases hp : isPre w s = true
    · rw [if_pos hp]
      dsimp only
      rw [huniq w (List.mem_cons_self w ws2) hp]
    · rw [if_neg hp]
      dsimp only
      have hk2 : k ∈ ws2 := by
        rcases List.mem_cons.mp hk with rfl | h2
        · exact absurd hks hp
        · exact h2
      exact ih s k hk2 (fun u hu => huniq u (List.mem_cons_of_mem w hu)) hks

theorem prefix_word_unique {ws : List Str} {k w t : Str}
    (hpair : ∀ a ∈ ws, ∀ b ∈ ws, isPre a b = true → a = b)
    (hnosp : ∀ a ∈ ws, ¬32 ∈ a)
    (hk : k ∈ ws) (hw : w ∈ ws) (h : isPre w (k ++ 32 :: t) = true) : w = k := by
  rcases (isPre_iff _ _).mp h with ⟨u, hu⟩
  by_cases hle : w.length ≤ k.length
  · have h1 : w <+: (k ++ 32 :: t) := ⟨u, hu.symm⟩
    have h2 : k <+: (k ++ 32 :: t) := ⟨32 :: t, rfl⟩
    rcases List.prefix_of_prefix_length_le h1 h2 hle with ⟨z, hz⟩
    exact hpair w hw k hk ((isPre_iff _ _).mpr ⟨z, hz.symm⟩)
  · exfalso
    have h1 : (k ++ [32]) <+: (k ++ 32 :: t) := ⟨t, by simp⟩
    have h2 : w <+: (k ++ 32 :: t) := ⟨u, hu.symm⟩
    have hlen : (k ++ [32]).length ≤ w.length := by
      simp only [List.length_append, List.length_singleton]
      omega
    have h3 : (k ++ [32]) <+: w := List.prefix_of_prefix_length_le h1 h2 hlen
    have : (32 : Nat) ∈ w := h3.subset (by simp)
    exact hnosp w hw this

theorem stripOne_kin {k : Str} (hk : k ∈ kinWords) (t : Str) :
    stripOne kinWords (k ++ 32 :: t) = some (32 :: t) := by
  have huniq : ∀ w ∈ kinWords, isPre w (k ++ 32 :: t) = true → w = k := by
    intro w hw hp
    refine prefix_word_unique ?_ ?_ hk hw hp
    · exact kin_pairwise
    · intro a ha hmem
      exact ((kin_good a ha).2 32 hmem).2.2.2.2.2 rfl
  have := stripOne_here kinWords (k ++ 32 :: t) k hk huniq
    (isPre_append_self k (32 :: t))
  rw [this, List.drop_left]

theorem stripOne_eth {k : Str} (hk : k ∈ ethWords) (t : Str) :
    stripOne ethWords (k ++ 32 :: t) = some (32 :: t) := by
  have huniq : ∀ w ∈ ethWords, isPre w (k ++ 32 :: t) = true → w = k := by
    intro w hw hp
    refine prefix_word_unique ?_ ?_ hk hw hp
    · exact eth_pairwise
    · exact eth_no_space
  have := stripOne_here ethWords (k ++ 32 :: t) k hk huniq
    (isPre_append_self k (32 :: t))
  rw [this, List.drop_left]

/-! ### The versus pattern -/

theorem mem_takeWhile_mem (p : Nat → Bool) (l : Str) :
    ∀ c ∈ l.takeWhile p, c ∈ l := by
  intro c hc
  have hdec : l = l.takeWhile p ++ l.dropWhile p :=
    (List.takeWhile_append_dropWhile p l).symm
  rw [hdec]
  exact List.mem_append.mpr (Or.inl hc)

theorem mem_dropWhile_mem (p : Nat → Bool) (l : Str) :
    ∀ c ∈ l.dropWhile p, c ∈ l := by
  intro c hc
  have hdec : l = l.takeWhile p ++ l.dropWhile p := dropWhile_decomp p l
  rw [hdec]
  exact List.mem_append.mpr (Or.inr hc)

theorem versusHere_props {s : Str} {w1 w2 : Str}
    (h : versusHere s = some (w1, w2)) :
    w1 ≠ [] ∧ w2 ≠ [] ∧ (∀ c ∈ w1, isWordR c = true ∧ c ∈ s) ∧
      (∀ c ∈ w2, isWordR c = true ∧ c ∈ s) := by
  unfold versusHere spanWord spanSpace at h
  dsimp only at h
  by_cases h1 : s.takeWhile isWordR = []
  · rw [if_pos h1] at h; cases h
  · rw [if_neg h1] at h
    by_cases h2 : (s.dropWhile isWordR).takeWhile reSpace = []
    · rw [if_pos h2] at h; cases h
    · rw [if_neg h2] at h
      rcases hr2 : (s.dropWhile isWordR).dropWhile reSpace with _ | ⟨a, r⟩
      · rw [hr2] at h
        dsimp only at h
        cases h
      · rcases r with _ | ⟨b, r3⟩
        · rw [hr2] at h
          dsimp only at h
          cases h
        · rw [hr2] at h
          dsimp only at h
          by_cases h3 : (a = 118 && b = 115) = true
          · rw [if_pos h3] at h
            by_cases h4 : r3.takeWhile reSpace = []
            · rw [if_pos h4] at h; cases h
            · rw [if_neg h4] at h
              by_cases h5 : (r3.dropWhile reSpace).takeWhile isWordR = []
              · rw [if_pos h5] at h; cases h
              · rw [if_neg h5] at h
                simp only [Option.some.injEq, Prod.mk.injEq] at h
                obtain ⟨hw1, hw2⟩ := h
                subst hw1
                subst hw2
                refine ⟨h1, h5, ?_, ?_⟩
                · intro c hc
                  exact ⟨List.mem_takeWhile_imp hc, mem_takeWhile_mem _ _ c hc⟩
                · intro c hc
                  refine ⟨List.mem_takeWhile_imp hc, ?_⟩
                  have h6 : c ∈ r3.dropWhile reSpace := mem_takeWhile_mem _ _ c hc
                  have h7 : c ∈ r3 := mem_dropWhile_mem _ _ c h6
                  have h8 : c ∈ (s.dropWhile isWordR).dropWhile reSpace := by
                    rw [hr2]
                    exact List.mem_cons_of_mem a (List.mem_cons_of_mem b h7)
                  exact mem_dropWhile_mem _ _ c
                    (mem_dropWhile_mem _ _ c h8)
          · rw [if_neg h3] at h; cases h

theorem versusScan_cons (c : Nat) (rest : Str) (bOK : Bool) :
    versusScan (c :: rest) bOK =
      if bOK && isWordR c then
        match versusHere (c :: rest) with
        | some m => some m
        | none => versusScan rest false
      else versusScan rest (!(isWordR c)) := rfl

theorem versusScan_props : ∀ (s : Str) (b : Bool) (w1 w2 : Str),
    versusScan s b = some (w1, w2) →
    w1 ≠ [] ∧ w2 ≠ [] ∧ (∀ c ∈ w1, isWordR c = true ∧ c ∈ s) ∧
      (∀ c ∈ w2, isWordR c = true ∧ c ∈ s) := by
  intro s
  induction s with
  | nil => intro b w1 w2 h; cases h
  | cons c rest ih =>
    intro b w1 w2 h
    rw [versusScan_cons] at h
    by_cases hcond : (b && isWordR c) = true
    · rw [if_pos hcond] at h
      rcases hv : versusHere (c :: rest) with _ | m
      · rw [hv] at h
        dsimp only at h
        rcases ih false w1 w2 h with ⟨h1, h2, h3, h4⟩
        exact ⟨h1, h2,
          fun d hd => ⟨(h3 d hd).1, List.mem_cons_of_mem c (h3 d hd).2⟩,
          fun d hd => ⟨(h4 d hd).1, List.mem_cons_of_mem c (h4 d hd).2⟩⟩
      · rw [hv] at h
        dsimp only at h
        simp only [Option.some.injEq] at h
        rw [h] at hv
        exact versusHere_props hv
    · rw [if_neg hcond] at h
      rcases ih _ w1 w2 h with ⟨h1, h2, h3, h4⟩
      exact ⟨h1, h2,
        fun d hd => ⟨(h3 d hd).1, List.mem_cons_of_mem c (h3 d hd).2⟩,
        fun d hd => ⟨(h4 d hd).1, List.mem_cons_of_mem c (h4 d hd).2⟩⟩

theorem versusFind_props {s : Str} {w1 w2 : Str}
    (h : versusFind s = some (w1, w2)) :
    w1 ≠ [] ∧ w2 ≠ [] ∧ (∀ c ∈ w1, isWordR c = true ∧ c ∈ s) ∧
      (∀ c ∈ w2, isWordR c = true ∧ c ∈ s) :=
  versusScan_props s true w1 w2 h

theorem takeWhile_self {p : Nat → Bool} {w : Str} (hall : ∀ c ∈ w, p c = true) :
    w.takeWhile p = w := by
  have := takeWhile_append_all p w [] hall (Or.inl rfl)
  rwa [List.append_nil] at this

theorem dropWhile_all {p : Nat → Bool} {w : Str} (hall : ∀ c ∈ w, p c = true) :
    w.dropWhile p = [] := by
  have := dropWhile_append_head p w [] hall (Or.inl rfl)
  rwa [List.append_nil] at this

theorem versusHere_canon {w1 w2 : Str} (hw1 : w1 ≠ []) (hw2 : w2 ≠ [])
    (ha1 : ∀ c ∈ w1, isWordR c = true) (ha2 : ∀ c ∈ w2, isWordR c = true) :
    versusHere (w1 ++ 32 :: 118 :: 115 :: 32 :: w2) = some (w1, w2) := by
  obtain ⟨h2, w2t, hw2e⟩ : ∃ h2 w2t, w2 = h2 :: w2t := by
    cases w2 with
    | nil => exact absurd rfl hw2
    | cons h2 w2t => exact ⟨h2, w2t, rfl⟩
  have hh2w : isWordR h2 = true := ha2 h2 (by rw [hw2e]; exact List.mem_cons_self _ _)
  unfold versusHere spanWord spanSpace
  dsimp only
  rw [takeWhile_append_all isWordR w1 _ ha1
    (Or.inr ⟨32, _, rfl, by decide⟩)]
  rw [if_neg hw1]
  rw [dropWhile_append_head isWordR w1 _ ha1
    (Or.inr ⟨32, _, rfl, by decide⟩)]
  rw [show (32 :: 118 :: 115 :: 32 :: w2 : Str)
      = [32] ++ (118 :: 115 :: 32 :: w2) from rfl]
  rw [takeWhile_append_all reSpace [32] _ (by decide)
    (Or.inr ⟨118, _, rfl, by decide⟩)]
  rw [if_neg (by simp)]
  rw [dropWhile_append_head reSpace [32] _ (by decide)
    (Or.inr ⟨118, _, rfl, by decide⟩)]
  dsimp only
  rw [if_pos (by decide)]
  rw [show (32 :: w2 : Str) = [32] ++ w2 from rfl]
  rw [takeWhile_append_all reSpace [32] w2 (by decide)
    (Or.inr ⟨h2, w2t, hw2e, by rw [isWordR_not_reSpace h2 hh2w]⟩)]
  rw [if_neg (by simp)]
  rw [dropWhile_append_head reSpace [32] w2 (by decide)
    (Or.inr ⟨h2, w2t, hw2e, by rw [isWordR_not_reSpace h2 hh2w]⟩)]
  rw [takeWhile_self ha2]
  rw [if_neg hw2]

theorem versusFind_canon {w1 w2 : Str} (hw1 : w1 ≠ []) (hw2 : w2 ≠ [])
    (ha1 : ∀ c ∈ w1, isWordR c = true) (ha2 : ∀ c ∈ w2, isWordR c = true) :
    versusFind (w1 ++ 32 :: 118 :: 115 :: 32 :: w2) = some (w1, w2) := by
  obtain ⟨c1, w1t, hw1e⟩ : ∃ c1 w1t, w1 = c1 :: w1t := by
    cases w1 with
    | nil => exact absurd rfl hw1
    | cons c1 w1t => exact ⟨c1, w1t, rfl⟩
  have hc1 : isWordR c1 = true := ha1 c1 (by rw [hw1e]; exact List.mem_cons_self _ _)
  have hcanon := versusHere_canon hw1 hw2 ha1 ha2
  unfold versusFind
  rw [hw1e, List.cons_append, versusScan_cons]
  rw [if_pos (by rw [hc1]; rfl)]
  rw [← List.cons_append, ← hw1e, hcanon]

theorem versusScan_run : ∀ (a : Str), a ≠ [] → (∀ c ∈ a, isWordR c = true) →
    ∀ (rest : Str) (bOK : Bool), (bOK = true → versusHere (a ++ rest) = none) →
    versusScan (a ++ rest) bOK = versusScan rest false := by
  intro a
  induction a with
  | nil => intro h; exact absurd rfl h
  | cons c a2 ih =>
    intro _ hall rest bOK hnone
    rw [List.cons_append, versusScan_cons]
    have hc : isWordR c = true := hall c (List.mem_cons_self c a2)
    have hflag : (!(isWordR c)) = false := by rw [hc]; rfl
    cases bOK with
    | true =>
      rw [if_pos (by rw [hc]; rfl)]
      have hn : versusHere (c :: (a2 ++ rest)) = none := by
        rw [← List.cons_append]
        exact hnone rfl
      rw [hn]
      dsimp only
      cases a2 with
      | nil => rfl
      | cons d a3 =>
        exact ih (by simp) (fun e he => hall e (List.mem_cons_of_mem c he)) rest
          false (fun hf => absurd hf (by simp))
    | false =>
      rw [if_neg (by simp), hflag]
      cases a2 with
      | nil => rfl
      | cons d a3 =>
        exact ih (by simp) (fun e he => hall e (List.mem_cons_of_mem c he)) rest
          false (fun hf => absurd hf (by simp))

theorem versusHere_word_end {c : Str} (hc : c ≠ [])
    (hwc : ∀ x ∈ c, isWordR x = true) : versusHere c = none := by
  unfold versusHere spanWord spanSpace
  dsimp only
  rw [takeWhile_self hwc, if_neg hc, dropWhile_all hwc]
  rw [show (([] : Str).takeWhile reSpace) = [] from rfl]
  rw [if_pos rfl]

theorem versusHere_mid {b c : Str} (hb : b ≠ [])
    (hwb : ∀ x ∈ b, isWordR x = true) (hwc : ∀ x ∈ c, isWordR x = true) :
    versusHere (b ++ 32 :: c) = none := by
  unfold versusHere spanWord spanSpace
  dsimp only
  rw [takeWhile_append_all isWordR b _ hwb (Or.inr ⟨32, _, rfl, by decide⟩)]
  rw [if_neg hb]
  rw [dropWhile_append_head isWordR b _ hwb (Or.inr ⟨32, _, rfl, by decide⟩)]
  rcases hcs : c with _ | ⟨x, c2⟩
  · rw [show ((32 :: [] : Str).takeWhile reSpace) = [32] from rfl]
    rw [if_neg (by simp)]
    rw [show ((32 :: [] : Str).dropWhile reSpace) = [] from rfl]
  · have hx : isWordR x = true := hwc x (by rw [hcs]; exact List.mem_cons_self _ _)
    rw [show (32 :: x :: c2 : Str) = [32] ++ (x :: c2) from rfl]
    rw [takeWhile_append_all reSpace [32] _ (by decide)
      (Or.inr ⟨x, c2, rfl, by rw [isWordR_not_reSpace x hx]⟩)]
    rw [if_neg (by simp)]
    rw [dropWhile_append_head reSpace [32] _ (by decide)
      (Or.inr ⟨x, c2, rfl, by rw [isWordR_not_reSpace x hx]⟩)]
    cases c2 with
    | nil => dsimp only
    | cons y c3 =>
      dsimp only
      by_cases hxy : (x = 118 && y = 115) = true
      · rw [if_pos hxy]
        cases c3 with
        | nil =>
          rw [show (([] : Str).takeWhile reSpace) = [] from rfl]
          rw [if_pos rfl]
        | cons z c4 =>
          have hz : isWordR z = true := hwc z (by rw [hcs]; simp)
          have hzs : ¬(reSpace z = true) := by
            rw [isWordR_not_reSpace z hz]
            simp
          rw [List.takeWhile_cons, if_neg hzs]
          rw [if_pos rfl]
      · rw [if_neg hxy]

theorem versusHere_first {a b c : Str} (ha : a ≠ []) (hb : b ≠ [])
    (hwa : ∀ x ∈ a, isWordR x = true) (hwb : ∀ x ∈ b, isWordR x = true)
    (hwc : ∀ x ∈ c, isWordR x = true) (hbvs : b ≠ [118, 115]) :
    versusHere (a ++ 32 :: (b ++ 32 :: c)) = none := by
  obtain ⟨x, b2, hbe⟩ : ∃ x b2, b = x :: b2 := by
    cases b with
    | nil => exact absurd rfl hb
    | cons x b2 => exact ⟨x, b2, rfl⟩
  have hx : isWordR x = true := hwb x (by rw [hbe]; exact List.mem_cons_self _ _)
  unfold versusHere spanWord spanSpace
  dsimp only
  rw [takeWhile_append_all isWordR a _ hwa (Or.inr ⟨32, _, rfl, by decide⟩)]
  rw [if_neg ha]
  rw [dropWhile_append_head isWordR a _ hwa (Or.inr ⟨32, _, rfl, by decide⟩)]
  rw [show (32 :: (b ++ 32 :: c) : Str) = [32] ++ (b ++ 32 :: c) from rfl]
  have hbhead : b ++ 32 :: c = x :: (b2 ++ 32 :: c) := by rw [hbe]; rfl
  rw [takeWhile_append_all reSpace [32] _ (by decide)
    (Or.inr ⟨x, b2 ++ 32 :: c, hbhead, by rw [isWordR_not_reSpace x hx]⟩)]
  rw [if_neg (by simp)]
  rw [dropWhile_append_head reSpace [32] _ (by decide)
    (Or.inr ⟨x, b2 ++ 32 :: c, hbhead, by rw [isWordR_not_reSpace x hx]⟩)]
  rw [hbhead]
  cases b2 with
  | nil =>
    rw [List.nil_append]
    dsimp only
    rw [if_neg (by simp)]
  | cons y b3 =>
    have hy : isWordR y = true := hwb y (by rw [hbe]; simp)
    rw [List.cons_append]
    dsimp only
    by_cases hxy : (x = 118 && y = 115) = true
    · rw [if_pos hxy]
      cases b3 with
      | nil =>
        have hxv : x = 118 ∧ y = 115 := by
          simp only [Bool.and_eq_true, decide_eq_true_eq] at hxy
          exact hxy
        exfalso
        apply hbvs
        rw [hbe, hxv.1, hxv.2]
      | cons z b4 =>
        have hz : isWordR z = true := hwb z (by rw [hbe]; simp)
        have hzs : ¬(reSpace z = true) := by
          rw [isWordR_not_reSpace z hz]
          simp
        rw [List.cons_append, List.takeWhile_cons, if_neg hzs]
        rw [if_pos rfl]
    · rw [if_neg hxy]

theorem versus_three_none {a b c : Str} (ha : a ≠ []) (hb : b ≠ []) (hc : c ≠ [])
    (hwa : ∀ x ∈ a, isWordR x = true) (hwb : ∀ x ∈ b, isWordR x = true)
    (hwc : ∀ x ∈ c, isWordR x = true) (hbvs : b ≠ [118, 115]) :
    versusFind (a ++ 32 :: (b ++ 32 :: c)) = none := by
  unfold versusFind
  rw [versusScan_run a ha hwa _ true
    (fun _ => versusHere_first ha hb hwa hwb hwc hbvs)]
  rw [versusScan_cons, if_neg (by simp), show (!(isWordR 32)) = true by decide]
  rw [versusScan_run b hb hwb _ true (fun _ => versusHere_mid hb hwb hwc)]
  rw [versusScan_cons, if_neg (by simp), show (!(isWordR 32)) = true by decide]
  have hrun := versusScan_run c hc hwc [] true
    (fun _ => by rw [List.append_nil]; exact versusHere_word_end hc hwc)
  rw [List.append_nil] at hrun
  rw [hrun]
  rfl

/-! ### The decade pattern and critical-table misses -/

theorem decadeMatch_chars {x : Str} (h : decadeMatch x = true) :
    ∀ c ∈ x, (48 ≤ c ∧ c ≤ 57) ∨ c = 115 := by
  rcases x with _ | ⟨a, _ | ⟨b, _ | ⟨c0, _ | ⟨d, _ | ⟨e, _ | ⟨f, r⟩⟩⟩⟩⟩⟩
  · cases h
  · cases h
  · cases h
  · cases h
  · cases h
  · have h2 : (isDigitR a && isDigitR b && isDigitR c0 && isDigitR d &&
        decide (e = 115)) = true := h
    simp only [Bool.and_eq_true, decide_eq_true_eq, isDigitR] at h2
    obtain ⟨⟨⟨⟨ha, hb⟩, hc⟩, hd⟩, he⟩ := h2
    intro c hc2
    simp only [List.mem_cons, List.not_mem_nil, or_false] at hc2
    rcases hc2 with rfl | rfl | rfl | rfl | rfl
    · exact Or.inl ha
    · exact Or.inl hb
    · exact Or.inl hc
    · exact Or.inl hd
    · exact Or.inr he
  · cases h

theorem decadeMatch_false_of_32 {x : Str} (h32 : 32 ∈ x) :
    decadeMatch x = false := by
  cases hd : decadeMatch x
  · rfl
  · exfalso
    rcases decadeMatch_chars hd 32 h32 with h | h
    · omega
    · cases h

theorem decadeMatch_false_of_44 {x : Str} (h44 : 44 ∈ x) :
    decadeMatch x = false := by
  cases hd : decadeMatch x
  · rfl
  · exfalso
    rcases decadeMatch_chars hd 44 h44 with h | h
    · omega
    · cases h

theorem crit_none_of_44 {l : Str} (h : 44 ∈ l) :
    tableLookup criticalReplacements l = none := by
  apply tableLookup_none_of
  intro p hp heq
  apply crit_no_comma p hp
  rw [heq]
  exact h

theorem crit_none_of_two_spaces {l : Str} (h : 2 ≤ List.count 32 l) :
    tableLookup criticalReplacements l = none := by
  apply tableLookup_none_of
  intro p hp heq
  have := crit_count32 p hp
  rw [heq] at this
  omega

/-! ### The city/state pattern -/

theorem cityStateMatch_none_no44 {x : Str} (h : ¬44 ∈ x) :
    cityStateMatch x = none := by
  unfold cityStateMatch
  rw [dropWhile_all (fun c hc => by
    rw [decide_eq_false (fun he : c = 44 => h (he ▸ hc))]
    rfl)]

theorem cityStateMatch_struct {l m1 m2 : Str} (htrail : NoTrail l)
    (htidy : tidy l = true) (h : cityStateMatch l = some (m1, m2)) :
    ∃ sp : Str, l = m1 ++ 44 :: (sp ++ m2) ∧ (sp = [] ∨ sp = [32]) ∧
      m1 ≠ [] ∧ (¬44 ∈ m1) ∧ (¬44 ∈ m2) ∧ m2 ≠ [] ∧
      (∀ c, m2.head? = some c → goSpace c = false) := by
  unfold cityStateMatch at h
  rcases hdp : l.dropWhile (fun c => !(c = 44)) with _ | ⟨comma0, rest⟩
  · rw [hdp] at h
    cases h
  · rw [hdp] at h
    dsimp only at h
    have hcomma : comma0 = 44 := by
      have := dropWhile_head_not (fun c => !(c = 44)) l comma0 (by rw [hdp]; rfl)
      simp only [Bool.not_eq_eq_eq_not, Bool.not_false, decide_eq_true_eq] at this
      exact this
    have hldec : l = l.takeWhile (fun c => !(c = 44)) ++ (comma0 :: rest) := by
      conv_lhs => rw [dropWhile_decomp (fun c => !(c = 44)) l]
      rw [hdp]
    by_cases hbef : l.takeWhile (fun c => !(c = 44)) = []
    · rw [if_pos hbef] at h
      cases h
    · rw [if_neg hbef] at h
      by_cases hhc : hasChar rest 44 = true
      · rw [if_pos hhc] at h
        cases h
      · rw [if_neg hhc] at h
        by_cases hre : rest = []
        · rw [if_pos hre] at h
          cases h
        · rw [if_neg hre] at h
          have hresttidy : tidy rest = true := by
            have h1 : tidy (comma0 :: rest) = true := by
              rw [hldec] at htidy
              exact tidy_append_right htidy
            exact tidy_tail h1
          by_cases hm2e : rest.dropWhile reSpace = []
          · exfalso
            -- the string would end in whitespace
            obtain ⟨z, rl, hrl⟩ : ∃ z rl, rest.reverse = z :: rl := by
              cases hr : rest.reverse with
              | nil =>
                exfalso
                exact hre (by
                  have := congrArg List.reverse hr
                  rwa [List.reverse_reverse] at this)
              | cons z rl => exact ⟨z, rl, rfl⟩
            have hzlast : rest.getLast? = some z := by
              rw [← List.head?_reverse, hrl]
              rfl
            have hzmem : z ∈ rest := getLast?_mem rest z hzlast
            have hz : reSpace z = true := by
              have hall : ∀ c ∈ rest, reSpace c = true := by
                intro c hc
                by_cases hcr : reSpace c = true
                · exact hcr
                · exfalso
                  have hdec := dropWhile_decomp reSpace rest
                  rw [hm2e, List.append_nil] at hdec
                  rw [hdec] at hc
                  have := List.mem_takeWhile_imp hc
                  exact hcr this
              exact hall z hzmem
            have hllast : l.getLast? = some z := by
              rw [hldec, getLast?_append_right _ (by simp)]
              rw [show (comma0 :: rest : Str) = [comma0] ++ rest from rfl]
              rw [getLast?_append_right _ hre]
              exact hzlast
            exact absurd (htrail z hllast) (by
              rw [reSpace_le_goSpace z hz]
              simp)
          · rw [if_neg hm2e] at h
            simp only [Option.some.injEq, Prod.mk.injEq] at h
            obtain ⟨hm1e, hm2eq⟩ := h
            refine ⟨rest.takeWhile reSpace, ?_, ?_, ?_, ?_, ?_, ?_, ?_⟩
            · rw [hldec, hcomma, hm1e, ← hm2eq]
              rw [← dropWhile_decomp reSpace rest]
            · -- the space run has length at most one
              rcases hsp : rest.takeWhile reSpace with _ | ⟨s1, _ | ⟨s2, sps⟩⟩
              · exact Or.inl rfl
              · right
                have hs1 : reSpace s1 = true :=
                  List.mem_takeWhile_imp (by rw [hsp]; exact List.mem_cons_self _ _)
                have hs1m : s1 ∈ rest := by
                  have hdec : rest = rest.takeWhile reSpace ++ rest.dropWhile reSpace :=
                    dropWhile_decomp reSpace rest
                  rw [hdec]
                  refine List.mem_append.mpr (Or.inl ?_)
                  rw [hsp]
                  exact List.mem_cons_self _ _
                have : s1 = 32 := tidy_space_is_32 hresttidy s1 hs1m
                  (reSpace_le_goSpace s1 hs1)
                rw [this]
              · exfalso
                have hs1 : reSpace s1 = true :=
                  List.mem_takeWhile_imp (by rw [hsp]; exact List.mem_cons_self _ _)
                have hs2 : reSpace s2 = true :=
                  List.mem_takeWhile_imp (by rw [hsp]; simp)
                have hdec := dropWhile_decomp reSpace rest
                rw [hsp] at hdec
                have htr : tidy (s1 :: s2 :: (sps ++ rest.dropWhile reSpace)) = true := by
                  rw [List.cons_append, List.cons_append] at hdec
                  rw [← hdec]
                  exact hresttidy
                have h1 : s1 = 32 := tidy_space_is_32 htr s1 (by simp)
                  (reSpace_le_goSpace s1 hs1)
                have h2 : s2 = 32 := tidy_space_is_32 htr s2 (by simp)
                  (reSpace_le_goSpace s2 hs2)
                exact (tidy_cons htr).2.2 s2 _ rfl ⟨h1, h2⟩
            · rw [← hm1e]
              exact hbef
            · rw [← hm1e]
              intro hmem
              have := List.mem_takeWhile_imp hmem
              simp at this
            · rw [← hm2eq]
              intro hmem
              have h44 : (44 : Nat) ∈ rest := mem_dropWhile_mem reSpace rest 44 hmem
              exact hhc ((hasChar_iff rest 44).mpr h44)
            · rw [← hm2eq]
              exact hm2e
            · intro c hc
              rw [← hm2eq] at hc
              have hcr : reSpace c = false :=
                dropWhile_head_not reSpace rest c hc
              have hcm : c ∈ rest := by
                rcases hdw : rest.dropWhile reSpace with _ | ⟨c1, cr⟩
                · rw [hdw] at hc
                  cases hc
                · rw [hdw] at hc
                  simp only [List.head?_cons, Option.some.injEq] at hc
                  have hmem : c ∈ rest.dropWhile reSpace := by
                    rw [hdw, ← hc]
                    exact List.mem_cons_self _ _
                  exact mem_dropWhile_mem reSpace rest c hmem
              by_cases hg : goSpace c = true
              · exfalso
                have : c = 32 := tidy_space_is_32 hresttidy c hcm hg
                subst this
                rw [show reSpace 32 = true by decide] at hcr
                cases hcr
              · cases hgc : goSpace c
                · rfl
                · exact absurd hgc hg

theorem cityStateMatch_canon {A m2 : Str} (hA : A ≠ []) (hA44 : ¬44 ∈ A)
    (hm2 : m2 ≠ []) (hm244 : ¬44 ∈ m2)
    (hm2h : ∀ c, m2.head? = some c → reSpace c = false) :
    cityStateMatch (A ++ 44 :: 32 :: m2) = some (A, m2) := by
  obtain ⟨h2, m2t, hm2e⟩ : ∃ h2 m2t, m2 = h2 :: m2t := by
    cases m2 with
    | nil => exact absurd rfl hm2
    | cons h2 m2t => exact ⟨h2, m2t, rfl⟩
  have hh2 : reSpace h2 = false := hm2h h2 (by rw [hm2e]; rfl)
  unfold cityStateMatch
  rw [takeWhile_append_all _ A _
    (fun c hc => by rw [decide_eq_false (fun he : c = 44 => hA44 (he ▸ hc))]; rfl)
    (Or.inr ⟨44, _, rfl, by decide⟩)]
  rw [dropWhile_append_head _ A _
    (fun c hc => by rw [decide_eq_false (fun he : c = 44 => hA44 (he ▸ hc))]; rfl)
    (Or.inr ⟨44, _, rfl, by decide⟩)]
  dsimp only
  rw [if_neg hA]
  rw [if_neg (by
    rw [hasChar_false (fun hmem : (44 : Nat) ∈ 32 :: m2 => by
      rcases List.mem_cons.mp hmem with h | h
      · cases h
      · exact hm244 h)]
    simp)]
  rw [if_neg (by simp)]
  rw [show (32 :: m2 : Str) = [32] ++ m2 from rfl]
  rw [dropWhile_append_head reSpace [32] m2 (by decide)
    (Or.inr ⟨h2, m2t, hm2e, hh2⟩)]
  rw [if_neg hm2]

/-! ### The based-on pattern -/

theorem basedOnMatch_struct {s rest : Str} (h : basedOnMatch s = some rest) :
    s = str "based on " ++ rest ∧ rest ≠ [] ∧ ¬10 ∈ rest := by
  unfold basedOnMatch at h
  by_cases hp : isPre (str "based on ") s = true
  · rw [if_pos hp] at h
    dsimp only at h
    rcases (isPre_iff _ _).mp hp with ⟨t, ht⟩
    have hdrop : s.drop 9 = t := by
      rw [ht]
      rw [show (9 : Nat) = (str "based on ").length from rfl]
      exact List.drop_left _ _
    rw [hdrop] at h
    by_cases h1 : t = []
    · rw [if_pos h1] at h
      cases h
    · rw [if_neg h1] at h
      by_cases h2 : hasChar t 10 = true
      · rw [if_pos h2] at h
        cases h
      · rw [if_neg h2] at h
        simp only [Option.some.injEq] at h
        subst h
        exact ⟨ht, h1, fun hm => h2 ((hasChar_iff t 10).mpr hm)⟩
  · rw [if_neg hp] at h
    cases h

theorem basedOn_none_kin : ∀ k ∈ kinWords, ∀ y : Str,
    basedOnMatch (k ++ y) = none := by
  intro k hk y
  simp only [kinWords, List.mem_cons, List.not_mem_nil, or_false] at hk
  rcases hk with rfl | rfl | rfl | rfl | rfl | rfl | rfl <;> rfl

/-! ### The relationship pattern -/

theorem spanSpace_canon {t : Str} (htidy : tidy (32 :: t) = true) :
    (32 :: t).takeWhile reSpace = [32] ∧ (32 :: t).dropWhile reSpace = t :=
  tidy_span32 htidy

theorem relationshipMatch_struct {l : Str} (htidy : tidy l = true)
    (h : relationshipMatch l = true) :
    ∃ k1 k2, k1 ∈ kinWords ∧ k2 ∈ kinWords ∧
      (l = k1 ++ 32 :: k2 ∨ l = k1 ++ 32 :: (k2 ++ 32 :: str "relationship")) := by
  unfold relationshipMatch spanSpace at h
  rcases hs1 : stripOne kinWords l with _ | r1
  · rw [hs1] at h
    cases h
  · rw [hs1] at h
    dsimp only at h
    rcases stripOne_some kinWords l r1 hs1 with ⟨k1, hk1, hpre1, hr1⟩
    rcases (isPre_iff _ _).mp hpre1 with ⟨t1, ht1⟩
    have hr1t : r1 = t1 := by
      rw [hr1, ht1, List.drop_left]
    subst hr1t
    -- now ht1 : l = k1 ++ r1
    by_cases hsp1 : r1.takeWhile reSpace = []
    · rw [if_pos hsp1] at h
      cases h
    · rw [if_neg hsp1] at h
      obtain ⟨c1, r1t, hr1e⟩ : ∃ c1 r1t, r1 = c1 :: r1t := by
        cases hr : r1 with
        | nil =>
          rw [hr] at hsp1
          exact absurd rfl hsp1
        | cons c1 r1t => exact ⟨c1, r1t, rfl⟩
      have hc1sp : reSpace c1 = true := by
        by_cases hrc : reSpace c1 = true
        · exact hrc
        · exfalso
          have hrc2 : reSpace c1 = false := by
            cases hx : reSpace c1
            · rfl
            · exact absurd hx hrc
          rw [hr1e, List.takeWhile_cons, if_neg (by rw [hrc2]; simp)] at hsp1
          exact hsp1 rfl
      have hr1tidy : tidy r1 = true := by
        rw [ht1] at htidy
        exact tidy_append_right htidy
      have hc132 : c1 = 32 := by
        refine tidy_space_is_32 hr1tidy c1 ?_ (reSpace_le_goSpace c1 hc1sp)
        rw [hr1e]
        exact List.mem_cons_self _ _
      subst hc132
      rw [hr1e] at hr1tidy
      have hspan := tidy_span32 hr1tidy
      rw [hr1e, hspan.2] at h
      -- h : (match stripOne kinWords r1t with ...) = true
      rcases hs2 : stripOne kinWords r1t with _ | r3
      · rw [hs2] at h
        cases h
      · rw [hs2] at h
        dsimp only at h
        rcases stripOne_some kinWords r1t r3 hs2 with ⟨k2, hk2, hpre2, hr3⟩
        rcases (isPre_iff _ _).mp hpre2 with ⟨t3, ht3⟩
        have hr3t : r3 = t3 := by
          rw [hr3, ht3, List.drop_left]
        subst hr3t
        -- ht3 : r1t = k2 ++ r3
        by_cases hr3e : r3 = []
        · refine ⟨k1, k2, hk1, hk2, Or.inl ?_⟩
          rw [ht1, hr1e, ht3, hr3e, List.append_nil]
        · rw [if_neg hr3e] at h
          simp only [Bool.and_eq_true, Bool.not_eq_true', decide_eq_false_iff_not,
            decide_eq_true_eq] at h
          obtain ⟨hsp2, hrel⟩ := h
          obtain ⟨c2, r3t, hr3cons⟩ : ∃ c2 r3t, r3 = c2 :: r3t := by
            cases hr : r3 with
            | nil => exact absurd hr hr3e
            | cons c2 r3t => exact ⟨c2, r3t, rfl⟩
          have hc2sp : reSpace c2 = true := by
            by_cases hrc : reSpace c2 = true
            · exact hrc
            · exfalso
              have hrc2 : reSpace c2 = false := by
                cases hx : reSpace c2
                · rfl
                · exact absurd hx hrc
              rw [hr3cons, List.takeWhile_cons, if_neg (by rw [hrc2]; simp)] at hsp2
              exact hsp2 rfl
          have hr3tidy : tidy r3 = true := by
            have h1 : tidy r1t = true := tidy_tail hr1tidy
            rw [ht3] at h1
            exact tidy_append_right h1
          have hc232 : c2 = 32 := by
            refine tidy_space_is_32 hr3tidy c2 ?_ (reSpace_le_goSpace c2 hc2sp)
            rw [hr3cons]
            exact List.mem_cons_self _ _
          subst hc232
          rw [hr3cons] at hr3tidy
          have hspan2 := tidy_span32 hr3tidy
          rw [hr3cons, hspan2.2] at hrel
          refine ⟨k1, k2, hk1, hk2, Or.inr ?_⟩
          rw [ht1, hr1e, ht3, hr3cons, hrel]

/-! ### More character lemmas and applyTitleCase corollaries -/

theorem isLowerR_not_goSpace {c : Nat} (h : isLowerR c = true) :
    goSpace c = false := by
  simp only [isLowerR, Bool.and_eq_true, decide_eq_true_eq] at h
  simp only [goSpace, Bool.or_eq_false_iff, decide_eq_false_iff_not]
  omega

theorem isDigitR_not_goSpace {c : Nat} (h : isDigitR c = true) :
    goSpace c = false := by
  simp only [isDigitR, Bool.and_eq_true, decide_eq_true_eq] at h
  simp only [goSpace, Bool.or_eq_false_iff, decide_eq_false_iff_not]
  omega

theorem isDigitR_fixed {c : Nat} (h : isDigitR c = true) : toLowerR c = c := by
  apply toLowerR_eq_self_of_not_upper
  simp only [isDigitR, Bool.and_eq_true, decide_eq_true_eq] at h
  simp only [isUpperR, Bool.and_eq_false_iff, decide_eq_false_iff_not]
  omega

theorem isAcrChar_fixed {c : Nat} (h : isAcrChar c = true) : toLowerR c = c := by
  apply toLowerR_eq_self_of_not_upper
  simp only [isAcrChar, isLowerR, Bool.or_eq_true, Bool.and_eq_true,
    decide_eq_true_eq] at h
  simp only [isUpperR, Bool.and_eq_false_iff, decide_eq_false_iff_not]
  rcases h with h | h
  · right; omega
  · left; omega

theorem isWordR_ne_32 {c : Nat} (h : isWordR c = true) : c ≠ 32 := by
  intro he
  subst he
  cases h

theorem getLast?_decomp : ∀ (l : Str) (c : Nat), l.getLast? = some c →
    l = l.dropLast ++ [c] := by
  intro l
  induction l with
  | nil => intro c h; cases h
  | cons a t ih =>
    intro c h
    cases t with
    | nil =>
      simp only [List.getLast?_singleton, Option.some.injEq] at h
      rw [← h]
      rfl
    | cons b t2 =>
      rw [List.getLast?_cons_cons] at h
      have := ih c h
      show a :: (b :: t2) = (a :: b :: t2).dropLast ++ [c]
      rw [show (a :: b :: t2).dropLast = a :: (b :: t2).dropLast from rfl]
      rw [List.cons_append, ← this]

theorem tidy_no_trail32 : ∀ (x : Str) {w : Nat} (z : Str),
    tidy (x ++ 32 :: z) = true → x.getLast? = some w → w ≠ 32 := by
  intro x
  induction x with
  | nil => intro w z _ h; cases h
  | cons a x2 ih =>
    intro w z htidy hlast
    cases x2 with
    | nil =>
      simp only [List.getLast?_singleton, Option.some.injEq] at hlast
      subst hlast
      have := (tidy_cons htidy).2.2 32 z rfl
      intro h32
      exact this ⟨h32, rfl⟩
    | cons b x3 =>
      rw [List.getLast?_cons_cons] at hlast
      exact ih z (tidy_tail htidy) hlast

theorem fields_lowFixed {x : Str} (hx : ∀ c ∈ x, toLowerR c = c) :
    (fields x).map toLowerStr = fields x := by
  conv_rhs => rw [← List.map_id (fields x)]
  apply List.map_congr_left
  intro w hw
  exact (lowFixed_iff w).mpr fun c hc => hx c (mem_fields_mem x w hw c hc)

theorem applyTitleCase_noLead {x : Str} (h : fields x ≠ []) :
    NoLead (applyTitleCase x) := by
  rw [applyTitleCase_eq h]
  exact noLead_unwords (tcWords_goodWords true (fields_goodWords x))

theorem applyTitleCase_noTrail {x : Str} (h : fields x ≠ []) :
    NoTrail (applyTitleCase x) := by
  rw [applyTitleCase_eq h]
  exact noTrail_unwords (tcWords_goodWords true (fields_goodWords x))

theorem applyTitleCase_ne_nil {x : Str} (h : fields x ≠ []) :
    applyTitleCase x ≠ [] := by
  rw [applyTitleCase_eq h]
  exact unwords_ne_nil (tcWords_goodWords true (fields_goodWords x))
    (tcWords_ne_nil true h)

theorem toLower_titleCase_self {w : Str} (hw : ∀ c ∈ w, toLowerR c = c) :
    toLowerStr (titleCase w) = w := by
  rw [toLowerStr_titleCase]
  exact (lowFixed_iff w).mpr hw

theorem goodWord_titleCase {w : Str} (h : GoodWord w) : GoodWord (titleCase w) :=
  goodWord_of_toLower_eq (toLowerStr_titleCase w) h

theorem goodWords_map_titleCase {ws : List Str} (h : GoodWords ws) :
    GoodWords (ws.map titleCase) := by
  intro w hw
  rcases List.mem_map.mp hw with ⟨u, hu, rfl⟩
  exact goodWord_titleCase (h u hu)

theorem count32_eq_zero {w : Str} (h : ¬32 ∈ w) : List.count 32 w = 0 :=
  List.count_eq_zero.mpr h

theorem isSuf_rel_false {k1 k2 : Str} (hk2 : k2 ∈ kinWords) :
    isSuf (str "relationship") (k1 ++ 32 :: k2) = false := by
  cases hs : isSuf (str "relationship") (k1 ++ 32 :: k2)
  · rfl
  · exfalso
    unfold isSuf at hs
    rw [List.reverse_append, List.reverse_cons] at hs
    rcases (isPre_iff _ _).mp hs with ⟨u, hu⟩
    -- (k2.reverse ++ [32]) ++ k1.reverse = rel.reverse ++ u
    have h1 : (str "relationship").reverse <+:
        ((k2.reverse ++ [32]) ++ k1.reverse) := ⟨u, hu.symm⟩
    have h2 : (k2.reverse ++ [32]) <+: ((k2.reverse ++ [32]) ++ k1.reverse) :=
      ⟨k1.reverse, rfl⟩
    have hlen : (k2.reverse ++ [32]).length ≤ (str "relationship").reverse.length := by
      simp only [List.length_append, List.length_reverse, List.length_singleton]
      have := kin_short k2 hk2
      simp only [str, List.length_map]
      simp only [str, List.length_map] at this ⊢
      exact this.trans (by decide)
    have h3 : (k2.reverse ++ [32]) <+: (str "relationship").reverse :=
      List.prefix_of_prefix_length_le h2 h1 hlen
    have h32 : (32 : Nat) ∈ (str "relationship").reverse := h3.subset (by simp)
    rw [List.mem_reverse] at h32
    exact absurd h32 (by decide)

/-! ### Forward structure of the remaining patterns -/

theorem fields_two {a b : Str} (ha : GoodWord a) (hb : GoodWord b) :
    fields (a ++ 32 :: b) = [a, b] := by
  rw [fields_word_space a ha.1 ha.2 b, fields_single b hb.1 hb.2]

theorem fields_three {a b c : Str} (ha : GoodWord a) (hb : GoodWord b)
    (hc : GoodWord c) : fields (a ++ 32 :: (b ++ 32 :: c)) = [a, b, c] := by
  rw [fields_word_space a ha.1 ha.2 _, fields_word_space b hb.1 hb.2 c,
    fields_single c hc.1 hc.2]

theorem ethnicityMatch_struct {l : Str} (htidy : tidy l = true)
    (h : ethnicityMatch l = true) :
    ∃ e dsc, e ∈ ethWords ∧ dsc ∈ descWords ∧ l = e ++ 32 :: dsc := by
  unfold ethnicityMatch spanSpace at h
  rcases hs1 : stripOne ethWords l with _ | r1
  · rw [hs1] at h
    cases h
  · rw [hs1] at h
    dsimp only at h
    rcases stripOne_some ethWords l r1 hs1 with ⟨e, he, hpre, hr1⟩
    rcases (isPre_iff _ _).mp hpre with ⟨t1, ht1⟩
    have hr1t : r1 = t1 := by
      rw [hr1, ht1, List.drop_left]
    subst hr1t
    simp only [Bool.and_eq_true, Bool.not_eq_true', decide_eq_false_iff_not] at h
    obtain ⟨hsp, hmem⟩ := h
    obtain ⟨c1, r1t, hr1e⟩ : ∃ c1 r1t, r1 = c1 :: r1t := by
      cases hr : r1 with
      | nil =>
        rw [hr] at hsp
        exact absurd rfl hsp
      | cons c1 r1t => exact ⟨c1, r1t, rfl⟩
    have hc1sp : reSpace c1 = true := by
      by_cases hrc : reSpace c1 = true
      · exact hrc
      · exfalso
        have hrc2 : reSpace c1 = false := by
          cases hx : reSpace c1
          · rfl
          · exact absurd hx hrc
        rw [hr1e, List.takeWhile_cons, if_neg (by rw [hrc2]; simp)] at hsp
        exact hsp rfl
    have hr1tidy : tidy r1 = true := by
      rw [ht1] at htidy
      exact tidy_append_right htidy
    have hc132 : c1 = 32 := by
      refine tidy_space_is_32 hr1tidy c1 ?_ (reSpace_le_goSpace c1 hc1sp)
      rw [hr1e]
      exact List.mem_cons_self _ _
    subst hc132
    rw [hr1e] at hr1tidy
    have hspan := tidy_span32 hr1tidy
    rw [hr1e, hspan.2] at hmem
    exact ⟨e, r1t, he, (memStr_iff r1t descWords).mp hmem, by rw [ht1, hr1e]⟩

theorem agencyMatch_struct {l ag role : Str} (htidy : tidy l = true)
    (h : agencyMatch l = some (ag, role)) :
    role ∈ roleWords ∧ l = ag ++ 32 :: role ∧ 2 ≤ ag.length ∧
      ag.length ≤ 5 ∧ (∀ c ∈ ag, isLowerR c = true) := by
  unfold agencyMatch spanSpace at h
  dsimp only at h
  by_cases hlen : (2 ≤ (l.takeWhile isLowerR).length &&
      (l.takeWhile isLowerR).length ≤ 5) = true
  · rw [if_pos hlen] at h
    by_cases hsp : (l.dropWhile isLowerR).takeWhile reSpace = []
    · rw [if_pos hsp] at h
      cases h
    · rw [if_neg hsp] at h
      by_cases hmem : memStr ((l.dropWhile isLowerR).dropWhile reSpace)
          roleWords = true
      · rw [if_pos hmem] at h
        simp only [Option.some.injEq, Prod.mk.injEq] at h
        obtain ⟨hag, hrole⟩ := h
        obtain ⟨c1, dt, hde⟩ : ∃ c1 dt, l.dropWhile isLowerR = c1 :: dt := by
          cases hd : l.dropWhile isLowerR with
          | nil =>
            rw [hd] at hsp
            exact absurd rfl hsp
          | cons c1 dt => exact ⟨c1, dt, rfl⟩
        have hc1sp : reSpace c1 = true := by
          by_cases hrc : reSpace c1 = true
          · exact hrc
          · exfalso
            have hrc2 : reSpace c1 = false := by
              cases hx : reSpace c1
              · rfl
              · exact absurd hx hrc
            rw [hde, List.takeWhile_cons, if_neg (by rw [hrc2]; simp)] at hsp
            exact hsp rfl
        have hdtidy : tidy (l.dropWhile isLowerR) = true := by
          have hdec : l = l.takeWhile isLowerR ++ l.dropWhile isLowerR :=
            dropWhile_decomp isLowerR l
          rw [hdec] at htidy
          exact tidy_append_right htidy
        have hc132 : c1 = 32 := by
          refine tidy_space_is_32 hdtidy c1 ?_ (reSpace_le_goSpace c1 hc1sp)
          rw [hde]
          exact List.mem_cons_self _ _
        subst hc132
        rw [hde] at hdtidy
        have hspan := tidy_span32 hdtidy
        simp only [Bool.and_eq_true, decide_eq_true_eq] at hlen
        refine ⟨?_, ?_, ?_, ?_, ?_⟩
        · rw [← hrole, hde, hspan.2]
          exact (memStr_iff _ _).mp (by rw [hde, hspan.2] at hmem; exact hmem)
        · rw [← hag, ← hrole, hde, hspan.2]
          conv_lhs => rw [dropWhile_decomp isLowerR l]
          rw [hde]
        · rw [← hag]; exact hlen.1
        · rw [← hag]; exact hlen.2
        · rw [← hag]
          intro c hc
          exact List.mem_takeWhile_imp hc
      · rw [if_neg hmem] at h
        cases h
  · rw [if_neg hlen] at h
    cases h

theorem centuryMatch_struct {l ds ord suf : Str} (htidy : tidy l = true)
    (h : centuryMatch l = some (ds, ord, suf)) :
    ds ≠ [] ∧ (∀ c ∈ ds, isDigitR c = true) ∧
      (∃ o1 o2, ord = [o1, o2] ∧ ordOK o1 o2 = true) ∧
      ((suf = [] ∧ l = ds ++ ord ++ 32 :: str "century") ∨
       (suf ≠ [] ∧ (∀ c ∈ suf, isLowerR c = true) ∧
         l = ds ++ ord ++ 32 :: (str "century" ++ 32 :: suf))) := by
  unfold centuryMatch spanSpace at h
  dsimp only at h
  by_cases hds : l.takeWhile isDigitR = []
  · rw [if_pos hds] at h
    cases h
  · rw [if_neg hds] at h
    rcases hdw : l.dropWhile isDigitR with _ | ⟨o1, _ | ⟨o2, r2⟩⟩
    · rw [hdw] at h
      cases h
    · rw [hdw] at h
      cases h
    · rw [hdw] at h
      dsimp only at h
      by_cases hord : ordOK o1 o2 = true
      · rw [if_pos hord] at h
        have hldec : l = l.takeWhile isDigitR ++ (o1 :: o2 :: r2) := by
          conv_lhs => rw [dropWhile_decomp isDigitR l]
          rw [hdw]
        have hr2tidy : tidy r2 = true := by
          rw [hldec] at htidy
          exact tidy_tail (tidy_tail (tidy_append_right htidy))
        by_cases hsp1 : r2.takeWhile reSpace = []
        · rw [if_pos hsp1] at h
          cases h
        · rw [if_neg hsp1] at h
          obtain ⟨c1, r2t, hr2e⟩ : ∃ c1 r2t, r2 = c1 :: r2t := by
            cases hr : r2 with
            | nil =>
              rw [hr] at hsp1
              exact absurd rfl hsp1
            | cons c1 r2t => exact ⟨c1, r2t, rfl⟩
          have hc1sp : reSpace c1 = true := by
            by_cases hrc : reSpace c1 = true
            · exact hrc
            · exfalso
              have hrc2 : reSpace c1 = false := by
                cases hx : reSpace c1
                · rfl
                · exact absurd hx hrc
              rw [hr2e, List.takeWhile_cons, if_neg (by rw [hrc2]; simp)] at hsp1
              exact hsp1 rfl
          have hc132 : c1 = 32 := by
            refine tidy_space_is_32 hr2tidy c1 ?_ (reSpace_le_goSpace c1 hc1sp)
            rw [hr2e]
            exact List.mem_cons_self _ _
          subst hc132
          rw [hr2e] at hr2tidy
          have hspan := tidy_span32 hr2tidy
          rw [hr2e, hspan.2] at h
          by_cases hcen : isPre (str "century") r2t = true
          · rw [if_pos hcen] at h
            rcases (isPre_iff _ _).mp hcen with ⟨t4, ht4⟩
            have hdrop : r2t.drop 7 = t4 := by
              rw [ht4]
              rw [show (7 : Nat) = (str "century").length from rfl]
              exact List.drop_left _ _
            rw [hdrop] at h
            have hcentidy : tidy t4 = true := by
              have h1 : tidy r2t = true := tidy_tail hr2tidy
              rw [ht4] at h1
              exact tidy_append_right h1
            by_cases ht4e : t4 = []
            · rw [if_pos ht4e] at h
              simp only [Option.some.injEq, Prod.mk.injEq] at h
              obtain ⟨hds2, hord2, hsuf⟩ := h
              refine ⟨by rw [← hds2]; exact hds,
                by rw [← hds2]; intro c hc; exact List.mem_takeWhile_imp hc,
                ⟨o1, o2, hord2.symm, hord⟩, Or.inl ⟨hsuf.symm, ?_⟩⟩
              conv_lhs => rw [hldec, hr2e, ht4, ht4e, List.append_nil]
              rw [← hds2, ← hord2]
              simp [List.append_assoc]
            · rw [if_neg ht4e] at h
              obtain ⟨c2, t4t, ht4c⟩ : ∃ c2 t4t, t4 = c2 :: t4t := by
                cases hx : t4 with
                | nil => exact absurd hx ht4e
                | cons c2 t4t => exact ⟨c2, t4t, rfl⟩
              by_cases hsp2 : t4.takeWhile reSpace = []
              · rw [if_pos hsp2] at h
                cases h
              · rw [if_neg hsp2] at h
                have hc2sp : reSpace c2 = true := by
                  by_cases hrc : reSpace c2 = true
                  · exact hrc
                  · exfalso
                    have hrc2 : reSpace c2 = false := by
                      cases hx : reSpace c2
                      · rfl
                      · exact absurd hx hrc
                    rw [ht4c, List.takeWhile_cons, if_neg (by rw [hrc2]; simp)] at hsp2
                    exact hsp2 rfl
                have hc232 : c2 = 32 := by
                  refine tidy_space_is_32 hcentidy c2 ?_ (reSpace_le_goSpace c2 hc2sp)
                  rw [ht4c]
                  exact List.mem_cons_self _ _
                subst hc232
                rw [ht4c] at hcentidy
                have hspan2 := tidy_span32 hcentidy
                rw [ht4c, hspan2.2] at h
                by_cases hfin : (!(t4t = []) && t4t.all isLowerR) = true
                · rw [if_pos hfin] at h
                  simp only [Option.some.injEq, Prod.mk.injEq] at h
                  obtain ⟨hds2, hord2, hsuf⟩ := h
                  simp only [Bool.and_eq_true, Bool.not_eq_true',
                    decide_eq_false_iff_not, List.all_eq_true] at hfin
                  refine ⟨by rw [← hds2]; exact hds,
                    by rw [← hds2]; intro c hc; exact List.mem_takeWhile_imp hc,
                    ⟨o1, o2, hord2.symm, hord⟩,
                    Or.inr ⟨by rw [← hsuf]; exact hfin.1,
                      by rw [← hsuf]; intro c hc; exact hfin.2 c hc, ?_⟩⟩
                  conv_lhs => rw [hldec, hr2e, ht4, ht4c]
                  rw [← hds2, ← hord2, ← hsuf]
                  simp [List.append_assoc]
                · rw [if_neg hfin] at h
                  cases h
          · rw [if_neg hcen] at h
            cases h
      · rw [if_neg hord] at h
        cases h

theorem acronymParensMatch_struct {l m1 acr : Str}
    (h : acronymParensMatch l = some (m1, acr)) :
    ∃ c1, l = m1 ++ c1 :: 40 :: (acr ++ [41]) ∧ reSpace c1 = true ∧ acr ≠ [] ∧
      (∀ c ∈ acr, isAcrChar c = true) ∧ m1 ≠ [] ∧ ¬10 ∈ m1 := by
  unfold acronymParensMatch at h
  by_cases h41 : l.getLast? = some 41
  · rw [if_pos h41] at h
    dsimp only at h
    by_cases hacr : (l.dropLast.reverse.takeWhile isAcrChar).reverse = []
    · rw [if_pos hacr] at h
      cases h
    · rw [if_neg hacr] at h
      have htdec : l.dropLast = (l.dropLast.reverse.dropWhile isAcrChar).reverse ++
          (l.dropLast.reverse.takeWhile isAcrChar).reverse := by
        conv_lhs => rw [← List.reverse_reverse l.dropLast,
          ← List.takeWhile_append_dropWhile isAcrChar l.dropLast.reverse]
        rw [List.reverse_append]
      have hlen2 : l.dropLast.length =
          (l.dropLast.reverse.dropWhile isAcrChar).reverse.length +
          (l.dropLast.reverse.takeWhile isAcrChar).reverse.length := by
        conv_lhs => rw [htdec]
        exact List.length_append _ _
      have hueq : l.dropLast.take (l.dropLast.length -
          (l.dropLast.reverse.takeWhile isAcrChar).reverse.length) =
          (l.dropLast.reverse.dropWhile isAcrChar).reverse := by
        rw [hlen2, Nat.add_sub_cancel]
        nth_rewrite 2 [htdec]
        exact List.take_left _ _
      rw [hueq] at h
      by_cases h40 : (l.dropLast.reverse.dropWhile isAcrChar).reverse.getLast?
          = some 40
      · rw [if_pos h40] at h
        rcases hvl : (l.dropLast.reverse.dropWhile isAcrChar).reverse.dropLast.getLast?
            with _ | c1
        · rw [hvl] at h
          cases h
        · rw [hvl] at h
          dsimp only at h
          by_cases hre : reSpace c1 = true
          · rw [if_pos hre] at h
            by_cases hm1 : (l.dropLast.reverse.dropWhile isAcrChar).reverse.dropLast.dropLast = []
            · rw [if_pos hm1] at h
              cases h
            · rw [if_neg hm1] at h
              by_cases h10 : hasChar (l.dropLast.reverse.dropWhile isAcrChar).reverse.dropLast.dropLast 10 = true
              · rw [if_pos h10] at h
                cases h
              · rw [if_neg h10] at h
                simp only [Option.some.injEq, Prod.mk.injEq] at h
                obtain ⟨hm1e, hacre⟩ := h
                refine ⟨c1, ?_, hre, by rw [← hacre]; exact hacr,
                  ?_, by rw [← hm1e]; exact hm1,
                  by rw [← hm1e]; exact fun hm => h10 ((hasChar_iff _ _).mpr hm)⟩
                · have hl : l = l.dropLast ++ [41] := by
                    refine getLast?_decomp l 41 h41
                  have hu : (l.dropLast.reverse.dropWhile isAcrChar).reverse =
                      (l.dropLast.reverse.dropWhile isAcrChar).reverse.dropLast ++ [40] :=
                    getLast?_decomp _ 40 h40
                  have hv : (l.dropLast.reverse.dropWhile isAcrChar).reverse.dropLast =
                      (l.dropLast.reverse.dropWhile isAcrChar).reverse.dropLast.dropLast ++ [c1] :=
                    getLast?_decomp _ c1 hvl
                  rw [hl]
                  conv_lhs => rw [htdec, hu, hv]
                  rw [hm1e, hacre]
                  simp [List.append_assoc]
                · intro c hc
                  rw [← hacre] at hc
                  rw [List.mem_reverse] at hc
                  exact List.mem_takeWhile_imp hc
          · rw [if_neg hre] at h
            cases h
      · rw [if_neg h40] at h
        cases h
  · rw [if_neg h41] at h
    cases h

theorem relationshipMatch_canon {k1 k2 : Str} (hk1 : k1 ∈ kinWords)
    (hk2 : k2 ∈ kinWords) :
    relationshipMatch (k1 ++ 32 :: (k2 ++ 32 :: str "relationship")) = true := by
  obtain ⟨h2, k2t, hk2e⟩ : ∃ h k2t, k2 = h :: k2t := by
    cases hx : k2 with
    | nil => exact absurd hx (kin_good k2 hk2).1
    | cons h k2t => exact ⟨h, k2t, rfl⟩
  have hh2 : reSpace h2 = false :=
    ((kin_good k2 hk2).2 h2 (by rw [hk2e]; exact List.mem_cons_self _ _)).2.1
  unfold relationshipMatch spanSpace
  rw [stripOne_kin hk1 (k2 ++ 32 :: str "relationship")]
  dsimp only
  rw [show (32 :: (k2 ++ 32 :: str "relationship") : Str)
      = [32] ++ (k2 ++ 32 :: str "relationship") from rfl]
  rw [takeWhile_append_all reSpace [32] _ (by decide)
    (Or.inr ⟨h2, _, by rw [hk2e]; rfl, hh2⟩)]
  rw [if_neg (by simp)]
  rw [dropWhile_append_head reSpace [32] _ (by decide)
    (Or.inr ⟨h2, _, by rw [hk2e]; rfl, hh2⟩)]
  rw [stripOne_kin hk2 (str "relationship")]
  dsimp only
  rw [if_neg (by simp)]
  decide

/-! ### Second-pass fixpoint lemmas for the rewriting patterns -/

theorem append_ne_nil_right {X Y : Str} (h : Y ≠ []) : X ++ Y ≠ [] :=
  fun he => h (List.append_eq_nil.mp he).2

theorem append_ne_nil_left {X Y : Str} (h : X ≠ []) : X ++ Y ≠ [] :=
  fun he => h (List.append_eq_nil.mp he).1

theorem noLead_of_tidy_space {rest : Str} (h : tidy (32 :: rest) = true) :
    NoLead rest := by
  intro c hc
  obtain ⟨d, rt, hre⟩ : ∃ d rt, rest = d :: rt := by
    cases hx : rest with
    | nil => rw [hx] at hc; cases hc
    | cons d rt => exact ⟨d, rt, rfl⟩
  rw [hre] at hc
  simp only [List.head?_cons, Option.some.injEq] at hc
  rw [← hc]
  have hadj := (tidy_cons h).2.2 d rt hre
  have hne32 : d ≠ 32 := fun h32 => hadj ⟨rfl, h32⟩
  by_cases hg : goSpace d = true
  · exact absurd (tidy_space_is_32 h d (by rw [hre]; simp) hg) hne32
  · cases hgc : goSpace d
    · rfl
    · exact absurd hgc hg

theorem cityState_fix {l m1 m2 : Str}
    (hltidy : tidy l = true) (hllead : NoLead l) (hltrail : NoTrail l)
    (hlfix : ∀ c ∈ l, toLowerR c = c)
    (hcs : cityStateMatch l = some (m1, m2)) :
    normalizeKeyword (applyTitleCase m1 ++ str ", " ++ applyTitleCase m2)
      = applyTitleCase m1 ++ str ", " ++ applyTitleCase m2 := by
  obtain ⟨sp, hsplit, hspc, hm1ne, hm1c, hm2c, hm2ne, hm2h⟩ :=
    cityStateMatch_struct hltrail hltidy hcs
  obtain ⟨h0, m1t, hm1e⟩ : ∃ h0 m1t, m1 = h0 :: m1t := by
    cases hx : m1 with
    | nil => exact absurd hx hm1ne
    | cons h0 m1t => exact ⟨h0, m1t, rfl⟩
  have hm1lead : NoLead m1 := by
    intro c hc
    refine hllead c ?_
    rw [hsplit, head_append_left hm1ne]
    exact hc
  have hh0 : goSpace h0 = false := hm1lead h0 (by rw [hm1e]; rfl)
  have hfne1 : fields m1 ≠ [] := fields_ne_nil (by rw [hm1e]; rfl) hh0
  have hm2tidy : tidy m2 = true := by
    rw [hsplit] at hltidy
    exact tidy_append_right (tidy_tail (tidy_append_right hltidy))
  have hm2lead : NoLead m2 := hm2h
  have hm2trail : NoTrail m2 := by
    intro c hc
    refine hltrail c ?_
    rw [hsplit, getLast?_append_right m1 (by simp),
      show (44 :: (sp ++ m2) : Str) = [44] ++ (sp ++ m2) from rfl,
      getLast?_append_right [44] (append_ne_nil_right hm2ne),
      getLast?_append_right sp hm2ne]
    exact hc
  have hm2F3 : unwords (fields m2) = m2 := unwords_fields hm2tidy hm2lead hm2trail
  obtain ⟨g0, m2t, hm2e⟩ : ∃ g0 m2t, m2 = g0 :: m2t := by
    cases hx : m2 with
    | nil => exact absurd hx hm2ne
    | cons g0 m2t => exact ⟨g0, m2t, rfl⟩
  have hg0 : goSpace g0 = false := hm2lead g0 (by rw [hm2e]; rfl)
  have hfne2 : fields m2 ≠ [] := fields_ne_nil (by rw [hm2e]; rfl) hg0
  have hm1fix : ∀ c ∈ m1, toLowerR c = c := by
    intro c hc
    refine hlfix c ?_
    rw [hsplit]
    exact List.mem_append.mpr (Or.inl hc)
  have hm2fix : ∀ c ∈ m2, toLowerR c = c := by
    intro c hc
    refine hlfix c ?_
    rw [hsplit]
    refine List.mem_append.mpr (Or.inr (List.mem_cons_of_mem 44 ?_))
    exact List.mem_append.mpr (Or.inr hc)
  have hTC1low : toLowerStr (applyTitleCase m1) = unwords (fields m1) := by
    rw [toLowerStr_applyTitleCase hfne1, fields_lowFixed hm1fix]
  have hTC2low : toLowerStr (applyTitleCase m2) = m2 := by
    rw [toLowerStr_applyTitleCase hfne2, fields_lowFixed hm2fix, hm2F3]
  have hAgood : GoodWords (fields m1) := fields_goodWords m1
  have hAne : unwords (fields m1) ≠ [] := unwords_ne_nil hAgood hfne1
  have hA44 : ¬(44 : Nat) ∈ unwords (fields m1) := by
    intro hmem
    rcases mem_unwords _ 44 hmem with h32 | ⟨w, hw, hcw⟩
    · exact absurd h32 (by decide)
    · exact hm1c (mem_fields_mem m1 w hw 44 hcw)
  have hl2 : toLowerStr (applyTitleCase m1 ++ str ", " ++ applyTitleCase m2)
      = unwords (fields m1) ++ 44 :: 32 :: m2 := by
    rw [toLowerStr_append, toLowerStr_append, hTC1low, hTC2low]
    rw [show toLowerStr (str ", ") = 44 :: 32 :: [] from rfl]
    simp [List.append_assoc]
  have hm2h' : ∀ c, m2.head? = some c → reSpace c = false := by
    intro c hc
    cases hr : reSpace c
    · rfl
    · exact absurd (reSpace_le_goSpace c hr) (by rw [hm2h c hc]; simp)
  have hcs2 : cityStateMatch (unwords (fields m1) ++ 44 :: 32 :: m2)
      = some (unwords (fields m1), m2) :=
    cityStateMatch_canon hAne hA44 hm2ne hm2c hm2h'
  have hmem44 : (44 : Nat) ∈ unwords (fields m1) ++ 44 :: 32 :: m2 :=
    List.mem_append.mpr (Or.inr (List.mem_cons_self _ _))
  have htrim : trimSpace (applyTitleCase m1 ++ str ", " ++ applyTitleCase m2)
      = applyTitleCase m1 ++ str ", " ++ applyTitleCase m2 := by
    refine trimSpace_of_ends ?_ ?_
    · exact noLead_append_left
        (noLead_append_left (applyTitleCase_noLead hfne1)
          (applyTitleCase_ne_nil hfne1))
        (append_ne_nil_left (applyTitleCase_ne_nil hfne1))
    · exact noTrail_append_right (applyTitleCase_noTrail hfne2)
        (applyTitleCase_ne_nil hfne2)
  have hne : applyTitleCase m1 ++ str ", " ++ applyTitleCase m2 ≠ [] :=
    append_ne_nil_right (applyTitleCase_ne_nil hfne2)
  have hTCA : applyTitleCase (unwords (fields m1)) = applyTitleCase m1 := by
    have hfieldsA : fields (unwords (fields m1)) = fields m1 :=
      fields_unwords _ hAgood hfne1
    rw [applyTitleCase_eq (by rw [hfieldsA]; exact hfne1), hfieldsA,
      ← applyTitleCase_eq hfne1]
  have hpat2 : applyPatternNormalization (unwords (fields m1) ++ 44 :: 32 :: m2)
      = some (applyTitleCase m1 ++ str ", " ++ applyTitleCase m2) := by
    unfold applyPatternNormalization
    rw [if_neg (by rw [decadeMatch_false_of_44 hmem44]; simp)]
    rw [hcs2]
    dsimp only
    rw [hTCA]
  exact normalizeKeyword_fix htrim hne hl2
    (crit_none_of_44 hmem44) hpat2

theorem versus_fix {l w1 w2 : Str}
    (hlfix : ∀ c ∈ l, toLowerR c = c)
    (hv : versusFind l = some (w1, w2)) :
    normalizeKeyword (applyTitleCase w1 ++ str " vs " ++ applyTitleCase w2)
      = applyTitleCase w1 ++ str " vs " ++ applyTitleCase w2 := by
  obtain ⟨hw1ne, hw2ne, hp1, hp2⟩ := versusFind_props hv
  have hgw1 : GoodWord w1 :=
    ⟨hw1ne, fun c hc => isWordR_not_goSpace c (hp1 c hc).1⟩
  have hgw2 : GoodWord w2 :=
    ⟨hw2ne, fun c hc => isWordR_not_goSpace c (hp2 c hc).1⟩
  have hf1 : fields w1 = [w1] := fields_single w1 hgw1.1 hgw1.2
  have hf2 : fields w2 = [w2] := fields_single w2 hgw2.1 hgw2.2
  have hfne1 : fields w1 ≠ [] := by rw [hf1]; simp
  have hfne2 : fields w2 ≠ [] := by rw [hf2]; simp
  have hw1fix : ∀ c ∈ w1, toLowerR c = c := fun c hc => hlfix c (hp1 c hc).2
  have hw2fix : ∀ c ∈ w2, toLowerR c = c := fun c hc => hlfix c (hp2 c hc).2
  have hTC1low : toLowerStr (applyTitleCase w1) = w1 := by
    rw [toLowerStr_applyTitleCase hfne1, fields_lowFixed hw1fix, hf1]
    rfl
  have hTC2low : toLowerStr (applyTitleCase w2) = w2 := by
    rw [toLowerStr_applyTitleCase hfne2, fields_lowFixed hw2fix, hf2]
    rfl
  have hl2 : toLowerStr (applyTitleCase w1 ++ str " vs " ++ applyTitleCase w2)
      = w1 ++ 32 :: 118 :: 115 :: 32 :: w2 := by
    rw [toLowerStr_append, toLowerStr_append, hTC1low, hTC2low]
    rw [show toLowerStr (str " vs ") = 32 :: 118 :: 115 :: 32 :: [] from rfl]
    simp [List.append_assoc]
  have hc1 : List.count 32 w1 = 0 :=
    count32_eq_zero (fun hm => isWordR_ne_32 (hp1 32 hm).1 rfl)
  have hc2 : List.count 32 w2 = 0 :=
    count32_eq_zero (fun hm => isWordR_ne_32 (hp2 32 hm).1 rfl)
  have hcount : 2 ≤ List.count 32 (w1 ++ 32 :: 118 :: 115 :: 32 :: w2) := by
    rw [List.count_append, hc1]
    simp [List.count_cons, hc2]
  have hmem32 : (32 : Nat) ∈ w1 ++ 32 :: 118 :: 115 :: 32 :: w2 :=
    List.mem_append.mpr (Or.inr (List.mem_cons_self _ _))
  have h44 : ¬(44 : Nat) ∈ w1 ++ 32 :: 118 :: 115 :: 32 :: w2 := by
    intro hm
    rcases List.mem_append.mp hm with h | h
    · exact isWordR_ne_44 44 (hp1 44 h).1 rfl
    · simp only [List.mem_cons] at h
      rcases h with h | h | h | h | h
      · exact absurd h (by decide)
      · exact absurd h (by decide)
      · exact absurd h (by decide)
      · exact absurd h (by decide)
      · exact isWordR_ne_44 44 (hp2 44 h).1 rfl
  have htrim : trimSpace (applyTitleCase w1 ++ str " vs " ++ applyTitleCase w2)
      = applyTitleCase w1 ++ str " vs " ++ applyTitleCase w2 := by
    refine trimSpace_of_ends ?_ ?_
    · exact noLead_append_left
        (noLead_append_left (applyTitleCase_noLead hfne1)
          (applyTitleCase_ne_nil hfne1))
        (append_ne_nil_left (applyTitleCase_ne_nil hfne1))
    · exact noTrail_append_right (applyTitleCase_noTrail hfne2)
        (applyTitleCase_ne_nil hfne2)
  have hne : applyTitleCase w1 ++ str " vs " ++ applyTitleCase w2 ≠ [] :=
    append_ne_nil_right (applyTitleCase_ne_nil hfne2)
  have hpat2 : applyPatternNormalization (w1 ++ 32 :: 118 :: 115 :: 32 :: w2)
      = some (applyTitleCase w1 ++ str " vs " ++ applyTitleCase w2) := by
    unfold applyPatternNormalization
    rw [if_neg (by rw [decadeMatch_false_of_32 hmem32]; simp)]
    rw [cityStateMatch_none_no44 h44]
    dsimp only
    rw [versusFind_canon hw1ne hw2ne (fun c hc => (hp1 c hc).1)
      (fun c hc => (hp2 c hc).1)]
  exact normalizeKeyword_fix htrim hne hl2 (crit_none_of_two_spaces hcount) hpat2

theorem relA_fix {k1 k2 : Str} (hk1 : k1 ∈ kinWords) (hk2 : k2 ∈ kinWords) :
    normalizeKeyword
        (unwords ((fields (k1 ++ 32 :: k2)).map titleCase) ++ str " Relationship")
      = unwords ((fields (k1 ++ 32 :: k2)).map titleCase) ++ str " Relationship" := by
  have hg1 : GoodWord k1 :=
    ⟨(kin_good k1 hk1).1, fun c hc => ((kin_good k1 hk1).2 c hc).1⟩
  have hg2 : GoodWord k2 :=
    ⟨(kin_good k2 hk2).1, fun c hc => ((kin_good k2 hk2).2 c hc).1⟩
  have hgrel : GoodWord (str "relationship") := ⟨by decide, by decide⟩
  have hfix1 : ∀ c ∈ k1, toLowerR c = c :=
    fun c hc => ((kin_good k1 hk1).2 c hc).2.2.2.1
  have hfix2 : ∀ c ∈ k2, toLowerR c = c :=
    fun c hc => ((kin_good k2 hk2).2 c hc).2.2.2.1
  have hfields : fields (k1 ++ 32 :: k2) = [k1, k2] := fields_two hg1 hg2
  rw [hfields]
  have hTCgood : GoodWords [titleCase k1, titleCase k2] := by
    intro w hw
    simp only [List.mem_cons, List.not_mem_nil, or_false] at hw
    rcases hw with rfl | rfl
    · exact goodWord_titleCase hg1
    · exact goodWord_titleCase hg2
  have hUne : unwords [titleCase k1, titleCase k2] ≠ [] :=
    unwords_ne_nil hTCgood (by simp)
  have hmaps : ([k1, k2].map titleCase : List Str)
      = [titleCase k1, titleCase k2] := rfl
  rw [hmaps]
  have hTClow : toLowerStr (unwords [titleCase k1, titleCase k2])
      = k1 ++ 32 :: k2 := by
    rw [toLowerStr_unwords]
    rw [show ([titleCase k1, titleCase k2].map toLowerStr : List Str)
        = [toLowerStr (titleCase k1), toLowerStr (titleCase k2)] from rfl]
    rw [toLower_titleCase_self hfix1, toLower_titleCase_self hfix2]
    rfl
  have hl2 : toLowerStr (unwords [titleCase k1, titleCase k2] ++ str " Relationship")
      = k1 ++ 32 :: (k2 ++ 32 :: str "relationship") := by
    rw [toLowerStr_append, hTClow]
    rw [show toLowerStr (str " Relationship") = 32 :: str "relationship" from rfl]
    simp [List.append_assoc]
  have hk1ne32 : ¬(32 : Nat) ∈ k1 :=
    fun hm => ((kin_good k1 hk1).2 32 hm).2.2.2.2.2 rfl
  have hk2ne32 : ¬(32 : Nat) ∈ k2 :=
    fun hm => ((kin_good k2 hk2).2 32 hm).2.2.2.2.2 rfl
  have hcount : 2 ≤ List.count 32 (k1 ++ 32 :: (k2 ++ 32 :: str "relationship")) := by
    rw [List.count_append, count32_eq_zero hk1ne32]
    simp [List.count_cons, List.count_append, count32_eq_zero hk2ne32]
  have hmem32 : (32 : Nat) ∈ k1 ++ 32 :: (k2 ++ 32 :: str "relationship") :=
    List.mem_append.mpr (Or.inr (List.mem_cons_self _ _))
  have h44 : ¬(44 : Nat) ∈ k1 ++ 32 :: (k2 ++ 32 :: str "relationship") := by
    intro hm
    rcases List.mem_append.mp hm with h | h
    · exact ((kin_good k1 hk1).2 44 h).2.2.2.2.1 rfl
    · rcases List.mem_cons.mp h with h | h
      · exact absurd h (by decide)
      · rcases List.mem_append.mp h with h | h
        · exact ((kin_good k2 hk2).2 44 h).2.2.2.2.1 rfl
        · rcases List.mem_cons.mp h with h | h
          · exact absurd h (by decide)
          · exact absurd h (by decide)
  have hw1 : ∀ c ∈ k1, isWordR c = true :=
    fun c hc => ((kin_good k1 hk1).2 c hc).2.2.1
  have hw2 : ∀ c ∈ k2, isWordR c = true :=
    fun c hc => ((kin_good k2 hk2).2 c hc).2.2.1
  have hk2vs : k2 ≠ [118, 115] := by
    have := kin_no_vs k2 hk2
    intro he
    exact this (by rw [he]; rfl)
  have htrailR : NoTrail (str " Relationship") := by
    intro c hc
    have h112 : (str " Relationship").getLast? = some 112 := rfl
    rw [h112] at hc
    have := Option.some.inj hc
    rw [← this]
    decide
  have htrim : trimSpace (unwords [titleCase k1, titleCase k2] ++ str " Relationship")
      = unwords [titleCase k1, titleCase k2] ++ str " Relationship" := by
    refine trimSpace_of_ends ?_ ?_
    · exact noLead_append_left (noLead_unwords hTCgood) hUne
    · exact noTrail_append_right htrailR (by decide)
  have hne : unwords [titleCase k1, titleCase k2] ++ str " Relationship" ≠ [] :=
    append_ne_nil_right (by decide)
  have hlow3 : toLowerStr (unwords [titleCase k1, titleCase k2,
      titleCase (str "relationship")]) = k1 ++ 32 :: (k2 ++ 32 :: str "relationship") := by
    rw [toLowerStr_unwords]
    rw [show ([titleCase k1, titleCase k2, titleCase (str "relationship")].map
        toLowerStr : List Str) = [toLowerStr (titleCase k1),
        toLowerStr (titleCase k2), toLowerStr (titleCase (str "relationship"))]
      from rfl]
    rw [toLower_titleCase_self hfix1, toLower_titleCase_self hfix2,
      toLower_titleCase_self (by decide)]
    rfl
  have hsuf : hasSuffixLower (unwords [titleCase k1, titleCase k2,
      titleCase (str "relationship")]) (str "relationship") = true := by
    unfold hasSuffixLower
    rw [hlow3]
    rw [show k1 ++ 32 :: (k2 ++ 32 :: str "relationship")
        = (k1 ++ 32 :: (k2 ++ [32])) ++ str "relationship" by
      simp [List.append_assoc]]
    exact isSuf_append _ _
  have hjoin : unwords [titleCase k1, titleCase k2, titleCase (str "relationship")]
      = unwords [titleCase k1, titleCase k2] ++ str " Relationship" := by
    rw [show titleCase (str "relationship") = str "Relationship" by decide]
    show titleCase k1 ++ 32 :: (titleCase k2 ++ 32 :: str "Relationship")
      = (titleCase k1 ++ 32 :: titleCase k2) ++ str " Relationship"
    rw [show (str " Relationship" : Str) = 32 :: str "Relationship" from rfl]
    simp [List.append_assoc]
  have hpat2 : applyPatternNormalization (k1 ++ 32 :: (k2 ++ 32 :: str "relationship"))
      = some (unwords [titleCase k1, titleCase k2] ++ str " Relationship") := by
    unfold applyPatternNormalization
    rw [if_neg (by rw [decadeMatch_false_of_32 hmem32]; simp)]
    rw [cityStateMatch_none_no44 h44]
    dsimp only
    rw [versus_three_none hg1.1 hg2.1 (by decide) hw1 hw2 (by decide) hk2vs]
    dsimp only
    rw [basedOn_none_kin k1 hk1 (32 :: (k2 ++ 32 :: str "relationship"))]
    dsimp only
    rw [if_pos (relationshipMatch_canon hk1 hk2)]
    rw [fields_three hg1 hg2 hgrel]
    rw [show ([k1, k2, str "relationship"].map titleCase : List Str)
        = [titleCase k1, titleCase k2, titleCase (str "relationship")] from rfl]
    rw [if_pos hsuf, hjoin]
  exact normalizeKeyword_fix htrim hne hl2 (crit_none_of_two_spaces hcount) hpat2

/-! ### Facts for the self-lowercasing (free) pattern outputs -/

theorem ordOK_fixed {a b : Nat} (h : ordOK a b = true) :
    toLowerR a = a ∧ toLowerR b = b ∧ goSpace a = false ∧ goSpace b = false := by
  simp only [ordOK, Bool.or_eq_true, Bool.and_eq_true, decide_eq_true_eq] at h
  refine ⟨toLowerR_eq_self_of_not_upper ?_, toLowerR_eq_self_of_not_upper ?_, ?_, ?_⟩
  · simp only [isUpperR, Bool.and_eq_false_iff, decide_eq_false_iff_not]
    right
    omega
  · simp only [isUpperR, Bool.and_eq_false_iff, decide_eq_false_iff_not]
    right
    omega
  · simp only [goSpace, Bool.or_eq_false_iff, decide_eq_false_iff_not]
    omega
  · simp only [goSpace, Bool.or_eq_false_iff, decide_eq_false_iff_not]
    omega

theorem basedOn_free {l rest : Str} (hltidy : tidy l = true)
    (hltrail : NoTrail l) (hlfix : ∀ c ∈ l, toLowerR c = c)
    (hbo : basedOnMatch l = some rest) :
    trimSpace (str "Based on " ++ applyTitleCase rest)
        = str "Based on " ++ applyTitleCase rest ∧
      toLowerStr (str "Based on " ++ applyTitleCase rest) = l ∧
      str "Based on " ++ applyTitleCase rest ≠ [] := by
  obtain ⟨hsh, hrne, _⟩ := basedOnMatch_struct hbo
  have hl9 : l = str "based on" ++ (32 :: rest) := by
    rw [hsh]
    rfl
  have htsp : tidy (32 :: rest) = true := by
    rw [hl9] at hltidy
    exact tidy_append_right hltidy
  have hrlead : NoLead rest := noLead_of_tidy_space htsp
  have hrtrail : NoTrail rest := by
    intro c hc
    refine hltrail c ?_
    rw [hsh, getLast?_append_right _ hrne]
    exact hc
  have hrtidy : tidy rest = true := tidy_tail htsp
  have hF3 : unwords (fields rest) = rest := unwords_fields hrtidy hrlead hrtrail
  obtain ⟨h0, rt, hre⟩ : ∃ h0 rt, rest = h0 :: rt := by
    cases hx : rest with
    | nil => exact absurd hx hrne
    | cons h0 rt => exact ⟨h0, rt, rfl⟩
  have hfne : fields rest ≠ [] :=
    fields_ne_nil (by rw [hre]; rfl) (hrlead h0 (by rw [hre]; rfl))
  have hrfix : ∀ c ∈ rest, toLowerR c = c := by
    intro c hc
    refine hlfix c ?_
    rw [hsh]
    exact List.mem_append.mpr (Or.inr hc)
  refine ⟨?_, ?_, ?_⟩
  · refine trimSpace_of_ends ?_ ?_
    · refine noLead_append_left ?_ (by decide)
      intro c hc
      have h66 : (str "Based on ").head? = some 66 := rfl
      rw [h66] at hc
      rw [← Option.some.inj hc]
      decide
    · exact noTrail_append_right (applyTitleCase_noTrail hfne)
        (applyTitleCase_ne_nil hfne)
  · rw [toLowerStr_append, toLowerStr_applyTitleCase hfne, fields_lowFixed hrfix,
      hF3, show toLowerStr (str "Based on ") = str "based on " from rfl, ← hsh]
  · exact append_ne_nil_left (by decide)

theorem eth_free {e dsc : Str} (he : e ∈ ethWords) (hd : dsc ∈ descWords) :
    trimSpace (unwords [titleCase e, titleCase dsc])
        = unwords [titleCase e, titleCase dsc] ∧
      toLowerStr (unwords [titleCase e, titleCase dsc]) = e ++ 32 :: dsc ∧
      unwords [titleCase e, titleCase dsc] ≠ [] := by
  have hge : GoodWord e := ⟨(eth_good e he).1, fun c hc => ((eth_good e he).2 c hc).1⟩
  have hgd : GoodWord dsc := ⟨(desc_good dsc hd).1, fun c hc => ((desc_good dsc hd).2 c hc).1⟩
  have hfixe : ∀ c ∈ e, toLowerR c = c := fun c hc => ((eth_good e he).2 c hc).2
  have hfixd : ∀ c ∈ dsc, toLowerR c = c := fun c hc => ((desc_good dsc hd).2 c hc).2
  have hgood : GoodWords [titleCase e, titleCase dsc] := by
    intro w hw
    simp only [List.mem_cons, List.not_mem_nil, or_false] at hw
    rcases hw with rfl | rfl
    · exact goodWord_titleCase hge
    · exact goodWord_titleCase hgd
  refine ⟨trimSpace_unwords hgood, ?_, unwords_ne_nil hgood (by simp)⟩
  rw [toLowerStr_unwords]
  rw [show ([titleCase e, titleCase dsc].map toLowerStr : List Str)
      = [toLowerStr (titleCase e), toLowerStr (titleCase dsc)] from rfl]
  rw [toLower_titleCase_self hfixe, toLower_titleCase_self hfixd]
  rfl

theorem relB_free {k1 k2 : Str} (hk1 : k1 ∈ kinWords) (hk2 : k2 ∈ kinWords) :
    trimSpace (unwords [titleCase k1, titleCase k2, titleCase (str "relationship")])
        = unwords [titleCase k1, titleCase k2, titleCase (str "relationship")] ∧
      toLowerStr (unwords [titleCase k1, titleCase k2, titleCase (str "relationship")])
        = k1 ++ 32 :: (k2 ++ 32 :: str "relationship") ∧
      unwords [titleCase k1, titleCase k2, titleCase (str "relationship")] ≠ [] ∧
      hasSuffixLower (unwords [titleCase k1, titleCase k2,
        titleCase (str "relationship")]) (str "relationship") = true := by
  have hg1 : GoodWord k1 :=
    ⟨(kin_good k1 hk1).1, fun c hc => ((kin_good k1 hk1).2 c hc).1⟩
  have hg2 : GoodWord k2 :=
    ⟨(kin_good k2 hk2).1, fun c hc => ((kin_good k2 hk2).2 c hc).1⟩
  have hfix1 : ∀ c ∈ k1, toLowerR c = c :=
    fun c hc => ((kin_good k1 hk1).2 c hc).2.2.2.1
  have hfix2 : ∀ c ∈ k2, toLowerR c = c :=
    fun c hc => ((kin_good k2 hk2).2 c hc).2.2.2.1
  have hgood : GoodWords [titleCase k1, titleCase k2, titleCase (str "relationship")] := by
    intro w hw
    simp only [List.mem_cons, List.not_mem_nil, or_false] at hw
    rcases hw with rfl | rfl | rfl
    · exact goodWord_titleCase hg1
    · exact goodWord_titleCase hg2
    · exact goodWord_titleCase ⟨by decide, by decide⟩
  have hlow3 : toLowerStr (unwords [titleCase k1, titleCase k2,
      titleCase (str "relationship")]) = k1 ++ 32 :: (k2 ++ 32 :: str "relationship") := by
    rw [toLowerStr_unwords]
    rw [show ([titleCase k1, titleCase k2, titleCase (str "relationship")].map
        toLowerStr : List Str) = [toLowerStr (titleCase k1),
        toLowerStr (titleCase k2), toLowerStr (titleCase (str "relationship"))]
      from rfl]
    rw [toLower_titleCase_self hfix1, toLower_titleCase_self hfix2,
      toLower_titleCase_self (by decide)]
    rfl
  refine ⟨trimSpace_unwords hgood, hlow3, unwords_ne_nil hgood (by simp), ?_⟩
  unfold hasSuffixLower
  rw [hlow3]
  rw [show k1 ++ 32 :: (k2 ++ 32 :: str "relationship")
      = (k1 ++ 32 :: (k2 ++ [32])) ++ str "relationship" by
    simp [List.append_assoc]]
  exact isSuf_append _ _

theorem parens_free {l m1 acr : Str} (hltidy : tidy l = true)
    (hllead : NoLead l) (hlfix : ∀ c ∈ l, toLowerR c = c)
    (hsplit : l = m1 ++ 32 :: (40 :: (acr ++ [41])))
    (hacrc : ∀ c ∈ acr, isAcrChar c = true) (hm1ne : m1 ≠ []) :
    trimSpace (applyTitleCase m1 ++ str " (" ++ toUpperStr acr ++ str ")")
        = applyTitleCase m1 ++ str " (" ++ toUpperStr acr ++ str ")" ∧
      toLowerStr (applyTitleCase m1 ++ str " (" ++ toUpperStr acr ++ str ")") = l ∧
      applyTitleCase m1 ++ str " (" ++ toUpperStr acr ++ str ")" ≠ [] := by
  have hm1lead : NoLead m1 := by
    intro c hc
    refine hllead c ?_
    rw [hsplit, head_append_left hm1ne]
    exact hc
  obtain ⟨h0, m1t, hm1e⟩ : ∃ h0 m1t, m1 = h0 :: m1t := by
    cases hx : m1 with
    | nil => exact absurd hx hm1ne
    | cons h0 m1t => exact ⟨h0, m1t, rfl⟩
  have hfne : fields m1 ≠ [] :=
    fields_ne_nil (by rw [hm1e]; rfl) (hm1lead h0 (by rw [hm1e]; rfl))
  have hm1tidy : tidy m1 = true := by
    rw [hsplit] at hltidy
    exact tidy_append_left hltidy
  have hm1trail : NoTrail m1 := by
    intro c hc
    have hne32 : c ≠ 32 := by
      refine tidy_no_trail32 m1 (40 :: (acr ++ [41])) ?_ hc
      rw [← hsplit]
      exact hltidy
    by_cases hg : goSpace c = true
    · exfalso
      refine hne32 ?_
      refine tidy_space_is_32 hltidy c ?_ hg
      rw [hsplit]
      exact List.mem_append.mpr (Or.inl (getLast?_mem m1 c hc))
    · cases hgc : goSpace c
      · rfl
      · exact absurd hgc hg
  have hF3 : unwords (fields m1) = m1 :=
    unwords_fields hm1tidy hm1lead hm1trail
  have hm1fix : ∀ c ∈ m1, toLowerR c = c := by
    intro c hc
    refine hlfix c ?_
    rw [hsplit]
    exact List.mem_append.mpr (Or.inl hc)
  have hacrfix : ∀ c ∈ acr, toLowerR c = c := fun c hc => isAcrChar_fixed (hacrc c hc)
  refine ⟨?_, ?_, ?_⟩
  · refine trimSpace_of_ends ?_ ?_
    · exact noLead_append_left
        (noLead_append_left
          (noLead_append_left (applyTitleCase_noLead hfne)
            (applyTitleCase_ne_nil hfne))
          (append_ne_nil_left (applyTitleCase_ne_nil hfne)))
        (append_ne_nil_left (append_ne_nil_left (applyTitleCase_ne_nil hfne)))
    · refine noTrail_append_right ?_ (by decide)
      intro c hc
      have h41 : (str ")").getLast? = some 41 := rfl
      rw [h41] at hc
      rw [← Option.some.inj hc]
      decide
  · rw [toLowerStr_append, toLowerStr_append, toLowerStr_append,
      toLowerStr_applyTitleCase hfne, fields_lowFixed hm1fix, hF3,
      toLowerStr_toUpperStr, (lowFixed_iff acr).mpr hacrfix,
      show toLowerStr (str " (") = 32 :: 40 :: [] from rfl,
      show toLowerStr (str ")") = 41 :: [] from rfl, hsplit]
    simp [List.append_assoc]
  · exact append_ne_nil_right (by decide)

theorem agency_free {l ag role X : Str}
    (hsplit : l = ag ++ 32 :: role) (hrole : role ∈ roleWords)
    (hX : toLowerStr X = ag) (hXlead : NoLead X) (hXne : X ≠ []) :
    trimSpace (X ++ 32 :: titleCase role) = X ++ 32 :: titleCase role ∧
      toLowerStr (X ++ 32 :: titleCase role) = l ∧
      X ++ 32 :: titleCase role ≠ [] := by
  obtain ⟨hrne, hrlast, hrhead, hrlow⟩ := role_facts role hrole
  have hrtrail : NoTrail role := by
    intro c hc
    rw [hc] at hrlast
    exact Option.some.inj hrlast
  have hTCne : titleCase role ≠ [] := by
    intro h
    have := length_titleCase role
    rw [h] at this
    exact hrne (List.eq_nil_of_length_eq_zero this.symm)
  refine ⟨?_, ?_, ?_⟩
  · refine trimSpace_of_ends (noLead_append_left hXlead hXne) ?_
    refine noTrail_append_right ?_ (by simp)
    intro c hc
    rw [show (32 :: titleCase role : Str) = [32] ++ titleCase role from rfl,
      getLast?_append_right [32] hTCne] at hc
    exact noTrail_of_toLower_eq (toLowerStr_titleCase role) hrtrail c hc
  · rw [toLowerStr_append, hX, toLowerStr_cons,
      show toLowerR 32 = 32 by decide, toLowerStr_titleCase,
      (lowFixed_iff role).mpr hrlow, hsplit]
  · exact append_ne_nil_left hXne

theorem century_free_nosuf {l ds : Str} {o1 o2 : Nat}
    (hsplit : l = ds ++ [o1, o2] ++ 32 :: str "century")
    (hdsne : ds ≠ []) (hdsdig : ∀ c ∈ ds, isDigitR c = true)
    (hord : ordOK o1 o2 = true) :
    trimSpace (ds ++ [o1, o2] ++ str " Century")
        = ds ++ [o1, o2] ++ str " Century" ∧
      toLowerStr (ds ++ [o1, o2] ++ str " Century") = l ∧
      ds ++ [o1, o2] ++ str " Century" ≠ [] := by
  have hdslead : NoLead ds := by
    intro c hc
    obtain ⟨d0, dt, hde⟩ : ∃ d0 dt, ds = d0 :: dt := by
      cases hx : ds with
      | nil => exact absurd hx hdsne
      | cons d0 dt => exact ⟨d0, dt, rfl⟩
    rw [hde] at hc
    simp only [List.head?_cons, Option.some.injEq] at hc
    rw [← hc]
    exact isDigitR_not_goSpace (hdsdig d0 (by rw [hde]; exact List.mem_cons_self _ _))
  obtain ⟨ho1, ho2, _, _⟩ := ordOK_fixed hord
  refine ⟨?_, ?_, ?_⟩
  · refine trimSpace_of_ends ?_ ?_
    · exact noLead_append_left (noLead_append_left hdslead hdsne)
        (append_ne_nil_left hdsne)
    · refine noTrail_append_right ?_ (by decide)
      intro c hc
      have h121 : (str " Century").getLast? = some 121 := rfl
      rw [h121] at hc
      rw [← Option.some.inj hc]
      decide
  · rw [toLowerStr_append, toLowerStr_append,
      (lowFixed_iff ds).mpr (fun c hc => isDigitR_fixed (hdsdig c hc)),
      show toLowerStr [o1, o2] = [toLowerR o1, toLowerR o2] from rfl, ho1, ho2,
      show toLowerStr (str " Century") = 32 :: str "century" from rfl, hsplit]
  · exact append_ne_nil_right (by decide)

theorem century_free_suf {l ds suf X : Str} {o1 o2 : Nat}
    (hsplit : l = ds ++ [o1, o2] ++ 32 :: (str "century" ++ 32 :: suf))
    (hdsne : ds ≠ []) (hdsdig : ∀ c ∈ ds, isDigitR c = true)
    (hord : ordOK o1 o2 = true)
    (hXlow : toLowerStr X = suf) (hXtrail : NoTrail X) (hXne : X ≠ []) :
    trimSpace (ds ++ [o1, o2] ++ str " Century" ++ 32 :: X)
        = ds ++ [o1, o2] ++ str " Century" ++ 32 :: X ∧
      toLowerStr (ds ++ [o1, o2] ++ str " Century" ++ 32 :: X) = l ∧
      ds ++ [o1, o2] ++ str " Century" ++ 32 :: X ≠ [] := by
  have hdslead : NoLead ds := by
    intro c hc
    obtain ⟨d0, dt, hde⟩ : ∃ d0 dt, ds = d0 :: dt := by
      cases hx : ds with
      | nil => exact absurd hx hdsne
      | cons d0 dt => exact ⟨d0, dt, rfl⟩
    rw [hde] at hc
    simp only [List.head?_cons, Option.some.injEq] at hc
    rw [← hc]
    exact isDigitR_not_goSpace (hdsdig d0 (by rw [hde]; exact List.mem_cons_self _ _))
  obtain ⟨ho1, ho2, _, _⟩ := ordOK_fixed hord
  refine ⟨?_, ?_, ?_⟩
  · refine trimSpace_of_ends ?_ ?_
    · exact noLead_append_left
        (noLead_append_left (noLead_append_left hdslead hdsne)
          (append_ne_nil_left hdsne))
        (append_ne_nil_left (append_ne_nil_left hdsne))
    · refine noTrail_append_right ?_ (by simp)
      intro c hc
      rw [show (32 :: X : Str) = [32] ++ X from rfl,
        getLast?_append_right [32] hXne] at hc
      exact hXtrail c hc
  · rw [toLowerStr_append, toLowerStr_append, toLowerStr_append,
      (lowFixed_iff ds).mpr (fun c hc => isDigitR_fixed (hdsdig c hc)),
      show toLowerStr [o1, o2] = [toLowerR o1, toLowerR o2] from rfl, ho1, ho2,
      show toLowerStr (str " Century") = 32 :: str "century" from rfl,
      toLowerStr_cons, show toLowerR 32 = 32 by decide, hXlow, hsplit]
    simp [List.append_assoc]
  · exact append_ne_nil_left (append_ne_nil_left (append_ne_nil_left hdsne))

/-- Any output of the pattern normalizer on a tidy lowercase trimmed string is
a fixpoint of `normalizeKeyword`. -/
theorem applyPattern_fix {l r : Str}
    (hltidy : tidy l = true) (hllead : NoLead l) (hltrail : NoTrail l)
    (hlfix : ∀ c ∈ l, toLowerR c = c)
    (hcrit : tableLookup criticalReplacements l = none)
    (hpat : applyPatternNormalization l = some r) :
    normalizeKeyword r = r := by
  have hpat0 := hpat
  unfold applyPatternNormalization at hpat
  by_cases hdec : decadeMatch l = true
  · rw [if_pos hdec] at hpat
    simp only [Option.some.injEq] at hpat
    subst hpat
    refine normalizeKeyword_fix (trimSpace_of_ends hllead hltrail) ?_
      ((lowFixed_iff l).mpr hlfix) hcrit hpat0
    intro h
    rw [h] at hdec
    cases hdec
  · rw [if_neg hdec] at hpat
    rcases hcs : cityStateMatch l with _ | ⟨m1, m2⟩
    · rw [hcs] at hpat
      dsimp only at hpat
      rcases hv : versusFind l with _ | ⟨w1, w2⟩
      · rw [hv] at hpat
        dsimp only at hpat
        rcases hbo : basedOnMatch l with _ | rest
        · rw [hbo] at hpat
          dsimp only at hpat
          by_cases hrel : relationshipMatch l = true
          · rw [if_pos hrel] at hpat
            obtain ⟨k1, k2, hk1, hk2, hcase⟩ := relationshipMatch_struct hltidy hrel
            have hg1 : GoodWord k1 :=
              ⟨(kin_good k1 hk1).1, fun c hc => ((kin_good k1 hk1).2 c hc).1⟩
            have hg2 : GoodWord k2 :=
              ⟨(kin_good k2 hk2).1, fun c hc => ((kin_good k2 hk2).2 c hc).1⟩
            have hfix1 : ∀ c ∈ k1, toLowerR c = c :=
              fun c hc => ((kin_good k1 hk1).2 c hc).2.2.2.1
            have hfix2 : ∀ c ∈ k2, toLowerR c = c :=
              fun c hc => ((kin_good k2 hk2).2 c hc).2.2.2.1
            rcases hcase with hl2 | hl2
            · subst hl2
              rw [fields_two hg1 hg2] at hpat
              rw [show ([k1, k2].map titleCase : List Str)
                  = [titleCase k1, titleCase k2] from rfl] at hpat
              have hTClow2 : toLowerStr (unwords [titleCase k1, titleCase k2])
                  = k1 ++ 32 :: k2 := by
                rw [toLowerStr_unwords]
                rw [show ([titleCase k1, titleCase k2].map toLowerStr : List Str)
                    = [toLowerStr (titleCase k1), toLowerStr (titleCase k2)]
                  from rfl]
                rw [toLower_titleCase_self hfix1, toLower_titleCase_self hfix2]
                rfl
              have hsuffalse : hasSuffixLower (unwords [titleCase k1, titleCase k2])
                  (str "relationship") = false := by
                unfold hasSuffixLower
                rw [hTClow2]
                exact isSuf_rel_false hk2
              rw [if_neg (by rw [hsuffalse]; simp)] at hpat
              simp only [Option.some.injEq] at hpat
              subst hpat
              have hfix := relA_fix hk1 hk2
              rw [fields_two hg1 hg2] at hfix
              rw [show ([k1, k2].map titleCase : List Str)
                  = [titleCase k1, titleCase k2] from rfl] at hfix
              exact hfix
            · subst hl2
              rw [fields_three hg1 hg2 ⟨by decide, by decide⟩] at hpat
              rw [show ([k1, k2, str "relationship"].map titleCase : List Str)
                  = [titleCase k1, titleCase k2, titleCase (str "relationship")]
                from rfl] at hpat
              obtain ⟨htrim, hlow, hne, hsuf⟩ := relB_free hk1 hk2
              rw [if_pos hsuf] at hpat
              simp only [Option.some.injEq] at hpat
              subst hpat
              exact normalizeKeyword_fix htrim hne hlow hcrit hpat0
          · rw [if_neg hrel] at hpat
            by_cases heth : ethnicityMatch l = true
            · rw [if_pos heth] at hpat
              obtain ⟨e, dsc, he, hd, hl2⟩ := ethnicityMatch_struct hltidy heth
              have hge : GoodWord e :=
                ⟨(eth_good e he).1, fun c hc => ((eth_good e he).2 c hc).1⟩
              have hgd : GoodWord dsc :=
                ⟨(desc_good dsc hd).1, fun c hc => ((desc_good dsc hd).2 c hc).1⟩
              subst hl2
              rw [fields_two hge hgd] at hpat
              rw [show ([e, dsc].map titleCase : List Str)
                  = [titleCase e, titleCase dsc] from rfl] at hpat
              simp only [Option.some.injEq] at hpat
              subst hpat
              obtain ⟨htrim, hlow, hne⟩ := eth_free he hd
              exact normalizeKeyword_fix htrim hne hlow hcrit hpat0
            · rw [if_neg heth] at hpat
              rcases hap : acronymParensMatch l with _ | ⟨m1, acr⟩
              · rw [hap] at hpat
                dsimp only at hpat
                rcases hag : agencyMatch l with _ | ⟨ag, role⟩
                · rw [hag] at hpat
                  dsimp only at hpat
                  rcases hcen : centuryMatch l with _ | ⟨ds, ord, suf⟩
                  · rw [hcen] at hpat
                    dsimp only at hpat
                    cases hpat
                  · rw [hcen] at hpat
                    dsimp only at hpat
                    obtain ⟨hdsne, hdsdig, ⟨o1, o2, hordE, hord⟩, hdisj⟩ :=
                      centuryMatch_struct hltidy hcen
                    subst hordE
                    rcases hdisj with ⟨hsufnil, hsplit⟩ | ⟨hsufne, hsufl, hsplit⟩
                    · subst hsufnil
                      rw [if_pos rfl] at hpat
                      simp only [Option.some.injEq] at hpat
                      subst hpat
                      obtain ⟨htrim, hlow, hne⟩ :=
                        century_free_nosuf hsplit hdsne hdsdig hord
                      exact normalizeKeyword_fix htrim hne hlow hcrit hpat0
                    · rw [if_neg hsufne] at hpat
                      have hsuffix : ∀ c ∈ suf, toLowerR c = c :=
                        fun c hc => toLowerR_fixed_of_lower (hsufl c hc)
                      have hsuftrail : NoTrail suf := by
                        intro c hc
                        exact isLowerR_not_goSpace (hsufl c (getLast?_mem suf c hc))
                      by_cases hcond : (memStr suf commonAcronyms ||
                          suf.length ≤ 2) = true
                      · rw [if_pos hcond] at hpat
                        simp only [Option.some.injEq] at hpat
                        subst hpat
                        obtain ⟨htrim, hlow, hne⟩ := century_free_suf hsplit hdsne
                          hdsdig hord
                          (by rw [toLowerStr_toUpperStr]
                              exact (lowFixed_iff suf).mpr hsuffix)
                          (noTrail_of_toLower_eq (toLowerStr_toUpperStr suf)
                            hsuftrail)
                          (fun h => hsufne (List.map_eq_nil_iff.mp h))
                        exact normalizeKeyword_fix htrim hne hlow hcrit hpat0
                      · rw [if_neg hcond] at hpat
                        simp only [Option.some.injEq] at hpat
                        subst hpat
                        obtain ⟨htrim, hlow, hne⟩ := century_free_suf hsplit hdsne
                          hdsdig hord (toLower_titleCase_self hsuffix)
                          (noTrail_of_toLower_eq (toLowerStr_titleCase suf)
                            hsuftrail)
                          (by
                            intro h
                            have := length_titleCase suf
                            rw [h] at this
                            exact hsufne (List.eq_nil_of_length_eq_zero this.symm))
                        exact normalizeKeyword_fix htrim hne hlow hcrit hpat0
                · rw [hag] at hpat
                  dsimp only at hpat
                  obtain ⟨hrole, hsplitAg, hlen2, hlen5, hagchars⟩ :=
                    agencyMatch_struct hltidy hag
                  have hagne : ag ≠ [] := by
                    intro h
                    rw [h] at hlen2
                    simp at hlen2
                  have hagfix : ∀ c ∈ ag, toLowerR c = c :=
                    fun c hc => toLowerR_fixed_of_lower (hagchars c hc)
                  have hagNoLead : NoLead ag := by
                    intro c hc
                    obtain ⟨a0, at0, hae⟩ : ∃ a0 at0, ag = a0 :: at0 := by
                      cases hx : ag with
                      | nil => exact absurd hx hagne
                      | cons a0 at0 => exact ⟨a0, at0, rfl⟩
                    rw [hae] at hc
                    simp only [List.head?_cons, Option.some.injEq] at hc
                    rw [← hc]
                    exact isLowerR_not_goSpace
                      (hagchars a0 (by rw [hae]; exact List.mem_cons_self _ _))
                  by_cases hcond : (memStr ag commonAcronyms || ag.length ≤ 4) = true
                  · rw [if_pos hcond] at hpat
                    simp only [Option.some.injEq] at hpat
                    subst hpat
                    obtain ⟨htrim, hlow, hne⟩ := agency_free hsplitAg hrole
                      (by rw [toLowerStr_toUpperStr]
                          exact (lowFixed_iff ag).mpr hagfix)
                      (noLead_of_toLower_eq (toLowerStr_toUpperStr ag) hagNoLead)
                      (fun h => hagne (List.map_eq_nil_iff.mp h))
                    exact normalizeKeyword_fix htrim hne hlow hcrit hpat0
                  · rw [if_neg hcond] at hpat
                    simp only [Option.some.injEq] at hpat
                    subst hpat
                    obtain ⟨htrim, hlow, hne⟩ := agency_free hsplitAg hrole
                      (toLower_titleCase_self hagfix)
                      (noLead_of_toLower_eq (toLowerStr_titleCase ag) hagNoLead)
                      (by
                        intro h
                        have := length_titleCase ag
                        rw [h] at this
                        exact hagne (List.eq_nil_of_length_eq_zero this.symm))
                    exact normalizeKeyword_fix htrim hne hlow hcrit hpat0
              · rw [hap] at hpat
                dsimp only at hpat
                simp only [Option.some.injEq] at hpat
                subst hpat
                obtain ⟨c1, hsplit0, hc1sp, hacrne, hacrc, hm1ne, _⟩ :=
                  acronymParensMatch_struct hap
                have hc132 : c1 = 32 := by
                  refine tidy_space_is_32 hltidy c1 ?_ (reSpace_le_goSpace c1 hc1sp)
                  rw [hsplit0]
                  exact List.mem_append.mpr (Or.inr (List.mem_cons_self _ _))
                subst hc132
                obtain ⟨htrim, hlow, hne⟩ :=
                  parens_free hltidy hllead hlfix hsplit0 hacrc hm1ne
                exact normalizeKeyword_fix htrim hne hlow hcrit hpat0
        · rw [hbo] at hpat
          dsimp only at hpat
          simp only [Option.some.injEq] at hpat
          subst hpat
          obtain ⟨htrim, hlow, hne⟩ := basedOn_free hltidy hltrail hlfix hbo
          exact normalizeKeyword_fix htrim hne hlow hcrit hpat0
      · rw [hv] at hpat
        dsimp only at hpat
        simp only [Option.some.injEq] at hpat
        subst hpat
        exact versus_fix hlfix hv
    · rw [hcs] at hpat
      dsimp only at hpat
      simp only [Option.some.injEq] at hpat
      subst hpat
      exact cityState_fix hltidy hllead hltrail hlfix hcs

/-- C1. Counterexample: `NormalizeKeyword` is not idempotent. The input
"sci  fi" (two spaces) first normalizes to "Sci Fi" — the whitespace run is
collapsed by the title-casing fallback — but "Sci Fi" lowercases to the
critical-table key "sci fi" and re-normalizes to "Sci-Fi", so a second
application changes the result. -/
theorem normalize_idempotent_counterexample :
    normalizeKeyword (str "sci  fi") = str "Sci Fi" ∧
      normalizeKeyword (normalizeKeyword (str "sci  fi")) = str "Sci-Fi" ∧
      normalizeKeyword (normalizeKeyword (str "sci  fi"))
        ≠ normalizeKeyword (str "sci  fi") := by
  refine ⟨by decide, by decide, by decide⟩

/-- C1 (amended). On every input whose whitespace characters are all plain
spaces with no two adjacent — in particular on every single-spaced keyword —
`NormalizeKeyword` is idempotent: a second application returns the first
result unchanged. -/
theorem normalize_idempotent_amended (s : Str) (h : tidy s = true) :
    normalizeKeyword (normalizeKeyword s) = normalizeKeyword s := by
  by_cases ht : trimSpace s = []
  · have h1 : normalizeKeyword s = [] := by
      rw [normalizeKeyword_eq, if_pos ht, ht]
    rw [h1]
    rfl
  · have httidy : tidy (trimSpace s) = true := tidy_trimSpace h
    have htlead : NoLead (trimSpace s) := noLead_trimSpace s
    have httrail : NoTrail (trimSpace s) := noTrail_trimSpace s
    set l := toLowerStr (trimSpace s) with hl
    have hltidy : tidy l = true := tidy_toLowerStr httidy
    have hllead : NoLead l := noLead_toLowerStr htlead
    have hltrail : NoTrail l := noTrail_toLowerStr httrail
    have hlfix : ∀ c ∈ l, toLowerR c = c :=
      (lowFixed_iff l).mp (by rw [hl]; exact lowFixed_toLowerStr _)
    rw [normalizeKeyword_eq s, if_neg ht, ← hl]
    rcases hcr : tableLookup criticalReplacements l with _ | v
    · dsimp only
      rcases hpt : applyPatternNormalization l with _ | r
      · dsimp only
        obtain ⟨t0, tt, hte⟩ : ∃ t0 tt, trimSpace s = t0 :: tt := by
          cases hx : trimSpace s with
          | nil => exact absurd hx ht
          | cons t0 tt => exact ⟨t0, tt, rfl⟩
        have ht0 : goSpace t0 = false := htlead t0 (by rw [hte]; rfl)
        have hfne : fields (trimSpace s) ≠ [] :=
          fields_ne_nil (by rw [hte]; rfl) ht0
        have hF3 : unwords (fields (trimSpace s)) = trimSpace s :=
          unwords_fields httidy htlead httrail
        by_cases hacr : memStr l commonAcronyms = true
        · rw [if_pos hacr]
          have hUlead : NoLead (toUpperStr (trimSpace s)) := by
            refine noLead_of_toLower_eq ?_ htlead
            exact toLowerStr_toUpperStr _
          have hUtrail : NoTrail (toUpperStr (trimSpace s)) := by
            refine noTrail_of_toLower_eq ?_ httrail
            exact toLowerStr_toUpperStr _
          have hUne : toUpperStr (trimSpace s) ≠ [] :=
            fun h0 => ht (List.map_eq_nil_iff.mp h0)
          have hUtrim : trimSpace (toUpperStr (trimSpace s))
              = toUpperStr (trimSpace s) := trimSpace_of_ends hUlead hUtrail
          have hUlow : toLowerStr (toUpperStr (trimSpace s)) = l := by
            rw [toLowerStr_toUpperStr, hl]
          rw [normalizeKeyword_eq (toUpperStr (trimSpace s)), hUtrim,
            if_neg hUne, hUlow, hcr]
          dsimp only
          rw [hpt]
          dsimp only
          rw [if_pos hacr]
          exact toUpperStr_toUpperStr (trimSpace s)
        · rw [if_neg hacr]
          have hTClead : NoLead (applyTitleCase (trimSpace s)) :=
            applyTitleCase_noLead hfne
          have hTCtrail : NoTrail (applyTitleCase (trimSpace s)) :=
            applyTitleCase_noTrail hfne
          have hTCne : applyTitleCase (trimSpace s) ≠ [] :=
            applyTitleCase_ne_nil hfne
          have hTCtrim : trimSpace (applyTitleCase (trimSpace s))
              = applyTitleCase (trimSpace s) := trimSpace_of_ends hTClead hTCtrail
          have hTClow : toLowerStr (applyTitleCase (trimSpace s)) = l := by
            rw [toLowerStr_applyTitleCase hfne, hl]
            conv_rhs => rw [← hF3]
            rw [toLowerStr_unwords]
          rw [normalizeKeyword_eq (applyTitleCase (trimSpace s)), hTCtrim,
            if_neg hTCne, hTClow, hcr]
          dsimp only
          rw [hpt]
          dsimp only
          rw [if_neg hacr]
          have hgood2 : GoodWords (tcWords true (fields (trimSpace s))) :=
            tcWords_goodWords true (fields_goodWords _)
          have hne2 : tcWords true (fields (trimSpace s)) ≠ [] :=
            tcWords_ne_nil true hfne
          rw [applyTitleCase_eq hfne]
          rw [applyTitleCase_eq (by
            rw [fields_unwords _ hgood2 hne2]
            exact hne2)]
          rw [fields_unwords _ hgood2 hne2, tcWords_idem]
      · dsimp only
        exact applyPattern_fix hltidy hllead hltrail hlfix hcr hpt
    · dsimp only
      exact crit_fixpoints (l, v) (tableLookup_mem criticalReplacements l v hcr)

/-- Witness for the amended C1 theorem at the concrete single-spaced input
"sci fi genre". -/
theorem normalize_idempotent_amended_witness :
    tidy (str "sci fi genre") = true ∧
      normalizeKeyword (normalizeKeyword (str "sci fi genre"))
        = normalizeKeyword (str "sci fi genre") :=
  ⟨by decide, normalize_idempotent_amended (str "sci fi genre") (by decide)⟩

end Labelarr
